import Mathlib

/-!
# Transactional editing of feature models (vara-feature)

A shallow embedding of `include/vara/Feature/FeatureModelTransaction.h`:
the modification commands (`AddFeatureToModel`, `AddRelationshipToModel`,
`AddConstraintToModel`, `SetName`, `SetCommit`, `SetPath`, `SetRoot`,
`AddChild`) and the two transaction bases
(`FeatureModelCopyTransactionBase`, `FeatureModelModifyTransactionBase`).

Pointers are indices into an arena (`Memory`); a nullable pointer is an
`Option Handle`.  A dereference of a null pointer or of an address that holds
no object is undefined behaviour in the source and is the `Fault.badDeref`
branch here; a failing `assert` is the `Fault.assertion` branch.

The header `FeatureModel.h` (the model, its tree nodes, its consistency rules)
lies outside the verified unit.  The definitions that stand for it are marked
"Modelled from the spec".  Assertions are modelled as enabled.
-/

namespace vara.feature

/-! ## Memory -/

/-- Address of a tree node (`FeatureTreeNode *`, `Feature *`, `Relationship *`,
`RootFeature *` that is not null). -/
abbrev Handle := Nat

/-- Address of a constraint (`Constraint *` that is not null). -/
abbrev CHandle := Nat

/-- The two ways a call can leave the defined behaviour of the source. -/
inductive Fault where
  | assertion
  | badDeref
deriving DecidableEq, Repr

/-- Equality of two outcomes can be decided when it can be for results and
faults. -/
instance instDecidableEqExcept {ε α : Type} [DecidableEq ε] [DecidableEq α] :
    DecidableEq (Except ε α)
  | .ok a, .ok b =>
    if h : a = b then isTrue (by rw [h]) else isFalse (fun h2 => h (Except.ok.inj h2))
  | .error a, .error b =>
    if h : a = b then isTrue (by rw [h]) else isFalse (fun h2 => h (Except.error.inj h2))
  | .ok _, .error _ => isFalse (fun h => by cases h)
  | .error _, .ok _ => isFalse (fun h => by cases h)

/-- Modelled from the spec: `Relationship::RelationshipKind`, the grouping kind
of a relationship node (glossary: "optional/alternative/or-group"). -/
inductive RelationshipKind where
  | RK_OPTIONAL
  | RK_ALTERNATIVE
  | RK_OR
deriving DecidableEq, Repr

/-- Modelled from the spec: the dynamic type of a tree node ("feature,
relationship node, or root"); `dyn_cast_or_null<RootFeature>` tests for
`NK_ROOT`. -/
inductive NodeKind where
  | NK_FEATURE
  | NK_ROOT
  | NK_RELATIONSHIP (Kind : RelationshipKind)
deriving DecidableEq, Repr

/-- Modelled from the spec: `FeatureTreeNode` ("has an optional parent reference
and an ordered set of child references; identity is its unique name"), together
with the constraint set a feature carries ("feature gains the constraint in its
constraint set"). -/
structure FeatureTreeNode where
  kind : NodeKind
  name : String
  parent : Option Handle
  children : List Handle
  constraints : List CHandle
deriving DecidableEq, Repr

/-- Modelled from the spec: `Constraint`.  The one case the commands look at is
the `PrimaryFeatureConstraint`, which "references exactly one feature"; every
other kind of constraint is kept as an uninterpreted tag. -/
inductive Constraint where
  | primary (feature : Option Handle)
  | other (tag : Nat)
deriving DecidableEq, Repr

/-- The arena all models share: tree nodes and constraints, addressed by
position.  Objects are never moved; a new object takes the next free
address. -/
structure Memory where
  nodes : List FeatureTreeNode
  constraints : List Constraint
deriving DecidableEq, Repr

/-- Modelled from the spec: `FeatureModel` ("a registry of tree nodes keyed by
unique name, one designated root, a list of relationship nodes, a list of
constraints, and scalar metadata (display name, source-commit identifier,
source path)"), and the "internal node ordering" that `sort` recomputes. -/
structure FeatureModel where
  name : String
  commit : String
  path : String
  features : List (String × Handle)
  root : Option Handle
  relationships : List Handle
  constraints : List CHandle
  ordered : List Handle
deriving DecidableEq, Repr

/-- Modelled from the spec: the key of the model's re-sort ("ordering is
model-defined — stable, deterministic, but its exact key is an external
collaborator's concern"); it is a parameter of every definition that sorts. -/
abbrev SortOrder := Memory → FeatureModel → List Handle

/-- The object at an address; reading an address that holds no tree node is a
fault. -/
def Memory.node (mem : Memory) (h : Handle) : Except Fault FeatureTreeNode :=
  match mem.nodes[h]? with
  | some n => .ok n
  | none => .error .badDeref

/-- In-place update of the tree node at an address. -/
def Memory.modifyNode (mem : Memory) (h : Handle)
    (f : FeatureTreeNode → FeatureTreeNode) : Except Fault Memory :=
  match mem.nodes[h]? with
  | some n => .ok { mem with nodes := mem.nodes.set h (f n) }
  | none => .error .badDeref

/-- The constraint at an address. -/
def Memory.constraint (mem : Memory) (c : CHandle) : Except Fault Constraint :=
  match mem.constraints[c]? with
  | some k => .ok k
  | none => .error .badDeref

/-- In-place update of the constraint at an address. -/
def Memory.modifyConstraint (mem : Memory) (c : CHandle)
    (f : Constraint → Constraint) : Except Fault Memory :=
  match mem.constraints[c]? with
  | some k => .ok { mem with constraints := mem.constraints.set c (f k) }
  | none => .error .badDeref

/-- The expression `*P` for a nullable pointer `P`. -/
def deref (p : Option Handle) : Except Fault Handle :=
  match p with
  | some h => .ok h
  | none => .error .badDeref

/-! ## The model interface the commands consume -/

/-- Modelled from the spec: `FeatureModel::getFeature` ("look up feature by
name"); the registry is keyed by unique name. -/
def FeatureModel.getFeature (FM : FeatureModel) (Name : String) : Option Handle :=
  (FM.features.find? (fun e => e.1 == Name)).map Prod.snd

/-- Modelled from the spec: `FeatureModel::size`, the number of registered
features (the model with root and "a" has size 2). -/
def FeatureModel.size (FM : FeatureModel) : Nat := FM.features.length

/-- Modelled from the spec: `FeatureModel::getRoot`, the designated root. -/
def FeatureModel.getRoot (FM : FeatureModel) : Option Handle := FM.root

/-- Modelled from the spec: `FeatureModel::addFeature` ("insert feature (returns
inserted handle or null on duplicate name)").  The model takes ownership of the
object: it gets the next free address and is registered under its name. -/
def FeatureModel.addFeature (mem : Memory) (FM : FeatureModel)
    (NewFeature : FeatureTreeNode) : Option Handle × Memory × FeatureModel :=
  match FM.getFeature NewFeature.name with
  | some _ => (none, mem, FM)
  | none =>
    (some mem.nodes.length,
     { mem with nodes := mem.nodes ++ [NewFeature] },
     { FM with features := FM.features ++ [(NewFeature.name, mem.nodes.length)] })

/-- Modelled from the spec: `FeatureModel::addRelationship` ("insert
relationship"); the relationship node is stored and listed, and its address is
returned. -/
def FeatureModel.addRelationship (mem : Memory) (FM : FeatureModel)
    (NewRelationship : FeatureTreeNode) : Option Handle × Memory × FeatureModel :=
  (some mem.nodes.length,
   { mem with nodes := mem.nodes ++ [NewRelationship] },
   { FM with relationships := FM.relationships ++ [mem.nodes.length] })

/-- Modelled from the spec: `FeatureModel::addConstraint` ("insert constraint");
the constraint is stored and listed, and its address is returned. -/
def FeatureModel.addConstraint (mem : Memory) (FM : FeatureModel)
    (NewConstraint : Constraint) : Option CHandle × Memory × FeatureModel :=
  (some mem.constraints.length,
   { mem with constraints := mem.constraints ++ [NewConstraint] },
   { FM with constraints := FM.constraints ++ [mem.constraints.length] })

/-- Modelled from the spec: `FeatureModel::removeFeature` ("remove feature";
the feature "is removed from the registry entirely").  The registry is keyed by
name, so the entry under the feature's name goes. -/
def FeatureModel.removeFeature (mem : Memory) (FM : FeatureModel) (F : Handle) :
    Except Fault FeatureModel := do
  let n ← mem.node F
  pure { FM with features := FM.features.filter (fun e => !(e.1 == n.name)) }

/-- Modelled from the spec: `FeatureModel::setRoot` ("set root"; "installs the
new root as the model's root"). -/
def FeatureModel.setRoot (FM : FeatureModel) (NewRoot : Handle) :
    Option Handle × FeatureModel :=
  (some NewRoot, { FM with root := some NewRoot })

/-- Modelled from the spec: `FeatureModel::sort` ("re-sort whole model"): the
internal node ordering is recomputed with the model-defined key. -/
def FeatureModel.sort (ord : SortOrder) (mem : Memory) (FM : FeatureModel) :
    FeatureModel :=
  { FM with ordered := ord mem FM }

/-- Modelled from the spec: `FeatureModel::setName` ("set name ... metadata"). -/
def FeatureModel.setName (FM : FeatureModel) (NewName : String) : FeatureModel :=
  { FM with name := NewName }

/-- Modelled from the spec: `FeatureModel::setCommit` ("set ... commit-id ...
metadata"). -/
def FeatureModel.setCommit (FM : FeatureModel) (NewCommit : String) : FeatureModel :=
  { FM with commit := NewCommit }

/-- Modelled from the spec: `FeatureModel::setPath` ("set ... path metadata"). -/
def FeatureModel.setPath (FM : FeatureModel) (NewPath : String) : FeatureModel :=
  { FM with path := NewPath }

/-- Modelled from the spec: `FeatureTreeNode::setParent` ("set parent/remove
parent on a tree node"). -/
def FeatureTreeNode.setParent (n : FeatureTreeNode) (P : Option Handle) :
    FeatureTreeNode :=
  { n with parent := P }

/-- Modelled from the spec: `FeatureTreeNode::addEdge` ("add ... a child edge on
a tree node"); the children are an ordered set, so a child that is already
there is not added again. -/
def FeatureTreeNode.addEdge (n : FeatureTreeNode) (Child : Handle) :
    FeatureTreeNode :=
  if Child ∈ n.children then n else { n with children := n.children ++ [Child] }

/-- Modelled from the spec: `FeatureTreeNode::removeEdge` ("remove a child edge
on a tree node"). -/
def FeatureTreeNode.removeEdge (n : FeatureTreeNode) (Child : Handle) :
    FeatureTreeNode :=
  { n with children := n.children.filter (fun c => !(c == Child)) }

/-- Modelled from the spec: `Feature::addConstraint` ("feature gains the
constraint in its constraint set"). -/
def FeatureTreeNode.addConstraint (n : FeatureTreeNode) (C : CHandle) :
    FeatureTreeNode :=
  if C ∈ n.constraints then n else { n with constraints := n.constraints ++ [C] }

/-- Modelled from the spec: `PrimaryFeatureConstraint::setFeature`
("constraint's feature handle is rebound"); only a primary feature constraint
has the handle. -/
def Constraint.setFeature (k : Constraint) (F : Handle) : Constraint :=
  match k with
  | .primary _ => .primary (some F)
  | .other t => .other t

/-! ## Consistency rules -/

/-- The tree nodes a model is made of: the registered features and the
relationship nodes. -/
def FeatureModel.treeNodes (FM : FeatureModel) : List Handle :=
  FM.features.map Prod.snd ++ FM.relationships

/-- Modelled from the spec: the rule `ExactlyOneRootNode` ("exactly one root"):
exactly one registered feature is a root feature. -/
def ExactlyOneRootNode (mem : Memory) (FM : FeatureModel) : Bool :=
  (FM.features.filter (fun e =>
    match mem.nodes[e.2]? with
    | some n => n.kind == NodeKind.NK_ROOT
    | none => false)).length == 1

/-- Modelled from the spec: the rule `EveryFeatureRequiresParent` ("every
non-root node has a parent"). -/
def EveryFeatureRequiresParent (mem : Memory) (FM : FeatureModel) : Bool :=
  FM.treeNodes.all (fun h =>
    match mem.nodes[h]? with
    | some n => n.kind == NodeKind.NK_ROOT || n.parent.isSome
    | none => false)

/-- Modelled from the spec: the rule `CheckFeatureParentChildRelationShip`
("parent/child edge sets are mutual inverses"): a node is in the child set of
its parent, and the parent of every child of a node is that node. -/
def CheckFeatureParentChildRelationShip (mem : Memory) (FM : FeatureModel) : Bool :=
  FM.treeNodes.all (fun h =>
    match mem.nodes[h]? with
    | some n =>
      (match n.parent with
       | none => true
       | some p =>
         match mem.nodes[p]? with
         | some pn => pn.children.contains h
         | none => false)
      && n.children.all (fun c =>
         match mem.nodes[c]? with
         | some cn => cn.parent == some h
         | none => false)
    | none => false)

/-- Modelled from the spec: `detail::ConsistencyCheck::isFeatureModelValid`, "a
single function taking a whole model and returning whether it satisfies all
structural invariants (single root, universal parent requirement except root,
mutual edge consistency)". -/
def isFeatureModelValid (mem : Memory) (FM : FeatureModel) : Bool :=
  ExactlyOneRootNode mem FM && EveryFeatureRequiresParent mem FM
    && CheckFeatureParentChildRelationShip mem FM

/-! ## FeatureModelModification: the static helpers -/

/-- The helper `FeatureModelModification::setParent(F, Parent)`. -/
def FeatureModelModification.setParent (mem : Memory) (F Parent : Handle) :
    Except Fault Memory :=
  mem.modifyNode F (fun n => n.setParent (some Parent))

/-- The helper `FeatureModelModification::removeParent(F)`. -/
def FeatureModelModification.removeParent (mem : Memory) (F : Handle) :
    Except Fault Memory :=
  mem.modifyNode F (fun n => n.setParent none)

/-- The helper `FeatureModelModification::addEdge(F, Child)`. -/
def FeatureModelModification.addEdge (mem : Memory) (F Child : Handle) :
    Except Fault Memory :=
  mem.modifyNode F (fun n => n.addEdge Child)

/-- The helper `FeatureModelModification::removeEdge(F, Child)`. -/
def FeatureModelModification.removeEdge (mem : Memory) (F Child : Handle) :
    Except Fault Memory :=
  mem.modifyNode F (fun n => n.removeEdge Child)

/-- The helper `FeatureModelModification::addConstraint(F, Constraint)` on a
feature. -/
def FeatureModelModification.addConstraintToFeature (mem : Memory) (F : Handle)
    (C : CHandle) : Except Fault Memory :=
  mem.modifyNode F (fun n => n.addConstraint C)

/-- The helper `FeatureModelModification::setFeature(Constraint, F)`. -/
def FeatureModelModification.setFeature (mem : Memory) (C : CHandle) (F : Handle) :
    Except Fault Memory :=
  mem.modifyConstraint C (fun k => k.setFeature F)

/-- The helper `FeatureModelModification::addFeature(FM, NewFeature)`.  The
owning pointer is passed by value; a command that was already run holds a null
pointer, and the insertion has to read the name of the object it is given. -/
def FeatureModelModification.addFeature (mem : Memory) (FM : FeatureModel)
    (NewFeature : Option FeatureTreeNode) :
    Except Fault (Option Handle × Memory × FeatureModel) :=
  match NewFeature with
  | some f => .ok (FM.addFeature mem f)
  | none => .error .badDeref

/-- The helper `FeatureModelModification::addRelationship(FM, NewRelationship)`. -/
def FeatureModelModification.addRelationship (mem : Memory) (FM : FeatureModel)
    (NewRelationship : FeatureTreeNode) : Option Handle × Memory × FeatureModel :=
  FM.addRelationship mem NewRelationship

/-- The helper `FeatureModelModification::addConstraint(FM, Constraint)` on a
model; a null owning pointer has no object to insert. -/
def FeatureModelModification.addConstraint (mem : Memory) (FM : FeatureModel)
    (NewConstraint : Option Constraint) :
    Except Fault (Option CHandle × Memory × FeatureModel) :=
  match NewConstraint with
  | some k => .ok (FM.addConstraint mem k)
  | none => .error .badDeref

/-- A `std::variant<std::string, Ty *>`: `FeatureVariant` and
`FeatureTreeNodeVariant`. -/
inductive Variant where
  | name (s : String)
  | ptr (p : Option Handle)
deriving DecidableEq, Repr

/-- The alias `FeatureVariant`. -/
abbrev FeatureVariant := Variant

/-- The alias `FeatureTreeNodeVariant`. -/
abbrev FeatureTreeNodeVariant := Variant

/-- A `std::variant<std::set<std::string>, std::set<Feature *>>`; each list is
the set in its iteration order. -/
inductive ChildrenVariant where
  | names (s : List String)
  | ptrs (s : List (Option Handle))
deriving DecidableEq, Repr

/-- The helper `FeatureModelModification::resolveVariant(FM, V)`. -/
def FeatureModelModification.resolveVariant (FM : FeatureModel) (V : Variant) :
    Option Handle :=
  match V with
  | .name s => FM.getFeature s
  | .ptr p => p

/-- The cast `llvm::dyn_cast_or_null<RootFeature>(P)`. -/
def dyn_cast_or_null_RootFeature (mem : Memory) (P : Option Handle) :
    Except Fault (Option Handle) :=
  match P with
  | none => .ok none
  | some h => do
    let n ← mem.node h
    pure (if n.kind == NodeKind.NK_ROOT then some h else none)

/-! ## The commands -/

/-- The call operator `AddFeatureToModel::operator()`. -/
def AddFeatureToModel.call (NewFeature : Option FeatureTreeNode)
    (Parent : Option Handle) (mem : Memory) (FM : FeatureModel) :
    Except Fault (Option Handle × Memory × FeatureModel) := do
  let (Inserted, mem, FM) ← FeatureModelModification.addFeature mem FM NewFeature
  match Inserted with
  | none => pure (none, mem, FM)
  | some InsertedFeature =>
    match Parent with
    | some P => do
      let mem ← FeatureModelModification.setParent mem InsertedFeature P
      let mem ← FeatureModelModification.addEdge mem P InsertedFeature
      pure (some InsertedFeature, mem, FM)
    | none =>
      match FM.getRoot with
      | some R => do
        let mem ← FeatureModelModification.setParent mem InsertedFeature R
        let mem ← FeatureModelModification.addEdge mem R InsertedFeature
        pure (some InsertedFeature, mem, FM)
      | none => pure (some InsertedFeature, mem, FM)

/-- One turn of the two loops of `AddRelationshipToModel::operator()`:
`removeEdge(*C->getParent(), *C); addEdge(*InsertedRelationship, *C);
setParent(*C, *InsertedRelationship);`. -/
def AddRelationshipToModel.moveChild (mem : Memory) (InsertedRelationship : Handle)
    (C : Option Handle) : Except Fault Memory := do
  let c ← deref C
  let cn ← mem.node c
  let p ← deref cn.parent
  let mem ← FeatureModelModification.removeEdge mem p c
  let mem ← FeatureModelModification.addEdge mem InsertedRelationship c
  FeatureModelModification.setParent mem c InsertedRelationship

/-- The loop over a `std::set<std::string>` of children, each resolved with
`resolveVariant<Feature>(FM, Child)`. -/
def AddRelationshipToModel.loopNames (FM : FeatureModel)
    (InsertedRelationship : Handle) :
    Memory → List String → Except Fault Memory
  | mem, [] => .ok mem
  | mem, Child :: rest => do
    let mem ← AddRelationshipToModel.moveChild mem InsertedRelationship
      (FeatureModelModification.resolveVariant FM (.name Child))
    AddRelationshipToModel.loopNames FM InsertedRelationship mem rest

/-- The loop over a `std::set<Feature *>` of children. -/
def AddRelationshipToModel.loopPtrs (InsertedRelationship : Handle) :
    Memory → List (Option Handle) → Except Fault Memory
  | mem, [] => .ok mem
  | mem, C :: rest => do
    let mem ← AddRelationshipToModel.moveChild mem InsertedRelationship C
    AddRelationshipToModel.loopPtrs InsertedRelationship mem rest

/-- The object `std::make_unique<Relationship>(Kind)`: an unnamed node without
parent and children. -/
def Relationship.make (Kind : RelationshipKind) : FeatureTreeNode :=
  { kind := .NK_RELATIONSHIP Kind, name := "", parent := none, children := [],
    constraints := [] }

/-- The call operator `AddRelationshipToModel::operator()`. -/
def AddRelationshipToModel.call (Kind : RelationshipKind) (Parent : FeatureVariant)
    (Children : ChildrenVariant) (mem : Memory) (FM : FeatureModel) :
    Except Fault (Option Handle × Memory × FeatureModel) := do
  let (Inserted, mem, FM) :=
    FeatureModelModification.addRelationship mem FM (Relationship.make Kind)
  match Inserted with
  | none => pure (none, mem, FM)
  | some InsertedRelationship =>
    let P ← deref (FeatureModelModification.resolveVariant FM Parent)
    let mem ← FeatureModelModification.setParent mem InsertedRelationship P
    let mem ← FeatureModelModification.addEdge mem P InsertedRelationship
    let mem ← (match Children with
      | .names s => AddRelationshipToModel.loopNames FM InsertedRelationship mem s
      | .ptrs s => AddRelationshipToModel.loopPtrs InsertedRelationship mem s)
    pure (some InsertedRelationship, mem, FM)

/-- The visitor `AddConstraintToModelVisitor`: `visit(PrimaryFeatureConstraint *)`
for a primary feature constraint, nothing for any other constraint. -/
def AddConstraintToModel.visit (mem : Memory) (FM : FeatureModel) (C : CHandle) :
    Except Fault Memory := do
  let k ← mem.constraint C
  match k with
  | .primary f => do
    let fh ← deref f
    let fn ← mem.node fh
    let F ← deref (FM.getFeature fn.name)
    let mem ← FeatureModelModification.setFeature mem C F
    FeatureModelModification.addConstraintToFeature mem F C
  | .other _ => pure mem

/-- The call operator `AddConstraintToModel::operator()`. -/
def AddConstraintToModel.call (NewConstraint : Option Constraint) (mem : Memory)
    (FM : FeatureModel) : Except Fault (Option CHandle × Memory × FeatureModel) := do
  let (Inserted, mem, FM) ← FeatureModelModification.addConstraint mem FM NewConstraint
  match Inserted with
  | none => pure (none, mem, FM)
  | some InsertedConstraint =>
    let mem ← AddConstraintToModel.visit mem FM InsertedConstraint
    pure (some InsertedConstraint, mem, FM)

/-- The call operator `SetName::operator()`. -/
def SetName.call (Name : String) (FM : FeatureModel) : FeatureModel :=
  FM.setName Name

/-- The call operator `SetCommit::operator()`. -/
def SetCommit.call (Commit : String) (FM : FeatureModel) : FeatureModel :=
  FM.setCommit Commit

/-- The call operator `SetPath::operator()`. -/
def SetPath.call (Path : String) (FM : FeatureModel) : FeatureModel :=
  FM.setPath Path

/-- Modelled from the spec: the loop of `SetRoot::operator()` over the range
`FM.getRoot()->children()`; its body runs once for each direct child the old
root has when the loop starts ("every direct child of the old root is
re-parented under the new root"). -/
def SetRoot.loop (OldRoot NewRoot : Handle) :
    Memory → List Handle → Except Fault Memory
  | mem, [] => .ok mem
  | mem, C :: rest => do
    let mem ← FeatureModelModification.setParent mem C NewRoot
    let mem ← FeatureModelModification.removeEdge mem OldRoot C
    let mem ← FeatureModelModification.addEdge mem NewRoot C
    SetRoot.loop OldRoot NewRoot mem rest

/-- The call operator `SetRoot::operator()`. -/
def SetRoot.call (ord : SortOrder) (Root : Option FeatureTreeNode) (mem : Memory)
    (FM : FeatureModel) : Except Fault (Option Handle × Memory × FeatureModel) := do
  let (Inserted, mem, FM) ← FeatureModelModification.addFeature mem FM Root
  let NewRoot ← dyn_cast_or_null_RootFeature mem Inserted
  match NewRoot with
  | some NR =>
    let (mem, FM) ← (match FM.getRoot with
      | some R => do
        let rn ← mem.node R
        let mem ← SetRoot.loop R NR mem rn.children
        let FM ← FM.removeFeature mem R
        pure (mem, FM)
      | none => pure (mem, FM))
    let FM := (FM.setRoot NR).2
    let FM := FM.sort ord mem
    pure (FM.getRoot, mem, FM)
  | none =>
    let FM := FM.sort ord mem
    pure (FM.getRoot, mem, FM)

/-- The call operator `AddChild::operator()`. -/
def AddChild.call (ord : SortOrder) (Parent Child : FeatureTreeNodeVariant)
    (mem : Memory) (FM : FeatureModel) : Except Fault (Memory × FeatureModel) := do
  let C := FeatureModelModification.resolveVariant FM Child
  let P := FeatureModelModification.resolveVariant FM Parent
  let c ← deref C
  let cn ← mem.node c
  let cp ← deref cn.parent
  let mem ← FeatureModelModification.removeEdge mem cp c
  let p ← deref P
  let mem ← FeatureModelModification.addEdge mem p c
  let mem ← FeatureModelModification.setParent mem c p
  pure (mem, FM.sort ord mem)

/-- A command object (`FeatureModelModification` and its subclasses) with the
operands it holds.  An owning pointer (`std::unique_ptr`) is `none` once it has
been moved from. -/
inductive Modification where
  | AddFeatureToModel (NewFeature : Option FeatureTreeNode) (Parent : Option Handle)
  | AddRelationshipToModel (Kind : RelationshipKind) (Parent : FeatureVariant)
      (Children : ChildrenVariant)
  | AddConstraintToModel (NewConstraint : Option Constraint)
  | SetName (Name : String)
  | SetCommit (Commit : String)
  | SetPath (Path : String)
  | SetRoot (Root : Option FeatureTreeNode)
  | AddChild (Parent Child : FeatureTreeNodeVariant)
deriving DecidableEq, Repr

/-- The command object after its call operator has run: `std::move` has emptied
the owning pointers. -/
def Modification.afterExec : Modification → Modification
  | .AddFeatureToModel _ Parent => .AddFeatureToModel none Parent
  | .AddConstraintToModel _ => .AddConstraintToModel none
  | .SetRoot _ => .SetRoot none
  | m => m

/-- The virtual `FeatureModelModification::exec(FM)`: `(*this)(FM)`, the result
of the call operator dropped. -/
def Modification.exec (ord : SortOrder) (m : Modification) (mem : Memory)
    (FM : FeatureModel) : Except Fault (Memory × FeatureModel) :=
  match m with
  | .AddFeatureToModel NewFeature Parent =>
    (AddFeatureToModel.call NewFeature Parent mem FM).map Prod.snd
  | .AddRelationshipToModel Kind Parent Children =>
    (AddRelationshipToModel.call Kind Parent Children mem FM).map Prod.snd
  | .AddConstraintToModel NewConstraint =>
    (AddConstraintToModel.call NewConstraint mem FM).map Prod.snd
  | .SetName Name => .ok (mem, SetName.call Name FM)
  | .SetCommit Commit => .ok (mem, SetCommit.call Commit FM)
  | .SetPath Path => .ok (mem, SetPath.call Path FM)
  | .SetRoot Root => (SetRoot.call ord Root mem FM).map Prod.snd
  | .AddChild Parent Child => AddChild.call ord Parent Child mem FM

/-! ## Cloning -/

/-- A tree node copied into a clone whose nodes start at address `off` and whose
constraints start at address `coff`. -/
def FeatureTreeNode.relocate (off coff : Nat) (n : FeatureTreeNode) : FeatureTreeNode :=
  { n with
    parent := n.parent.map (· + off)
    children := n.children.map (· + off)
    constraints := n.constraints.map (· + coff) }

/-- A constraint copied into a clone whose nodes start at address `off`. -/
def Constraint.relocate (off : Nat) : Constraint → Constraint
  | .primary f => .primary (f.map (· + off))
  | .other t => .other t

/-- Modelled from the spec: `FeatureModel::clone` ("deep copy of all nodes,
edges, metadata").  Every object gets a copy at its old address plus the size
of the arena, every pointer inside a copy points to the copy of its old target,
and the objects that were there stay as they are. -/
def FeatureModel.clone (mem : Memory) (FM : FeatureModel) : Memory × FeatureModel :=
  let off := mem.nodes.length
  let coff := mem.constraints.length
  ({ nodes := mem.nodes ++ mem.nodes.map (FeatureTreeNode.relocate off coff)
     constraints := mem.constraints ++ mem.constraints.map (Constraint.relocate off) },
   { FM with
     features := FM.features.map (fun e => (e.1, e.2 + off))
     root := FM.root.map (· + off)
     relationships := FM.relationships.map (· + off)
     constraints := FM.constraints.map (· + coff)
     ordered := FM.ordered.map (· + off) })

/-! ## FeatureModelCopyTransactionBase -/

/-- The class `FeatureModelCopyTransactionBase`: the owning pointer `FM` to the
private clone (`none` is the null pointer). -/
structure FeatureModelCopyTransactionBase where
  FM : Option FeatureModel
deriving DecidableEq, Repr

/-- The constructor `FeatureModelCopyTransactionBase(FM)`: `FM(FM.clone())`. -/
def FeatureModelCopyTransactionBase.mk_ (mem : Memory) (FM : FeatureModel) :
    Memory × FeatureModelCopyTransactionBase :=
  ((FM.clone mem).1, { FM := some (FM.clone mem).2 })

/-- The method `FeatureModelCopyTransactionBase::commitImpl`: the clone is moved
out when it is there and valid; otherwise null is returned and `FM` is left as
it is. -/
def FeatureModelCopyTransactionBase.commitImpl (mem : Memory)
    (T : FeatureModelCopyTransactionBase) :
    Option FeatureModel × FeatureModelCopyTransactionBase :=
  match T.FM with
  | some FM => if isFeatureModelValid mem FM then (some FM, { FM := none }) else (none, T)
  | none => (none, T)

/-- The method `FeatureModelCopyTransactionBase::abortImpl`: `FM.reset()`. -/
def FeatureModelCopyTransactionBase.abortImpl (_T : FeatureModelCopyTransactionBase) :
    FeatureModelCopyTransactionBase :=
  { FM := none }

/-- The method `FeatureModelCopyTransactionBase::isUncommited`. -/
def FeatureModelCopyTransactionBase.isUncommited (T : FeatureModelCopyTransactionBase) :
    Bool :=
  T.FM.isSome

/-- The method `FeatureModelCopyTransactionBase::TranslateFeature`:
`FM->getFeature(F.getName())`. -/
def FeatureModelCopyTransactionBase.TranslateFeature (mem : Memory)
    (T : FeatureModelCopyTransactionBase) (F : Option Handle) :
    Except Fault (Option Handle) := do
  let f ← deref F
  let n ← mem.node f
  match T.FM with
  | some FM => pure (FM.getFeature n.name)
  | none => .error .badDeref

/-- The method `FeatureModelCopyTransactionBase::addFeatureImpl`. -/
def FeatureModelCopyTransactionBase.addFeatureImpl (mem : Memory)
    (T : FeatureModelCopyTransactionBase) (NewFeature : Option FeatureTreeNode)
    (Parent : Option Handle) :
    Except Fault (Option Handle × Memory × FeatureModelCopyTransactionBase) :=
  match T.FM with
  | none => .ok (none, mem, T)
  | some FM =>
    match Parent with
    | some _ => do
      let P ← T.TranslateFeature mem Parent
      let (r, mem, FM) ← AddFeatureToModel.call NewFeature P mem FM
      pure (r, mem, { FM := some FM })
    | none => do
      let (r, mem, FM) ← AddFeatureToModel.call NewFeature none mem FM
      pure (r, mem, { FM := some FM })

/-- Position of a pointer in the order of a `std::set<Feature *>` (by address,
null first). -/
def ptrKey : Option Handle → Nat
  | none => 0
  | some h => h + 1

/-- The call `std::set<Feature *>::insert`: the set stays in ascending order
and without duplicates. -/
def stdSetInsert (x : Option Handle) : List (Option Handle) → List (Option Handle)
  | [] => [x]
  | y :: ys =>
    if ptrKey x < ptrKey y then x :: y :: ys
    else if x = y then y :: ys
    else y :: stdSetInsert x ys

/-- The two loops of `FeatureModelCopyTransactionBase::addRelationshipImpl` that
fill `TranslatedChildren`, over children that are already resolved
(`resolveVariant<Feature>(*FM, C)`). -/
def FeatureModelCopyTransactionBase.translateChildren (mem : Memory)
    (T : FeatureModelCopyTransactionBase) :
    List (Option Handle) → List (Option Handle) → Except Fault (List (Option Handle))
  | TranslatedChildren, [] => .ok TranslatedChildren
  | TranslatedChildren, C :: rest => do
    let t ← T.TranslateFeature mem C
    FeatureModelCopyTransactionBase.translateChildren mem T
      (stdSetInsert t TranslatedChildren) rest

/-- The method `FeatureModelCopyTransactionBase::addRelationshipImpl`. -/
def FeatureModelCopyTransactionBase.addRelationshipImpl (mem : Memory)
    (T : FeatureModelCopyTransactionBase) (Kind : RelationshipKind)
    (Parent : FeatureVariant) (Children : ChildrenVariant) :
    Except Fault (Option Handle × Memory × FeatureModelCopyTransactionBase) :=
  match T.FM with
  | none => .ok (none, mem, T)
  | some FM => do
    let TranslatedChildren ← (match Children with
      | .names s => T.translateChildren mem []
          (s.map (fun C => FeatureModelModification.resolveVariant FM (.name C)))
      | .ptrs s => T.translateChildren mem []
          (s.map (fun C => FeatureModelModification.resolveVariant FM (.ptr C))))
    let P ← T.TranslateFeature mem (FeatureModelModification.resolveVariant FM Parent)
    let (r, mem, FM) ←
      AddRelationshipToModel.call Kind (.ptr P) (.ptrs TranslatedChildren) mem FM
    pure (r, mem, { FM := some FM })

/-- The method `FeatureModelCopyTransactionBase::addConstraintImpl`. -/
def FeatureModelCopyTransactionBase.addConstraintImpl (mem : Memory)
    (T : FeatureModelCopyTransactionBase) (NewConstraint : Option Constraint) :
    Except Fault (Option CHandle × Memory × FeatureModelCopyTransactionBase) :=
  match T.FM with
  | none => .ok (none, mem, T)
  | some FM => do
    let (r, mem, FM) ← AddConstraintToModel.call NewConstraint mem FM
    pure (r, mem, { FM := some FM })

/-- The method `FeatureModelCopyTransactionBase::setNameImpl`. -/
def FeatureModelCopyTransactionBase.setNameImpl (T : FeatureModelCopyTransactionBase)
    (Name : String) : Except Fault FeatureModelCopyTransactionBase :=
  match T.FM with
  | none => .error .assertion
  | some FM => .ok { FM := some (SetName.call Name FM) }

/-- The method `FeatureModelCopyTransactionBase::setCommitImpl`. -/
def FeatureModelCopyTransactionBase.setCommitImpl (T : FeatureModelCopyTransactionBase)
    (Commit : String) : Except Fault FeatureModelCopyTransactionBase :=
  match T.FM with
  | none => .error .assertion
  | some FM => .ok { FM := some (SetCommit.call Commit FM) }

/-- The method `FeatureModelCopyTransactionBase::setPathImpl`. -/
def FeatureModelCopyTransactionBase.setPathImpl (T : FeatureModelCopyTransactionBase)
    (Path : String) : Except Fault FeatureModelCopyTransactionBase :=
  match T.FM with
  | none => .error .assertion
  | some FM => .ok { FM := some (SetPath.call Path FM) }

/-- The method `FeatureModelCopyTransactionBase::setRootImpl`. -/
def FeatureModelCopyTransactionBase.setRootImpl (ord : SortOrder) (mem : Memory)
    (T : FeatureModelCopyTransactionBase) (Root : Option FeatureTreeNode) :
    Except Fault (Option Handle × Memory × FeatureModelCopyTransactionBase) :=
  match T.FM with
  | none => .ok (none, mem, T)
  | some FM => do
    let (r, mem, FM) ← SetRoot.call ord Root mem FM
    pure (r, mem, { FM := some FM })

/-- The static method `FeatureModelCopyTransactionBase::addChildImpl`: the
`AddChild` command is constructed and dropped; its call operator is not
invoked and no transaction state is read. -/
def FeatureModelCopyTransactionBase.addChildImpl (_Parent _Child : FeatureTreeNodeVariant) :
    Unit :=
  ()

/-! ## FeatureModelModifyTransactionBase -/

/-- The class `FeatureModelModifyTransactionBase`.  The pointer `FM` is either
the address of the live model the transaction was opened on (`true`) or null
(`false`); `Modifications` is the vector of recorded commands. -/
structure FeatureModelModifyTransactionBase where
  FM : Bool
  Modifications : List Modification
deriving DecidableEq, Repr

/-- The constructor `FeatureModelModifyTransactionBase(FM)`: `FM(&FM)`. -/
def FeatureModelModifyTransactionBase.mk_ : FeatureModelModifyTransactionBase :=
  { FM := true, Modifications := [] }

/-- The `std::for_each` of `commitImpl`: `FMM->exec(*FM)` for every recorded
command, first to last. -/
def execAll (ord : SortOrder) :
    List Modification → Memory → FeatureModel → Except Fault (Memory × FeatureModel)
  | [], mem, FM => .ok (mem, FM)
  | m :: rest, mem, FM => do
    let (mem, FM) ← m.exec ord mem FM
    execAll ord rest mem FM

/-- The method `FeatureModelModifyTransactionBase::commitImpl` on the live model
`live`.  The recorded commands stay in `Modifications` (in their moved-from
state); nothing restores the model when the check fails. -/
def FeatureModelModifyTransactionBase.commitImpl (ord : SortOrder) (mem : Memory)
    (live : FeatureModel) (T : FeatureModelModifyTransactionBase) :
    Except Fault (Bool × Memory × FeatureModel × FeatureModelModifyTransactionBase) :=
  if !T.FM then .error .assertion
  else if T.FM then do
    let (mem, live) ← execAll ord T.Modifications mem live
    let T := { T with Modifications := T.Modifications.map Modification.afterExec }
    if isFeatureModelValid mem live then
      pure (true, mem, live, { T with FM := false })
    else
      pure (false, mem, live, T)
  else .ok (false, mem, live, T)

/-- The method `FeatureModelModifyTransactionBase::abortImpl`:
`Modifications.clear()`. -/
def FeatureModelModifyTransactionBase.abortImpl (T : FeatureModelModifyTransactionBase) :
    FeatureModelModifyTransactionBase :=
  { T with Modifications := [] }

/-- The method `FeatureModelModifyTransactionBase::isUncommited`. -/
def FeatureModelModifyTransactionBase.isUncommited (T : FeatureModelModifyTransactionBase) :
    Bool :=
  T.FM

/-- The call `Modifications.push_back(...)`. -/
def FeatureModelModifyTransactionBase.push_back (T : FeatureModelModifyTransactionBase)
    (m : Modification) : FeatureModelModifyTransactionBase :=
  { T with Modifications := T.Modifications ++ [m] }

/-- The method `FeatureModelModifyTransactionBase::addFeatureImpl`. -/
def FeatureModelModifyTransactionBase.addFeatureImpl (T : FeatureModelModifyTransactionBase)
    (NewFeature : Option FeatureTreeNode) (Parent : Option Handle) :
    Except Fault FeatureModelModifyTransactionBase :=
  if !T.FM then .error .assertion
  else .ok (T.push_back (.AddFeatureToModel NewFeature Parent))

/-- The method `FeatureModelModifyTransactionBase::addRelationshipImpl` (it has
no `assert`). -/
def FeatureModelModifyTransactionBase.addRelationshipImpl
    (T : FeatureModelModifyTransactionBase) (Kind : RelationshipKind)
    (Parent : FeatureVariant) (Children : ChildrenVariant) :
    Except Fault FeatureModelModifyTransactionBase :=
  .ok (T.push_back (.AddRelationshipToModel Kind Parent Children))

/-- The method `FeatureModelModifyTransactionBase::addConstraintImpl` (it has no
`assert`). -/
def FeatureModelModifyTransactionBase.addConstraintImpl
    (T : FeatureModelModifyTransactionBase) (NewConstraint : Option Constraint) :
    Except Fault FeatureModelModifyTransactionBase :=
  .ok (T.push_back (.AddConstraintToModel NewConstraint))

/-- The method `FeatureModelModifyTransactionBase::setNameImpl`. -/
def FeatureModelModifyTransactionBase.setNameImpl (T : FeatureModelModifyTransactionBase)
    (Name : String) : Except Fault FeatureModelModifyTransactionBase :=
  if !T.FM then .error .assertion
  else .ok (T.push_back (.SetName Name))

/-- The method `FeatureModelModifyTransactionBase::setCommitImpl`. -/
def FeatureModelModifyTransactionBase.setCommitImpl (T : FeatureModelModifyTransactionBase)
    (Commit : String) : Except Fault FeatureModelModifyTransactionBase :=
  if !T.FM then .error .assertion
  else .ok (T.push_back (.SetCommit Commit))

/-- The method `FeatureModelModifyTransactionBase::setPathImpl`. -/
def FeatureModelModifyTransactionBase.setPathImpl (T : FeatureModelModifyTransactionBase)
    (Path : String) : Except Fault FeatureModelModifyTransactionBase :=
  if !T.FM then .error .assertion
  else .ok (T.push_back (.SetPath Path))

/-- The method `FeatureModelModifyTransactionBase::setRootImpl`. -/
def FeatureModelModifyTransactionBase.setRootImpl (T : FeatureModelModifyTransactionBase)
    (Root : Option FeatureTreeNode) : Except Fault FeatureModelModifyTransactionBase :=
  if !T.FM then .error .assertion
  else .ok (T.push_back (.SetRoot Root))

/-- The method `FeatureModelModifyTransactionBase::addChildImpl`. -/
def FeatureModelModifyTransactionBase.addChildImpl (T : FeatureModelModifyTransactionBase)
    (Parent Child : FeatureTreeNodeVariant) :
    Except Fault FeatureModelModifyTransactionBase :=
  if !T.FM then .error .assertion
  else .ok (T.push_back (.AddChild Parent Child))

/-! ## FeatureModelTransaction: the front end -/

/-- One call of a mutation method of `FeatureModelTransaction`, with its
arguments. -/
inductive Call where
  | addFeature (NewFeature : Option FeatureTreeNode) (Parent : Option Handle)
  | addRelationship (Kind : RelationshipKind) (Parent : FeatureVariant)
      (Children : ChildrenVariant)
  | addConstraint (Constraint : Option Constraint)
  | setName (Name : String)
  | setCommit (Commit : String)
  | setPath (Path : String)
  | setRoot (Root : Option FeatureTreeNode)
  | addChild (Parent Child : FeatureTreeNodeVariant)
deriving DecidableEq, Repr

/-- The command a call constructs. -/
def Call.toModification : Call → Modification
  | .addFeature NewFeature Parent => .AddFeatureToModel NewFeature Parent
  | .addRelationship Kind Parent Children => .AddRelationshipToModel Kind Parent Children
  | .addConstraint Constraint => .AddConstraintToModel Constraint
  | .setName Name => .SetName Name
  | .setCommit Commit => .SetCommit Commit
  | .setPath Path => .SetPath Path
  | .setRoot Root => .SetRoot Root
  | .addChild Parent Child => .AddChild Parent Child

/-- The static method `FeatureModelModifyTransaction::openTransaction(FM)`. -/
def FeatureModelModifyTransaction.openTransaction (mem : Memory) (FM : FeatureModel) :
    Except Fault FeatureModelModifyTransactionBase :=
  if isFeatureModelValid mem FM then .ok FeatureModelModifyTransactionBase.mk_
  else .error .assertion

/-- The mutation methods of `FeatureModelModifyTransaction`: each forwards to
the `...Impl` of the base and returns nothing. -/
def FeatureModelModifyTransaction.call (T : FeatureModelModifyTransactionBase) :
    Call → Except Fault FeatureModelModifyTransactionBase
  | .addFeature NewFeature Parent => T.addFeatureImpl NewFeature Parent
  | .addRelationship Kind Parent Children => T.addRelationshipImpl Kind Parent Children
  | .addConstraint Constraint => T.addConstraintImpl Constraint
  | .setName Name => T.setNameImpl Name
  | .setCommit Commit => T.setCommitImpl Commit
  | .setPath Path => T.setPathImpl Path
  | .setRoot Root => T.setRootImpl Root
  | .addChild Parent Child => T.addChildImpl Parent Child

/-- The method `FeatureModelModifyTransaction::commit`. -/
def FeatureModelModifyTransaction.commit (ord : SortOrder) (mem : Memory)
    (live : FeatureModel) (T : FeatureModelModifyTransactionBase) :
    Except Fault (Bool × Memory × FeatureModel × FeatureModelModifyTransactionBase) :=
  T.commitImpl ord mem live

/-- The method `FeatureModelModifyTransaction::abort`. -/
def FeatureModelModifyTransaction.abort (T : FeatureModelModifyTransactionBase) :
    FeatureModelModifyTransactionBase :=
  T.abortImpl

/-- The destructor of `FeatureModelModifyTransaction`: an open transaction
prints a diagnostic and commits. -/
def FeatureModelModifyTransaction.destroy (ord : SortOrder) (mem : Memory)
    (live : FeatureModel) (T : FeatureModelModifyTransactionBase) :
    Except Fault (Memory × FeatureModel × FeatureModelModifyTransactionBase) :=
  if T.isUncommited then do
    let (_, mem, live, T) ← FeatureModelModifyTransaction.commit ord mem live T
    pure (mem, live, T)
  else .ok (mem, live, T)

/-- The static method `FeatureModelCopyTransaction::openTransaction(FM)`. -/
def FeatureModelCopyTransaction.openTransaction (mem : Memory) (FM : FeatureModel) :
    Except Fault (Memory × FeatureModelCopyTransactionBase) :=
  if isFeatureModelValid mem FM then .ok (FeatureModelCopyTransactionBase.mk_ mem FM)
  else .error .assertion

/-- The mutation methods of `FeatureModelCopyTransaction`: each forwards to the
`...Impl` of the base; the entity it returns is dropped here. -/
def FeatureModelCopyTransaction.call (ord : SortOrder) (mem : Memory)
    (T : FeatureModelCopyTransactionBase) :
    Call → Except Fault (Memory × FeatureModelCopyTransactionBase)
  | .addFeature NewFeature Parent =>
    (T.addFeatureImpl mem NewFeature Parent).map Prod.snd
  | .addRelationship Kind Parent Children =>
    (T.addRelationshipImpl mem Kind Parent Children).map Prod.snd
  | .addConstraint Constraint => (T.addConstraintImpl mem Constraint).map Prod.snd
  | .setName Name => (T.setNameImpl Name).map (fun T => (mem, T))
  | .setCommit Commit => (T.setCommitImpl Commit).map (fun T => (mem, T))
  | .setPath Path => (T.setPathImpl Path).map (fun T => (mem, T))
  | .setRoot Root => (T.setRootImpl ord mem Root).map Prod.snd
  | .addChild Parent Child =>
    let _ := FeatureModelCopyTransactionBase.addChildImpl Parent Child
    .ok (mem, T)

/-- The method `FeatureModelCopyTransaction::commit`. -/
def FeatureModelCopyTransaction.commit (mem : Memory)
    (T : FeatureModelCopyTransactionBase) :
    Option FeatureModel × FeatureModelCopyTransactionBase :=
  T.commitImpl mem

/-- The method `FeatureModelCopyTransaction::abort`. -/
def FeatureModelCopyTransaction.abort (T : FeatureModelCopyTransactionBase) :
    FeatureModelCopyTransactionBase :=
  T.abortImpl

/-- The destructor of `FeatureModelCopyTransaction`:
`assert(!this->isUncommited())`. -/
def FeatureModelCopyTransaction.destroy (T : FeatureModelCopyTransactionBase) :
    Except Fault Unit :=
  if T.isUncommited then .error .assertion else .ok ()

/-! ## Program states around a transaction -/

/-- What a client of a modify-mode transaction holds: the arena, the live model
the transaction was opened on, and the transaction object. -/
structure ModifySession where
  mem : Memory
  live : FeatureModel
  T : FeatureModelModifyTransactionBase
deriving DecidableEq, Repr

/-- The statement `auto FT = FeatureModelModifyTransaction::openTransaction(FM)`. -/
def ModifySession.openTransaction (mem : Memory) (FM : FeatureModel) :
    Except Fault ModifySession := do
  let T ← FeatureModelModifyTransaction.openTransaction mem FM
  pure { mem := mem, live := FM, T := T }

/-- One mutation call `FT.method(args)` in modify mode. -/
def ModifySession.call (S : ModifySession) (c : Call) : Except Fault ModifySession := do
  let T ← FeatureModelModifyTransaction.call S.T c
  pure { S with T := T }

/-- A sequence of mutation calls in modify mode, first to last. -/
def ModifySession.calls : ModifySession → List Call → Except Fault ModifySession
  | S, [] => .ok S
  | S, c :: rest => do
    let S ← S.call c
    ModifySession.calls S rest

/-- The statement `FT.commit()` in modify mode, with the value it returns. -/
def ModifySession.commit (ord : SortOrder) (S : ModifySession) :
    Except Fault (Bool × ModifySession) := do
  let (r, mem, live, T) ← FeatureModelModifyTransaction.commit ord S.mem S.live S.T
  pure (r, { mem := mem, live := live, T := T })

/-- The statement `FT.abort()` in modify mode. -/
def ModifySession.abort (S : ModifySession) : ModifySession :=
  { S with T := FeatureModelModifyTransaction.abort S.T }

/-- The end of the lifetime of `FT` in modify mode: its destructor runs. -/
def ModifySession.destroy (ord : SortOrder) (S : ModifySession) :
    Except Fault ModifySession := do
  let (mem, live, T) ← FeatureModelModifyTransaction.destroy ord S.mem S.live S.T
  pure { mem := mem, live := live, T := T }

/-- What a client of a copy-mode transaction holds: the arena, the original
model the transaction was opened on, and the transaction object with its
private clone. -/
structure CopySession where
  mem : Memory
  original : FeatureModel
  T : FeatureModelCopyTransactionBase
deriving DecidableEq, Repr

/-- The statement `auto FT = FeatureModelCopyTransaction::openTransaction(FM)`. -/
def CopySession.openTransaction (mem : Memory) (FM : FeatureModel) :
    Except Fault CopySession := do
  let (mem, T) ← FeatureModelCopyTransaction.openTransaction mem FM
  pure { mem := mem, original := FM, T := T }

/-- One mutation call `FT.method(args)` in copy mode. -/
def CopySession.call (ord : SortOrder) (S : CopySession) (c : Call) :
    Except Fault CopySession := do
  let (mem, T) ← FeatureModelCopyTransaction.call ord S.mem S.T c
  pure { S with mem := mem, T := T }

/-- A sequence of mutation calls in copy mode, first to last. -/
def CopySession.calls (ord : SortOrder) : CopySession → List Call → Except Fault CopySession
  | S, [] => .ok S
  | S, c :: rest => do
    let S ← S.call ord c
    CopySession.calls ord S rest

/-- The statement `auto UpdatedFM = FT.commit()` in copy mode, with the model it
returns. -/
def CopySession.commit (S : CopySession) : Option FeatureModel × CopySession :=
  ((FeatureModelCopyTransaction.commit S.mem S.T).1,
   { S with T := (FeatureModelCopyTransaction.commit S.mem S.T).2 })

/-- The statement `FT.abort()` in copy mode. -/
def CopySession.abort (S : CopySession) : CopySession :=
  { S with T := FeatureModelCopyTransaction.abort S.T }

/-- The end of the lifetime of `FT` in copy mode: its destructor runs. -/
def CopySession.destroy (S : CopySession) : Except Fault Unit :=
  FeatureModelCopyTransaction.destroy S.T

/-! ## The model of the unit tests -/

/-- The arena of the model the tests build: the root at address 0 and the
feature "a" at address 1. -/
def exampleMemory : Memory :=
  { nodes :=
      [ { kind := .NK_ROOT, name := "root", parent := none, children := [1],
          constraints := [] },
        { kind := .NK_FEATURE, name := "a", parent := some 0, children := [],
          constraints := [] } ]
    constraints := [] }

/-- The model the tests build with
`B.addParent("a", "root")->makeFeature<BinaryFeature>("a", true)`. -/
def exampleModel : FeatureModel :=
  { name := "", commit := "", path := "",
    features := [("root", 0), ("a", 1)], root := some 0, relationships := [],
    constraints := [], ordered := [0, 1] }

/-- A binary feature as the tests make it: `BinaryFeature(Name, ...)`, not yet
linked to anything. -/
def BinaryFeature.make (Name : String) : FeatureTreeNode :=
  { kind := .NK_FEATURE, name := Name, parent := none, children := [],
    constraints := [] }

/-- A root feature: `RootFeature(Name)`, not yet linked to anything. -/
def RootFeature.make (Name : String) : FeatureTreeNode :=
  { kind := .NK_ROOT, name := Name, parent := none, children := [],
    constraints := [] }

/-- A sort key for the examples: the registered features in registry order. -/
def registryOrder : SortOrder := fun _ FM => FM.features.map Prod.snd

/-- A call sequence for the examples in copy mode.  The handle `1` is the
feature "a" of the original model. -/
def copyExampleCalls : List Call :=
  [ .addFeature (some (BinaryFeature.make "ab")) (some 1),
    .setRoot (some (RootFeature.make "r2")),
    .addRelationship .RK_OR (.ptr (some 1)) (.names ["ab"]),
    .addConstraint (some (.primary (some 1))),
    .setName "m" ]

/-- A call sequence for the examples in copy mode: a feature "b" is added
under the root and then moved under the feature "a". -/
def addChildExampleCalls : List Call :=
  [ .addFeature (some (BinaryFeature.make "b")) none,
    .addChild (.name "a") (.name "b") ]

/-- A call sequence for the examples in copy mode that leaves the clone with two
root features. -/
def invalidExampleCalls : List Call :=
  [ .addFeature (some (RootFeature.make "r2")) none ]

/-- The arena of a model with a root and three features "a", "b" and "c" right
under it. -/
def wideMemory : Memory :=
  { nodes :=
      [ { kind := .NK_ROOT, name := "root", parent := none, children := [1, 2, 3],
          constraints := [] },
        { kind := .NK_FEATURE, name := "a", parent := some 0, children := [],
          constraints := [] },
        { kind := .NK_FEATURE, name := "b", parent := some 0, children := [],
          constraints := [] },
        { kind := .NK_FEATURE, name := "c", parent := some 0, children := [],
          constraints := [] } ]
    constraints := [] }

/-- The model over `wideMemory`. -/
def wideModel : FeatureModel :=
  { name := "", commit := "", path := "",
    features := [("root", 0), ("a", 1), ("b", 2), ("c", 3)], root := some 0,
    relationships := [], constraints := [], ordered := [0, 1, 2, 3] }

/-- A call sequence for the examples in modify mode whose commit fails: the
second root feature leaves the model with two roots. -/
def failingExampleCalls : List Call :=
  [ .setName "m",
    .addRelationship .RK_OR (.name "a") (.names []),
    .addFeature (some (RootFeature.make "r2")) none ]

/-- A modify-mode transaction after a successful commit: `FM` is null. -/
def closedModifyTransaction : FeatureModelModifyTransactionBase :=
  { FM := false, Modifications := [] }

/-- A copy-mode transaction after a successful commit or an abort: `FM` is
null. -/
def closedCopyTransaction : FeatureModelCopyTransactionBase :=
  { FM := none }

/-! ## Predicates the statements use -/

/-- A tree node none of whose parent and child pointers leads below the address
`off`. -/
def FeatureTreeNode.pointsAbove (off : Nat) (n : FeatureTreeNode) : Prop :=
  (∀ p : Nat, n.parent = some p → off ≤ p) ∧ (∀ c : Nat, c ∈ n.children → off ≤ c)

/-- The part of the arena from `off` (nodes) and `coff` (constraints) upward
exists and is closed under parent and child pointers. -/
def Memory.closedAbove (off coff : Nat) (mem : Memory) : Prop :=
  off ≤ mem.nodes.length ∧ coff ≤ mem.constraints.length ∧
  ∀ (h : Nat) (n : FeatureTreeNode), off ≤ h → mem.nodes[h]? = some n → n.pointsAbove off

/-- The registry and the root pointer of a model lead to addresses from `off`
upward. -/
def FeatureModel.livesAbove (off : Nat) (FM : FeatureModel) : Prop :=
  (∀ e : String × Nat, e ∈ FM.features → off ≤ e.2) ∧
  (∀ r : Nat, FM.root = some r → off ≤ r)

/-- The objects below `off` (nodes) and `coff` (constraints) are the same in
both arenas. -/
def Memory.sameBelow (off coff : Nat) (mem mem2 : Memory) : Prop :=
  mem2.nodes.take off = mem.nodes.take off ∧
  mem2.constraints.take coff = mem.constraints.take coff

/-- A feature object that is not linked to anything yet, as a newly made feature
is before it is handed to a transaction. -/
def FeatureTreeNode.unlinked (n : FeatureTreeNode) : Prop :=
  n.parent = none ∧ n.children = []

/-- The feature objects a call hands over are not linked to anything yet. -/
def Call.newNodesUnlinked : Call → Prop
  | .addFeature (some f) _ => f.unlinked
  | .setRoot (some f) => f.unlinked
  | _ => True

/-- The children a command is given, as pointers: a name is resolved with
`resolveVariant<Feature>(FM, Child)`. -/
def ChildrenVariant.pointers (FM : FeatureModel) : ChildrenVariant → List (Option Handle)
  | .names s => s.map (fun C => FeatureModelModification.resolveVariant FM (.name C))
  | .ptrs s => s

/-! ## Valid mutations -/

/-- Modelled from the spec: the representation invariants of `FeatureModel` ("a
registry of tree nodes keyed by unique name, one designated root"), which the
consistency rules take for granted: every registry entry is keyed by the name
of the feature it leads to, and the root pointer leads to a registered root
feature. -/
def FeatureModel.wellFormed (mem : Memory) (FM : FeatureModel) : Bool :=
  FM.features.all (fun e =>
    match mem.nodes[e.2]? with
    | some n => n.name == e.1
    | none => false)
  && (match FM.root with
      | some r =>
        FM.features.any (fun e => e.2 == r)
        && (match mem.nodes[r]? with
            | some n => n.kind == NodeKind.NK_ROOT
            | none => false)
      | none => false)

/-- The pointer leads to an object that has a parent, and the parent is an
object too: what `removeEdge(*C->getParent(), *C)` needs of `C`. -/
def Memory.hasLiveParent (mem : Memory) (C : Option Handle) : Bool :=
  match C with
  | some c =>
    (match mem.nodes[c]? with
     | some cn =>
       (match cn.parent with
        | some p => decide (p < mem.nodes.length)
        | none => false)
     | none => false)
  | none => false

/-- The pointer leads to an object. -/
def Memory.isLive (mem : Memory) (P : Option Handle) : Bool :=
  match P with
  | some p => decide (p < mem.nodes.length)
  | none => false

/-- A command that respects the contract of the transaction when it runs on
the given model: its owning pointers are set, a new feature is a plain feature
(a new root a root feature) that is not linked to anything yet, every reference
resolves to an object, every child to be moved has a parent, and the feature of
a primary feature constraint is an object whose name is registered. -/
def Modification.validAt (mem : Memory) (FM : FeatureModel) : Modification → Bool
  | .AddFeatureToModel NewFeature Parent =>
    (match NewFeature with
     | some f => f.kind == NodeKind.NK_FEATURE && f.parent == none && f.children == []
     | none => false)
    && (match Parent with
        | some p => decide (p < mem.nodes.length)
        | none => true)
  | .AddRelationshipToModel _ Parent Children =>
    mem.isLive (FeatureModelModification.resolveVariant FM Parent)
    && (match Children with
        | .names s => s.all (fun C =>
            mem.hasLiveParent (FeatureModelModification.resolveVariant FM (.name C)))
        | .ptrs s => s.all (fun C => mem.hasLiveParent C))
  | .AddConstraintToModel NewConstraint =>
    (match NewConstraint with
     | some (.primary f) =>
       (match f with
        | some fh =>
          (match mem.nodes[fh]? with
           | some fn => (FM.getFeature fn.name).isSome
           | none => false)
        | none => false)
     | some (.other _) => true
     | none => false)
  | .SetName _ => true
  | .SetCommit _ => true
  | .SetPath _ => true
  | .SetRoot Root =>
    (match Root with
     | some f => f.kind == NodeKind.NK_ROOT && f.parent == none && f.children == []
     | none => false)
  | .AddChild Parent Child =>
    mem.isLive (FeatureModelModification.resolveVariant FM Parent)
    && mem.hasLiveParent (FeatureModelModification.resolveVariant FM Child)

/-- A sequence of valid mutations: each command is valid on the model the
commands before it have produced. -/
def validRun (ord : SortOrder) : List Modification → Memory → FeatureModel → Bool
  | [], _, _ => true
  | m :: rest, mem, FM =>
    m.validAt mem FM
    && (match m.exec ord mem FM with
        | .ok (mem2, FM2) => validRun ord rest mem2 FM2
        | .error _ => false)

/-- A call sequence of valid mutations for the examples in modify mode. -/
def modifyExampleCalls : List Call :=
  [ .addFeature (some (BinaryFeature.make "b")) none,
    .addRelationship .RK_OR (.name "a") (.names ["b"]),
    .addConstraint (some (.primary (some 1))),
    .setRoot (some (RootFeature.make "r2")),
    .addChild (.name "r2") (.name "b"),
    .setName "m" ]

/-! ## The tree as the consistency rules see it -/

/-- What the consistency rules read off the arena: how many objects there are,
the parent pointer, the child sets, the dynamic type and the name of each. -/
structure View where
  len : Nat
  par : Nat → Option Nat
  ch : Nat → Nat → Prop
  kind : Nat → Option NodeKind
  name : Nat → Option String

/-- The view of an arena. -/
def Memory.view (mem : Memory) : View :=
  { len := mem.nodes.length
    par := fun x => (mem.nodes[x]?).bind (fun n => n.parent)
    ch := fun y x => ∃ n, mem.nodes[y]? = some n ∧ x ∈ n.children
    kind := fun x => (mem.nodes[x]?).map (fun n => n.kind)
    name := fun x => (mem.nodes[x]?).map (fun n => n.name) }

/-- The view after `F.setParent(&P)`. -/
def View.setParent (v : View) (F P : Nat) : View :=
  { v with par := fun x => if x = F then some P else v.par x }

/-- The view after `F.addEdge(&C)`. -/
def View.addEdge (v : View) (F C : Nat) : View :=
  { v with ch := fun y x => v.ch y x ∨ (y = F ∧ x = C) }

/-- The view after `F.removeEdge(&C)`. -/
def View.removeEdge (v : View) (F C : Nat) : View :=
  { v with ch := fun y x => v.ch y x ∧ ¬ (y = F ∧ x = C) }

/-- The view after a new object has taken the next free address. -/
def View.alloc (v : View) (n : FeatureTreeNode) : View :=
  { len := v.len + 1
    par := fun x => if x = v.len then n.parent else v.par x
    ch := fun y x => v.ch y x ∨ (y = v.len ∧ x ∈ n.children)
    kind := fun x => if x = v.len then some n.kind else v.kind x
    name := fun x => if x = v.len then some n.name else v.name x }

/-- Nothing is known about addresses that hold no object. -/
def View.bounded (v : View) : Prop :=
  ∀ x, v.len ≤ x → v.par x = none ∧ v.kind x = none ∧ v.name x = none ∧ ∀ z, ¬ v.ch x z

/-- The two tree rules over a set `X` of tree nodes, read off a view: every
node of `X` is an object and is a root or has a parent; a node of `X` is a child
of its parent and is the parent of its children. -/
structure View.tree (v : View) (X : List Nat) : Prop where
  bounded : v.bounded
  parented : ∀ x ∈ X,
    x < v.len ∧ (v.kind x = some NodeKind.NK_ROOT ∨ (v.par x).isSome = true)
  linked : ∀ x ∈ X,
    (∀ y, v.par x = some y → v.ch y x) ∧ (∀ z, v.ch x z → v.par z = some x)

/-- The consistency rules and the class invariants, read off a view: the tree
rules over the tree nodes of the model; exactly one registered root feature;
registry keys are names; the root pointer leads to a registered root. -/
structure View.good (v : View) (FM : FeatureModel) : Prop where
  tree : v.tree FM.treeNodes
  oneRoot : FM.features.countP (fun e => decide (v.kind e.2 = some NodeKind.NK_ROOT)) = 1
  names : ∀ e ∈ FM.features, v.name e.2 = some e.1
  root : ∃ r, FM.root = some r ∧ r ∈ FM.features.map Prod.snd ∧
    v.kind r = some NodeKind.NK_ROOT

/-! ## Mutual consistency of parent pointers and child sets -/

/-- Parent pointers and child sets are mutual inverses over the whole arena: `x`
is in the child set of `y` exactly when the parent of `x` is `y`. -/
def View.mutual (v : View) : Prop :=
  ∀ x y, v.ch y x ↔ v.par x = some y

/-- The operands of a command resolve on the model it runs on: an owning pointer
is set and the object behind it is not linked to anything yet; a parent
reference resolves to an object; a child to be moved is an object whose parent
is an object; the root pointer, where the command follows it, leads to an
object whose children are objects; the feature of a primary feature constraint
is an object whose name is registered for an object. -/
def Modification.resolvesAt (mem : Memory) (FM : FeatureModel) : Modification → Bool
  | .AddFeatureToModel NewFeature Parent =>
    (match NewFeature with
     | some f => f.parent == none && f.children == []
     | none => false)
    && (match Parent with
        | some p => decide (p < mem.nodes.length)
        | none =>
          match FM.root with
          | some r => decide (r < mem.nodes.length)
          | none => true)
  | .AddRelationshipToModel _ Parent Children =>
    mem.isLive (FeatureModelModification.resolveVariant FM Parent)
    && (Children.pointers FM).all (fun C => mem.hasLiveParent C)
  | .AddConstraintToModel NewConstraint =>
    (match NewConstraint with
     | some (.primary f) =>
       (match f with
        | some fh =>
          (match mem.nodes[fh]? with
           | some fn => mem.isLive (FM.getFeature fn.name)
           | none => false)
        | none => false)
     | some (.other _) => true
     | none => false)
  | .SetName _ => true
  | .SetCommit _ => true
  | .SetPath _ => true
  | .SetRoot Root =>
    (match Root with
     | some f => f.parent == none && f.children == []
     | none => false)
    && (match FM.root with
        | some r =>
          (match mem.nodes[r]? with
           | some rn => rn.children.all (fun C => decide (C < mem.nodes.length))
           | none => false)
        | none => true)
  | .AddChild Parent Child =>
    mem.isLive (FeatureModelModification.resolveVariant FM Parent)
    && mem.hasLiveParent (FeatureModelModification.resolveVariant FM Child)

/-! ## The two strategies side by side -/

/-- The view `w` holds, `off` addresses up, what the view `v` holds: the object
at `x + off` has the kind and the name of the object at `x`, its parent is the
parent of `x` moved up, and its children are the children of `x` moved up.  The
objects of `w` below `off` have the names they have in `v`, and `v` has at least
`off` objects. -/
structure View.shifted (off : Nat) (v w : View) : Prop where
  base : off ≤ v.len
  len : w.len = v.len + off
  par : ∀ x, w.par (x + off) = (v.par x).map (· + off)
  kind : ∀ x, w.kind (x + off) = v.kind x
  name : ∀ x, w.name (x + off) = v.name x
  ch : ∀ x z2, w.ch (x + off) z2 ↔ ∃ z, z2 = z + off ∧ v.ch x z
  orig : ∀ h, h < off → w.name h = v.name h

/-- Structural equality of the model `U` over the arena `mc` with the model `M`
over the arena `mm`, the objects of `U` being `off` addresses above the objects
of `M`: the same features under the same names, the same root, the same
relationship nodes, the same metadata, and for every node the same kind, name,
parent and child set. -/
structure Agree (off : Nat) (mm : Memory) (M : FeatureModel) (mc : Memory)
    (U : FeatureModel) : Prop where
  view : View.shifted off mm.view mc.view
  features : U.features = M.features.map (fun e => (e.1, e.2 + off))
  root : U.root = M.root.map (· + off)
  relationships : U.relationships = M.relationships.map (· + off)
  metaName : U.name = M.name
  metaCommit : U.commit = M.commit
  metaPath : U.path = M.path

/-- The pointer leads to a feature that the model has registered under the name
the feature has. -/
def Memory.registered (mem : Memory) (FM : FeatureModel) (P : Option Handle) : Bool :=
  match P with
  | some h =>
    (match mem.nodes[h]? with
     | some n => FM.getFeature n.name == some h
     | none => false)
  | none => false

/-- The pointer is a handle into the model a transaction was opened on, whose
objects are below the address `off`. -/
def borrowedFrom (off : Nat) (P : Option Handle) : Bool :=
  match P with
  | some h => decide (h < off)
  | none => false

/-- What the claim that the two strategies agree asks of the operands of a
command, on the model the command runs on: a reference, given by name or by
handle, resolves to a feature the model has registered under its name, and a
handle is a handle into the model the transaction was opened on.  `AddChild`
is not among the calls the claim is about. -/
def Modification.portableAt (off : Nat) (mem : Memory) (FM : FeatureModel) :
    Modification → Bool
  | .AddFeatureToModel _ Parent =>
    (match Parent with
     | some p => borrowedFrom off (some p) && mem.registered FM (some p)
     | none => true)
  | .AddRelationshipToModel _ Parent Children =>
    mem.registered FM (FeatureModelModification.resolveVariant FM Parent)
    && (match Parent with
        | .ptr P => borrowedFrom off P
        | .name _ => true)
    && (Children.pointers FM).all (fun C => mem.registered FM C)
    && (match Children with
        | .ptrs s => s.all (fun C => borrowedFrom off C)
        | .names _ => true)
  | .AddConstraintToModel NewConstraint =>
    (match NewConstraint with
     | some (.primary f) => borrowedFrom off f
     | _ => true)
  | .AddChild _ _ => false
  | _ => true

/-- A sequence of commands each of whose operands resolve, in the sense of
`resolvesAt` and `portableAt`, on the model the commands before it have
produced. -/
def agreeRun (off : Nat) (ord : SortOrder) :
    List Modification → Memory → FeatureModel → Bool
  | [], _, _ => true
  | m :: rest, mem, FM =>
    m.resolvesAt mem FM && m.portableAt off mem FM
    && (match m.exec ord mem FM with
        | .ok (mem2, FM2) => agreeRun off ord rest mem2 FM2
        | .error _ => false)

/-- A call sequence for the examples of the two strategies side by side; the
handle `1` is the feature "a" of the model of the tests. -/
def agreeExampleCalls : List Call :=
  [ .addFeature (some (BinaryFeature.make "b")) (some 1),
    .addRelationship .RK_OR (.name "a") (.names ["b"]),
    .addConstraint (some (.primary (some 1))),
    .setRoot (some (RootFeature.make "r2")),
    .addFeature (some (BinaryFeature.make "c")) none,
    .setName "m" ]

/-- A call sequence for the examples of the two strategies side by side after
which the model has two roots. -/
def agreeFailingCalls : List Call :=
  [ .addFeature (some (RootFeature.make "r2")) (some 1),
    .setCommit "c1" ]

/-! # Theorems -/

/-! ## Outcomes and the arena -/

theorem lt_of_getElem?_eq_some {α : Type} {l : List α} {i : Nat} {a : α}
    (h : l[i]? = some a) : i < l.length := by
  by_contra hge
  have hle : l.length ≤ i := by omega
  rw [List.getElem?_eq_none hle] at h
  cases h


theorem bind_eq_ok {ε α β : Type} (x : Except ε α) (f : α → Except ε β) (b : β) :
    (x >>= f) = .ok b ↔ ∃ a, x = .ok a ∧ f a = .ok b := by
  cases x <;> simp [bind, Except.bind]

theorem map_eq_ok {ε α β : Type} (x : Except ε α) (f : α → β) (b : β) :
    x.map f = .ok b ↔ ∃ a, x = .ok a ∧ f a = b := by
  cases x <;> simp [Except.map]

theorem take_set_of_le {α : Type} (l : List α) (a : α) {n m : Nat} (h : m ≤ n) :
    (l.set n a).take m = l.take m := by
  rcases Nat.eq_or_lt_of_le h with h1 | h1
  · subst h1
    apply List.ext_getElem?
    intro i
    by_cases hi : i < m
    · have hne : m ≠ i := by omega
      rw [List.getElem?_take_of_lt hi, List.getElem?_take_of_lt hi, List.getElem?_set_ne hne]
    · have hle : m ≤ i := by omega
      rw [List.getElem?_take_eq_none hle, List.getElem?_take_eq_none hle]
  · exact List.take_set_of_lt a l h1

theorem Memory_modifyNode_eq_ok {mem mem2 : Memory} {h : Nat}
    {f : FeatureTreeNode → FeatureTreeNode} (hm : mem.modifyNode h f = .ok mem2) :
    ∃ n, mem.nodes[h]? = some n ∧ mem2 = { mem with nodes := mem.nodes.set h (f n) } := by
  unfold Memory.modifyNode at hm
  cases hn : mem.nodes[h]? with
  | none => rw [hn] at hm; cases hm
  | some n =>
    rw [hn] at hm
    exact ⟨n, rfl, (Except.ok.inj hm).symm⟩

theorem Memory_modifyConstraint_eq_ok {mem mem2 : Memory} {c : Nat}
    {f : Constraint → Constraint} (hm : mem.modifyConstraint c f = .ok mem2) :
    ∃ k, mem.constraints[c]? = some k ∧
      mem2 = { mem with constraints := mem.constraints.set c (f k) } := by
  unfold Memory.modifyConstraint at hm
  cases hn : mem.constraints[c]? with
  | none => rw [hn] at hm; cases hm
  | some n =>
    rw [hn] at hm
    exact ⟨n, rfl, (Except.ok.inj hm).symm⟩

theorem Memory_sameBelow_refl (off coff : Nat) (mem : Memory) : mem.sameBelow off coff mem :=
  ⟨rfl, rfl⟩

theorem Memory_sameBelow_trans {off coff : Nat} {a b c : Memory}
    (h1 : a.sameBelow off coff b) (h2 : b.sameBelow off coff c) : a.sameBelow off coff c :=
  ⟨h2.1.trans h1.1, h2.2.trans h1.2⟩

/-- A write to a node at or above `off` that keeps the node's pointers at or
above `off` leaves everything below untouched and the upper part closed. -/
theorem Memory_modifyNode_frame {off coff : Nat} {mem mem2 : Memory} {h : Nat}
    {f : FeatureTreeNode → FeatureTreeNode}
    (hinv : mem.closedAbove off coff) (hh : off ≤ h)
    (hf : ∀ n, n.pointsAbove off → (f n).pointsAbove off)
    (hm : mem.modifyNode h f = .ok mem2) :
    mem.sameBelow off coff mem2 ∧ mem2.closedAbove off coff := by
  obtain ⟨n, hn, rfl⟩ := Memory_modifyNode_eq_ok hm
  obtain ⟨hlen, hclen, hcl⟩ := hinv
  refine ⟨⟨take_set_of_le _ _ hh, rfl⟩, ?_, hclen, ?_⟩
  · simpa using hlen
  · intro i m hi him
    simp only [] at him
    by_cases hih : h = i
    · subst hih
      rw [List.getElem?_set_self (lt_of_getElem?_eq_some hn)] at him
      cases him
      exact hf n (hcl h n hh hn)
    · rw [List.getElem?_set_ne hih] at him
      exact hcl i m hi him

theorem Memory_modifyConstraint_frame {off coff : Nat} {mem mem2 : Memory} {c : Nat}
    {f : Constraint → Constraint}
    (hinv : mem.closedAbove off coff) (hc : coff ≤ c)
    (hm : mem.modifyConstraint c f = .ok mem2) :
    mem.sameBelow off coff mem2 ∧ mem2.closedAbove off coff := by
  obtain ⟨k, hk, rfl⟩ := Memory_modifyConstraint_eq_ok hm
  obtain ⟨hlen, hclen, hcl⟩ := hinv
  refine ⟨⟨rfl, take_set_of_le _ _ hc⟩, hlen, ?_, hcl⟩
  simpa using hclen

/-- A new node whose pointers stay at or above `off` can be stored without
touching anything below. -/
theorem Memory_appendNode_frame {off coff : Nat} {mem : Memory} (n : FeatureTreeNode)
    (hinv : mem.closedAbove off coff) (hn : n.pointsAbove off) :
    mem.sameBelow off coff { mem with nodes := mem.nodes ++ [n] } ∧
      ({ mem with nodes := mem.nodes ++ [n] } : Memory).closedAbove off coff := by
  obtain ⟨hlen, hclen, hcl⟩ := hinv
  refine ⟨⟨List.take_append_of_le_length hlen, rfl⟩, ?_, hclen, ?_⟩
  · simp only [List.length_append, List.length_singleton]; omega
  · intro i m hi him
    simp only [] at him
    by_cases hlt : i < mem.nodes.length
    · rw [List.getElem?_append_left hlt] at him
      exact hcl i m hi him
    · have hle : mem.nodes.length ≤ i := by omega
      rw [List.getElem?_append_right hle] at him
      have h0 : i - mem.nodes.length = 0 := by
        by_contra hne
        rw [List.getElem?_eq_none (by simp; omega)] at him
        cases him
      rw [h0] at him
      simp at him
      subst him
      exact hn

theorem Memory_appendConstraint_frame {off coff : Nat} {mem : Memory} (k : Constraint)
    (hinv : mem.closedAbove off coff) :
    mem.sameBelow off coff { mem with constraints := mem.constraints ++ [k] } ∧
      ({ mem with constraints := mem.constraints ++ [k] } : Memory).closedAbove off coff := by
  obtain ⟨hlen, hclen, hcl⟩ := hinv
  refine ⟨⟨rfl, List.take_append_of_le_length hclen⟩, hlen, ?_, hcl⟩
  simp only [List.length_append, List.length_singleton]; omega

theorem FeatureTreeNode_pointsAbove_setParent {off : Nat} (n : FeatureTreeNode) (P : Nat)
    (hP : off ≤ P) (hn : n.pointsAbove off) : (n.setParent (some P)).pointsAbove off := by
  refine ⟨?_, hn.2⟩
  intro p hp
  have hpar : (n.setParent (some P)).parent = some P := rfl
  rw [hpar] at hp
  cases hp
  exact hP

theorem FeatureTreeNode_pointsAbove_addEdge {off : Nat} (n : FeatureTreeNode) (c : Nat)
    (hc : off ≤ c) (hn : n.pointsAbove off) : (n.addEdge c).pointsAbove off := by
  unfold FeatureTreeNode.addEdge
  split
  · exact hn
  · refine ⟨hn.1, ?_⟩
    intro x hx
    simp only [List.mem_append, List.mem_singleton] at hx
    rcases hx with hx | hx
    · exact hn.2 x hx
    · omega

theorem FeatureTreeNode_pointsAbove_removeEdge {off : Nat} (n : FeatureTreeNode) (c : Nat)
    (hn : n.pointsAbove off) : (n.removeEdge c).pointsAbove off := by
  refine ⟨hn.1, ?_⟩
  intro x hx
  simp only [FeatureTreeNode.removeEdge, List.mem_filter] at hx
  exact hn.2 x hx.1

theorem FeatureTreeNode_pointsAbove_addConstraint {off : Nat} (n : FeatureTreeNode) (c : Nat)
    (hn : n.pointsAbove off) : (n.addConstraint c).pointsAbove off := by
  unfold FeatureTreeNode.addConstraint
  split
  · exact hn
  · exact hn

theorem FeatureTreeNode_pointsAbove_of_unlinked {off : Nat} (n : FeatureTreeNode)
    (hn : n.unlinked) : n.pointsAbove off := by
  obtain ⟨h1, h2⟩ := hn
  constructor
  · intro p hp; rw [h1] at hp; cases hp
  · intro c hc; rw [h2] at hc; cases hc

/-! ## Copy mode: the original model is out of reach -/

theorem pure_eq_ok {ε α : Type} (a b : α) :
    (pure a : Except ε α) = .ok b ↔ a = b := by
  simp [pure, Except.pure]

theorem FeatureModelModification_setParent_frame {off coff : Nat} {mem mem2 : Memory}
    {F P : Nat} (hinv : mem.closedAbove off coff) (hF : off ≤ F) (hP : off ≤ P)
    (hm : FeatureModelModification.setParent mem F P = .ok mem2) :
    mem.sameBelow off coff mem2 ∧ mem2.closedAbove off coff :=
  Memory_modifyNode_frame hinv hF
    (fun n hn => FeatureTreeNode_pointsAbove_setParent n P hP hn) hm

theorem FeatureModelModification_addEdge_frame {off coff : Nat} {mem mem2 : Memory}
    {F C : Nat} (hinv : mem.closedAbove off coff) (hF : off ≤ F) (hC : off ≤ C)
    (hm : FeatureModelModification.addEdge mem F C = .ok mem2) :
    mem.sameBelow off coff mem2 ∧ mem2.closedAbove off coff :=
  Memory_modifyNode_frame hinv hF
    (fun n hn => FeatureTreeNode_pointsAbove_addEdge n C hC hn) hm

theorem FeatureModelModification_removeEdge_frame {off coff : Nat} {mem mem2 : Memory}
    {F C : Nat} (hinv : mem.closedAbove off coff) (hF : off ≤ F)
    (hm : FeatureModelModification.removeEdge mem F C = .ok mem2) :
    mem.sameBelow off coff mem2 ∧ mem2.closedAbove off coff :=
  Memory_modifyNode_frame hinv hF
    (fun n hn => FeatureTreeNode_pointsAbove_removeEdge n C hn) hm

theorem FeatureModelModification_addConstraintToFeature_frame {off coff : Nat}
    {mem mem2 : Memory} {F C : Nat} (hinv : mem.closedAbove off coff) (hF : off ≤ F)
    (hm : FeatureModelModification.addConstraintToFeature mem F C = .ok mem2) :
    mem.sameBelow off coff mem2 ∧ mem2.closedAbove off coff :=
  Memory_modifyNode_frame hinv hF
    (fun n hn => FeatureTreeNode_pointsAbove_addConstraint n C hn) hm

theorem FeatureModelModification_setFeature_frame {off coff : Nat}
    {mem mem2 : Memory} {C F : Nat} (hinv : mem.closedAbove off coff) (hC : coff ≤ C)
    (hm : FeatureModelModification.setFeature mem C F = .ok mem2) :
    mem.sameBelow off coff mem2 ∧ mem2.closedAbove off coff :=
  Memory_modifyConstraint_frame hinv hC hm

theorem FeatureModel_getFeature_mem {FM : FeatureModel} {Name : String} {h : Nat}
    (hg : FM.getFeature Name = some h) : ∃ e ∈ FM.features, e.2 = h := by
  unfold FeatureModel.getFeature at hg
  cases hf : FM.features.find? (fun e => e.1 == Name) with
  | none => rw [hf] at hg; cases hg
  | some e =>
    rw [hf] at hg
    exact ⟨e, List.mem_of_find?_eq_some hf, by simpa using hg⟩

theorem FeatureModel_getFeature_above {off : Nat} {FM : FeatureModel} {Name : String}
    {h : Nat} (hFM : FM.livesAbove off) (hg : FM.getFeature Name = some h) : off ≤ h := by
  obtain ⟨e, he, rfl⟩ := FeatureModel_getFeature_mem hg
  exact hFM.1 e he

theorem AddFeatureToModel_link_frame {off coff : Nat} {mem mem2 : Memory}
    {FM FM2 : FeatureModel} {Inserted P : Nat} {r : Option Handle}
    (hinv : mem.closedAbove off coff) (hI : off ≤ Inserted) (hP : off ≤ P)
    (h : (do
      let m ← FeatureModelModification.setParent mem Inserted P
      let m ← FeatureModelModification.addEdge m P Inserted
      pure (some Inserted, m, FM)) = Except.ok (r, mem2, FM2)) :
    mem.sameBelow off coff mem2 ∧ mem2.closedAbove off coff ∧ FM2 = FM ∧
      r = some Inserted := by
  simp only [bind_eq_ok, pure_eq_ok, Prod.mk.injEq] at h
  obtain ⟨m1, h1, m2, h2, rfl, rfl, rfl⟩ := h
  obtain ⟨s1, c1⟩ := FeatureModelModification_setParent_frame hinv hI hP h1
  obtain ⟨s2, c2⟩ := FeatureModelModification_addEdge_frame c1 hP hI h2
  exact ⟨Memory_sameBelow_trans s1 s2, c2, rfl, rfl⟩

theorem AddFeatureToModel_call_frame {off coff : Nat} {mem mem2 : Memory}
    {FM FM2 : FeatureModel} {NewFeature : Option FeatureTreeNode} {Parent r : Option Handle}
    (hinv : mem.closedAbove off coff) (hFM : FM.livesAbove off)
    (hnf : ∀ f, NewFeature = some f → f.pointsAbove off)
    (hP : ∀ p : Nat, Parent = some p → off ≤ p)
    (h : AddFeatureToModel.call NewFeature Parent mem FM = .ok (r, mem2, FM2)) :
    mem.sameBelow off coff mem2 ∧ mem2.closedAbove off coff ∧ FM2.livesAbove off ∧
      (∀ x : Nat, r = some x → off ≤ x) := by
  cases NewFeature with
  | none => simp [AddFeatureToModel.call, FeatureModelModification.addFeature, bind,
      Except.bind] at h
  | some f =>
    have hf := hnf f rfl
    cases hg : FM.getFeature f.name with
    | some x =>
      simp [AddFeatureToModel.call, FeatureModelModification.addFeature,
        FeatureModel.addFeature, hg, bind, Except.bind, pure, Except.pure] at h
      obtain ⟨rfl, rfl, rfl⟩ := h
      exact ⟨Memory_sameBelow_refl _ _ _, hinv, hFM, by simp⟩
    | none =>
      obtain ⟨hs1, hc1⟩ := Memory_appendNode_frame f hinv hf
      have hFM1 : ({ FM with features := FM.features ++ [(f.name, mem.nodes.length)] } :
          FeatureModel).livesAbove off := by
        refine ⟨?_, hFM.2⟩
        intro e he
        simp only [List.mem_append, List.mem_singleton] at he
        rcases he with he | he
        · exact hFM.1 e he
        · subst he; exact hinv.1
      have hI : off ≤ mem.nodes.length := hinv.1
      simp only [AddFeatureToModel.call, FeatureModelModification.addFeature,
        FeatureModel.addFeature, hg, bind_eq_ok, pure_eq_ok, Prod.exists] at h
      obtain ⟨a, a1, b, heq, h⟩ := h
      simp only [Except.ok.injEq, Prod.mk.injEq] at heq
      obtain ⟨rfl, rfl, rfl⟩ := heq
      simp only [] at h
      cases Parent with
      | some p =>
        simp only [] at h
        obtain ⟨s2, c2, rfl, rfl⟩ := AddFeatureToModel_link_frame hc1 hI (hP p rfl) h
        exact ⟨Memory_sameBelow_trans hs1 s2, c2, hFM1, by intro x hx; cases hx; exact hI⟩
      | none =>
        simp only [] at h
        cases hr : FM.root with
        | some R =>
          have hr2 : ({ FM with features := FM.features ++ [(f.name, mem.nodes.length)] } :
            FeatureModel).getRoot = some R := hr
          rw [hr2] at h
          simp only [] at h
          obtain ⟨s2, c2, rfl, rfl⟩ := AddFeatureToModel_link_frame hc1 hI (hFM.2 R hr) h
          exact ⟨Memory_sameBelow_trans hs1 s2, c2, hFM1, by intro x hx; cases hx; exact hI⟩
        | none =>
          have hr2 : ({ FM with features := FM.features ++ [(f.name, mem.nodes.length)] } :
            FeatureModel).getRoot = none := hr
          rw [hr2] at h
          simp only [pure_eq_ok, Prod.mk.injEq] at h
          obtain ⟨rfl, rfl, rfl⟩ := h
          exact ⟨hs1, hc1, hFM1, by intro x hx; cases hx; exact hI⟩

theorem deref_eq_ok {p : Option Handle} {h : Nat} (hd : deref p = .ok h) : p = some h := by
  cases p with
  | none => cases hd
  | some x => simpa [deref] using hd

theorem Memory_node_eq_ok {mem : Memory} {h : Nat} {n : FeatureTreeNode}
    (hn : mem.node h = .ok n) : mem.nodes[h]? = some n := by
  unfold Memory.node at hn
  cases hx : mem.nodes[h]? with
  | none => rw [hx] at hn; cases hn
  | some x => rw [hx] at hn; simpa using hn

theorem Memory_constraint_eq_ok {mem : Memory} {c : Nat} {k : Constraint}
    (hk : mem.constraint c = .ok k) : mem.constraints[c]? = some k := by
  unfold Memory.constraint at hk
  cases hx : mem.constraints[c]? with
  | none => rw [hx] at hk; cases hk
  | some x => rw [hx] at hk; simpa using hk

theorem AddRelationshipToModel_moveChild_frame {off coff : Nat} {mem mem2 : Memory}
    {Inserted : Nat} {C : Option Handle}
    (hinv : mem.closedAbove off coff) (hI : off ≤ Inserted)
    (hC : ∀ c : Nat, C = some c → off ≤ c)
    (h : AddRelationshipToModel.moveChild mem Inserted C = .ok mem2) :
    mem.sameBelow off coff mem2 ∧ mem2.closedAbove off coff := by
  simp only [AddRelationshipToModel.moveChild, bind_eq_ok] at h
  obtain ⟨c, hc, cn, hcn, p, hp, m1, h1, m2, h2, h3⟩ := h
  have hc2 := hC c (deref_eq_ok hc)
  have hp2 : off ≤ p := (hinv.2.2 c cn hc2 (Memory_node_eq_ok hcn)).1 p (deref_eq_ok hp)
  obtain ⟨s1, c1⟩ := FeatureModelModification_removeEdge_frame hinv hp2 h1
  obtain ⟨s2, c2⟩ := FeatureModelModification_addEdge_frame c1 hI hc2 h2
  obtain ⟨s3, c3⟩ := FeatureModelModification_setParent_frame c2 hc2 hI h3
  exact ⟨Memory_sameBelow_trans (Memory_sameBelow_trans s1 s2) s3, c3⟩

theorem AddRelationshipToModel_loopPtrs_frame {off coff : Nat} {Inserted : Nat}
    (hI : off ≤ Inserted) (s : List (Option Handle)) :
    ∀ {mem mem2 : Memory}, mem.closedAbove off coff →
      (∀ c : Nat, some c ∈ s → off ≤ c) →
      AddRelationshipToModel.loopPtrs Inserted mem s = .ok mem2 →
      mem.sameBelow off coff mem2 ∧ mem2.closedAbove off coff := by
  induction s with
  | nil =>
    intro mem mem2 hinv _ h
    simp only [AddRelationshipToModel.loopPtrs, Except.ok.injEq] at h
    subst h
    exact ⟨Memory_sameBelow_refl _ _ _, hinv⟩
  | cons C rest ih =>
    intro mem mem2 hinv hs h
    simp only [AddRelationshipToModel.loopPtrs, bind_eq_ok] at h
    obtain ⟨m1, h1, h2⟩ := h
    obtain ⟨s1, c1⟩ := AddRelationshipToModel_moveChild_frame hinv hI
      (fun c hc => hs c (by simp [hc])) h1
    obtain ⟨s2, c2⟩ := ih c1 (fun c hc => hs c (by simp [hc])) h2
    exact ⟨Memory_sameBelow_trans s1 s2, c2⟩

theorem AddRelationshipToModel_call_frame {off coff : Nat} {mem mem2 : Memory}
    {FM FM2 : FeatureModel} {Kind : RelationshipKind} {P r : Option Handle}
    {s : List (Option Handle)}
    (hinv : mem.closedAbove off coff) (hFM : FM.livesAbove off)
    (hP : ∀ p : Nat, P = some p → off ≤ p)
    (hs : ∀ c : Nat, some c ∈ s → off ≤ c)
    (h : AddRelationshipToModel.call Kind (.ptr P) (.ptrs s) mem FM = .ok (r, mem2, FM2)) :
    mem.sameBelow off coff mem2 ∧ mem2.closedAbove off coff ∧ FM2.livesAbove off := by
  have hrel : (Relationship.make Kind).pointsAbove off :=
    FeatureTreeNode_pointsAbove_of_unlinked _ ⟨rfl, rfl⟩
  obtain ⟨s0, c0⟩ := Memory_appendNode_frame (Relationship.make Kind) hinv hrel
  have hI : off ≤ mem.nodes.length := hinv.1
  simp only [AddRelationshipToModel.call, FeatureModelModification.addRelationship,
    FeatureModel.addRelationship, FeatureModelModification.resolveVariant, bind_eq_ok,
    pure_eq_ok, Prod.mk.injEq] at h
  obtain ⟨p, hp, m1, h1, m2, h2, m3, h3, -, rfl, rfl⟩ := h
  have hp2 := hP p (deref_eq_ok hp)
  obtain ⟨s1, c1⟩ := FeatureModelModification_setParent_frame c0 hI hp2 h1
  obtain ⟨s2, c2⟩ := FeatureModelModification_addEdge_frame c1 hp2 hI h2
  obtain ⟨s3, c3⟩ := AddRelationshipToModel_loopPtrs_frame hI s c2 hs h3
  exact ⟨Memory_sameBelow_trans (Memory_sameBelow_trans (Memory_sameBelow_trans s0 s1) s2) s3,
    c3, hFM⟩

theorem AddConstraintToModel_visit_frame {off coff : Nat} {mem mem2 : Memory}
    {FM : FeatureModel} {C : Nat}
    (hinv : mem.closedAbove off coff) (hFM : FM.livesAbove off) (hC : coff ≤ C)
    (h : AddConstraintToModel.visit mem FM C = .ok mem2) :
    mem.sameBelow off coff mem2 ∧ mem2.closedAbove off coff := by
  simp only [AddConstraintToModel.visit, bind_eq_ok] at h
  obtain ⟨k, hk, h⟩ := h
  cases k with
  | other t =>
    simp only [pure_eq_ok] at h
    subst h
    exact ⟨Memory_sameBelow_refl _ _ _, hinv⟩
  | primary f =>
    simp only [bind_eq_ok] at h
    obtain ⟨fh, -, fn, -, F, hF, m1, h1, h2⟩ := h
    have hF2 : off ≤ F := FeatureModel_getFeature_above hFM (deref_eq_ok hF)
    obtain ⟨s1, c1⟩ := FeatureModelModification_setFeature_frame hinv hC h1
    obtain ⟨s2, c2⟩ := FeatureModelModification_addConstraintToFeature_frame c1 hF2 h2
    exact ⟨Memory_sameBelow_trans s1 s2, c2⟩

theorem AddConstraintToModel_call_frame {off coff : Nat} {mem mem2 : Memory}
    {FM FM2 : FeatureModel} {NewConstraint : Option Constraint} {r : Option CHandle}
    (hinv : mem.closedAbove off coff) (hFM : FM.livesAbove off)
    (h : AddConstraintToModel.call NewConstraint mem FM = .ok (r, mem2, FM2)) :
    mem.sameBelow off coff mem2 ∧ mem2.closedAbove off coff ∧ FM2.livesAbove off := by
  cases NewConstraint with
  | none => simp [AddConstraintToModel.call, FeatureModelModification.addConstraint, bind,
      Except.bind] at h
  | some k =>
    obtain ⟨s0, c0⟩ := Memory_appendConstraint_frame k hinv
    simp only [AddConstraintToModel.call, FeatureModelModification.addConstraint,
      FeatureModel.addConstraint, bind_eq_ok, pure_eq_ok, Prod.exists, Except.ok.injEq,
      Prod.mk.injEq] at h
    obtain ⟨a, a1, b, ⟨rfl, rfl, rfl⟩, h⟩ := h
    simp only [bind_eq_ok, pure_eq_ok, Prod.mk.injEq] at h
    obtain ⟨m1, h1, -, rfl, rfl⟩ := h
    have hFM1 : ({ FM with constraints := FM.constraints ++ [mem.constraints.length] } :
        FeatureModel).livesAbove off := hFM
    obtain ⟨s1, c1⟩ := AddConstraintToModel_visit_frame c0 hFM1 hinv.2.1 h1
    exact ⟨Memory_sameBelow_trans s0 s1, c1, hFM⟩

theorem SetRoot_loop_frame {off coff : Nat} {OldRoot NewRoot : Nat}
    (hR : off ≤ OldRoot) (hN : off ≤ NewRoot) (cs : List Handle) :
    ∀ {mem mem2 : Memory}, mem.closedAbove off coff →
      (∀ c : Nat, c ∈ cs → off ≤ c) →
      SetRoot.loop OldRoot NewRoot mem cs = .ok mem2 →
      mem.sameBelow off coff mem2 ∧ mem2.closedAbove off coff := by
  induction cs with
  | nil =>
    intro mem mem2 hinv _ h
    simp only [SetRoot.loop, Except.ok.injEq] at h
    subst h
    exact ⟨Memory_sameBelow_refl _ _ _, hinv⟩
  | cons C rest ih =>
    intro mem mem2 hinv hs h
    simp only [SetRoot.loop, bind_eq_ok] at h
    obtain ⟨m1, h1, m2, h2, m3, h3, h4⟩ := h
    have hC : off ≤ C := hs C (by simp)
    obtain ⟨s1, c1⟩ := FeatureModelModification_setParent_frame hinv hC hN h1
    obtain ⟨s2, c2⟩ := FeatureModelModification_removeEdge_frame c1 hR h2
    obtain ⟨s3, c3⟩ := FeatureModelModification_addEdge_frame c2 hN hC h3
    obtain ⟨s4, c4⟩ := ih c3 (fun c hc => hs c (by simp [hc])) h4
    exact ⟨Memory_sameBelow_trans (Memory_sameBelow_trans (Memory_sameBelow_trans s1 s2) s3) s4,
      c4⟩

theorem SetRoot_call_frame {off coff : Nat} {ord : SortOrder} {mem mem2 : Memory}
    {FM FM2 : FeatureModel} {Root : Option FeatureTreeNode} {r : Option Handle}
    (hinv : mem.closedAbove off coff) (hFM : FM.livesAbove off)
    (hnf : ∀ f, Root = some f → f.pointsAbove off)
    (h : SetRoot.call ord Root mem FM = .ok (r, mem2, FM2)) :
    mem.sameBelow off coff mem2 ∧ mem2.closedAbove off coff ∧ FM2.livesAbove off := by
  cases Root with
  | none => simp [SetRoot.call, FeatureModelModification.addFeature, bind, Except.bind] at h
  | some f =>
    have hf := hnf f rfl
    simp only [SetRoot.call, FeatureModelModification.addFeature, bind_eq_ok, Prod.exists,
      Except.ok.injEq] at h
    obtain ⟨Inserted, m0, FM0, hadd, NewRoot, hcast, h⟩ := h
    -- the insertion
    have h0 : mem.sameBelow off coff m0 ∧ m0.closedAbove off coff ∧ FM0.livesAbove off ∧
        (∀ x : Nat, Inserted = some x → off ≤ x) := by
      unfold FeatureModel.addFeature at hadd
      cases hg : FM.getFeature f.name with
      | some x =>
        rw [hg] at hadd
        simp only [Prod.mk.injEq] at hadd
        obtain ⟨rfl, rfl, rfl⟩ := hadd
        exact ⟨Memory_sameBelow_refl _ _ _, hinv, hFM, by simp⟩
      | none =>
        rw [hg] at hadd
        simp only [Prod.mk.injEq] at hadd
        obtain ⟨rfl, rfl, rfl⟩ := hadd
        obtain ⟨hs1, hc1⟩ := Memory_appendNode_frame f hinv hf
        refine ⟨hs1, hc1, ⟨?_, hFM.2⟩, by intro x hx; cases hx; exact hinv.1⟩
        intro e he
        simp only [List.mem_append, List.mem_singleton] at he
        rcases he with he | he
        · exact hFM.1 e he
        · subst he; exact hinv.1
    obtain ⟨s0, c0, hFM0, hIns⟩ := h0
    have hsort : ∀ G : FeatureModel, G.livesAbove off → (G.sort ord m0).livesAbove off :=
      fun G hG => hG
    cases NewRoot with
    | none =>
      simp only [pure_eq_ok, Prod.mk.injEq] at h
      obtain ⟨-, rfl, rfl⟩ := h
      exact ⟨s0, c0, hFM0⟩
    | some NR =>
      have hNR : off ≤ NR := by
        cases Inserted with
        | none => simp [dyn_cast_or_null_RootFeature] at hcast
        | some x =>
          simp only [dyn_cast_or_null_RootFeature, bind_eq_ok, pure_eq_ok] at hcast
          obtain ⟨n, -, hn⟩ := hcast
          split at hn
          · cases hn; exact hIns _ rfl
          · cases hn
      simp only [bind_eq_ok, pure_eq_ok, Prod.exists, Prod.mk.injEq] at h
      obtain ⟨m1, FM1, h1, -, rfl, rfl⟩ := h
      cases hr : FM0.getRoot with
      | none =>
        rw [hr] at h1
        simp only [pure_eq_ok, Prod.mk.injEq] at h1
        obtain ⟨rfl, rfl⟩ := h1
        exact ⟨s0, c0, ⟨hFM0.1, by intro r hr; cases hr; exact hNR⟩⟩
      | some R =>
        rw [hr] at h1
        simp only [bind_eq_ok, pure_eq_ok, Prod.mk.injEq] at h1
        obtain ⟨rn, hrn, m2, h2, FM3, h3, rfl, rfl⟩ := h1
        have hR : off ≤ R := hFM0.2 R hr
        have hch := (c0.2.2 R rn hR (Memory_node_eq_ok hrn)).2
        obtain ⟨s1, c1⟩ := SetRoot_loop_frame hR hNR rn.children c0 hch h2
        simp only [FeatureModel.removeFeature, bind_eq_ok, pure_eq_ok] at h3
        obtain ⟨n3, -, rfl⟩ := h3
        refine ⟨Memory_sameBelow_trans s0 s1, c1, ⟨?_, by intro r hr; cases hr; exact hNR⟩⟩
        intro e he
        have he2 : e ∈ FM0.features := (List.mem_filter.mp he).1
        exact hFM0.1 e he2

theorem FeatureModelCopyTransactionBase_TranslateFeature_above {off : Nat} {mem : Memory}
    {T : FeatureModelCopyTransactionBase} {F t : Option Handle}
    (hT : ∀ FM, T.FM = some FM → FM.livesAbove off)
    (h : T.TranslateFeature mem F = .ok t) : ∀ x : Nat, t = some x → off ≤ x := by
  simp only [FeatureModelCopyTransactionBase.TranslateFeature, bind_eq_ok] at h
  obtain ⟨f, -, n, -, h⟩ := h
  cases hFM : T.FM with
  | none => rw [hFM] at h; cases h
  | some FM =>
    rw [hFM] at h
    simp only [pure_eq_ok] at h
    subst h
    intro x hx
    exact FeatureModel_getFeature_above (hT FM hFM) hx

theorem mem_stdSetInsert {x y : Option Handle} {s : List (Option Handle)}
    (h : y ∈ stdSetInsert x s) : y = x ∨ y ∈ s := by
  induction s with
  | nil => simp [stdSetInsert] at h; exact Or.inl h
  | cons z zs ih =>
    unfold stdSetInsert at h
    split at h
    · simp only [List.mem_cons] at h ⊢
      exact h
    · split at h
      · exact Or.inr h
      · simp only [List.mem_cons] at h ⊢
        rcases h with h | h
        · exact Or.inr (Or.inl h)
        · rcases ih h with h2 | h2
          · exact Or.inl h2
          · exact Or.inr (Or.inr h2)

theorem FeatureModelCopyTransactionBase_translateChildren_above {off : Nat} {mem : Memory}
    {T : FeatureModelCopyTransactionBase}
    (hT : ∀ FM, T.FM = some FM → FM.livesAbove off) (l : List (Option Handle)) :
    ∀ {acc res : List (Option Handle)}, (∀ c : Nat, some c ∈ acc → off ≤ c) →
      T.translateChildren mem acc l = .ok res → ∀ c : Nat, some c ∈ res → off ≤ c := by
  induction l with
  | nil =>
    intro acc res hacc h
    simp only [FeatureModelCopyTransactionBase.translateChildren, Except.ok.injEq] at h
    subst h
    exact hacc
  | cons C rest ih =>
    intro acc res hacc h
    simp only [FeatureModelCopyTransactionBase.translateChildren, bind_eq_ok] at h
    obtain ⟨t, ht, h2⟩ := h
    refine ih ?_ h2
    intro c hc
    rcases mem_stdSetInsert hc with h3 | h3
    · exact FeatureModelCopyTransactionBase_TranslateFeature_above hT ht c h3.symm
    · exact hacc c h3

/-- Every mutation method of a copy-mode transaction writes only at or above
`off` when the clone lives there. -/
theorem FeatureModelCopyTransaction_call_frame {off coff : Nat} {ord : SortOrder}
    {mem mem2 : Memory} {T T2 : FeatureModelCopyTransactionBase} {c : Call}
    (hinv : mem.closedAbove off coff) (hT : ∀ FM, T.FM = some FM → FM.livesAbove off)
    (hc : c.newNodesUnlinked)
    (h : FeatureModelCopyTransaction.call ord mem T c = .ok (mem2, T2)) :
    mem.sameBelow off coff mem2 ∧ mem2.closedAbove off coff ∧
      (∀ FM, T2.FM = some FM → FM.livesAbove off) := by
  have hsame : mem.sameBelow off coff mem := Memory_sameBelow_refl _ _ _
  cases c with
  | addFeature NewFeature Parent =>
    simp only [FeatureModelCopyTransaction.call, map_eq_ok, Prod.exists] at h
    obtain ⟨r, m, T3, h, heq⟩ := h
    simp only [Prod.mk.injEq] at heq
    obtain ⟨rfl, rfl⟩ := heq
    have hnf : ∀ f, NewFeature = some f → f.pointsAbove off := by
      intro f hf
      subst hf
      exact FeatureTreeNode_pointsAbove_of_unlinked f hc
    unfold FeatureModelCopyTransactionBase.addFeatureImpl at h
    cases hFM : T.FM with
    | none =>
      rw [hFM] at h
      simp only [Except.ok.injEq, Prod.mk.injEq] at h
      obtain ⟨-, rfl, rfl⟩ := h
      exact ⟨hsame, hinv, hT⟩
    | some FM =>
      rw [hFM] at h
      cases Parent with
      | none =>
        simp only [bind_eq_ok, pure_eq_ok, Prod.exists, Prod.mk.injEq] at h
        obtain ⟨r2, m2, FM2, h, -, rfl, rfl⟩ := h
        obtain ⟨s1, c1, f1, -⟩ := AddFeatureToModel_call_frame hinv (hT FM hFM) hnf
          (by intro p hp; cases hp) h
        exact ⟨s1, c1, by intro G hG; cases hG; exact f1⟩
      | some p =>
        simp only [bind_eq_ok, pure_eq_ok, Prod.exists, Prod.mk.injEq] at h
        obtain ⟨P, hP, r2, m2, FM2, h, -, rfl, rfl⟩ := h
        obtain ⟨s1, c1, f1, -⟩ := AddFeatureToModel_call_frame hinv (hT FM hFM) hnf
          (FeatureModelCopyTransactionBase_TranslateFeature_above hT hP) h
        exact ⟨s1, c1, by intro G hG; cases hG; exact f1⟩
  | addRelationship Kind Parent Children =>
    simp only [FeatureModelCopyTransaction.call, map_eq_ok, Prod.exists] at h
    obtain ⟨r, m, T3, h, heq⟩ := h
    simp only [Prod.mk.injEq] at heq
    obtain ⟨rfl, rfl⟩ := heq
    unfold FeatureModelCopyTransactionBase.addRelationshipImpl at h
    cases hFM : T.FM with
    | none =>
      rw [hFM] at h
      simp only [Except.ok.injEq, Prod.mk.injEq] at h
      obtain ⟨-, rfl, rfl⟩ := h
      exact ⟨hsame, hinv, hT⟩
    | some FM =>
      rw [hFM] at h
      simp only [bind_eq_ok, pure_eq_ok, Prod.exists, Prod.mk.injEq] at h
      obtain ⟨TC, hTC, P, hP, r2, m2, FM2, h, -, rfl, rfl⟩ := h
      have hTC2 : ∀ c : Nat, some c ∈ TC → off ≤ c := by
        cases Children with
        | names s =>
          exact FeatureModelCopyTransactionBase_translateChildren_above hT _
            (by intro c hc; cases hc) hTC
        | ptrs s =>
          exact FeatureModelCopyTransactionBase_translateChildren_above hT _
            (by intro c hc; cases hc) hTC
      obtain ⟨s1, c1, f1⟩ := AddRelationshipToModel_call_frame hinv (hT FM hFM)
        (FeatureModelCopyTransactionBase_TranslateFeature_above hT hP) hTC2 h
      exact ⟨s1, c1, by intro G hG; cases hG; exact f1⟩
  | addConstraint Constraint =>
    simp only [FeatureModelCopyTransaction.call, map_eq_ok, Prod.exists] at h
    obtain ⟨r, m, T3, h, heq⟩ := h
    simp only [Prod.mk.injEq] at heq
    obtain ⟨rfl, rfl⟩ := heq
    unfold FeatureModelCopyTransactionBase.addConstraintImpl at h
    cases hFM : T.FM with
    | none =>
      rw [hFM] at h
      simp only [Except.ok.injEq, Prod.mk.injEq] at h
      obtain ⟨-, rfl, rfl⟩ := h
      exact ⟨hsame, hinv, hT⟩
    | some FM =>
      rw [hFM] at h
      simp only [bind_eq_ok, pure_eq_ok, Prod.exists, Prod.mk.injEq] at h
      obtain ⟨r2, m2, FM2, h, -, rfl, rfl⟩ := h
      obtain ⟨s1, c1, f1⟩ := AddConstraintToModel_call_frame hinv (hT FM hFM) h
      exact ⟨s1, c1, by intro G hG; cases hG; exact f1⟩
  | setName Name =>
    simp only [FeatureModelCopyTransaction.call, map_eq_ok, Prod.mk.injEq] at h
    obtain ⟨T3, h, rfl, rfl⟩ := h
    refine ⟨hsame, hinv, ?_⟩
    unfold FeatureModelCopyTransactionBase.setNameImpl at h
    cases hFM : T.FM with
    | none => rw [hFM] at h; cases h
    | some FM =>
      rw [hFM] at h
      cases h
      intro G hG
      cases hG
      exact hT FM hFM
  | setCommit Commit =>
    simp only [FeatureModelCopyTransaction.call, map_eq_ok, Prod.mk.injEq] at h
    obtain ⟨T3, h, rfl, rfl⟩ := h
    refine ⟨hsame, hinv, ?_⟩
    unfold FeatureModelCopyTransactionBase.setCommitImpl at h
    cases hFM : T.FM with
    | none => rw [hFM] at h; cases h
    | some FM =>
      rw [hFM] at h
      cases h
      intro G hG
      cases hG
      exact hT FM hFM
  | setPath Path =>
    simp only [FeatureModelCopyTransaction.call, map_eq_ok, Prod.mk.injEq] at h
    obtain ⟨T3, h, rfl, rfl⟩ := h
    refine ⟨hsame, hinv, ?_⟩
    unfold FeatureModelCopyTransactionBase.setPathImpl at h
    cases hFM : T.FM with
    | none => rw [hFM] at h; cases h
    | some FM =>
      rw [hFM] at h
      cases h
      intro G hG
      cases hG
      exact hT FM hFM
  | setRoot Root =>
    simp only [FeatureModelCopyTransaction.call, map_eq_ok, Prod.exists] at h
    obtain ⟨r, m, T3, h, heq⟩ := h
    simp only [Prod.mk.injEq] at heq
    obtain ⟨rfl, rfl⟩ := heq
    have hnf : ∀ f, Root = some f → f.pointsAbove off := by
      intro f hf
      subst hf
      exact FeatureTreeNode_pointsAbove_of_unlinked f hc
    unfold FeatureModelCopyTransactionBase.setRootImpl at h
    cases hFM : T.FM with
    | none =>
      rw [hFM] at h
      simp only [Except.ok.injEq, Prod.mk.injEq] at h
      obtain ⟨-, rfl, rfl⟩ := h
      exact ⟨hsame, hinv, hT⟩
    | some FM =>
      rw [hFM] at h
      simp only [bind_eq_ok, pure_eq_ok, Prod.exists, Prod.mk.injEq] at h
      obtain ⟨r2, m2, FM2, h, -, rfl, rfl⟩ := h
      obtain ⟨s1, c1, f1⟩ := SetRoot_call_frame hinv (hT FM hFM) hnf h
      exact ⟨s1, c1, by intro G hG; cases hG; exact f1⟩
  | addChild Parent Child =>
    simp only [FeatureModelCopyTransaction.call, Except.ok.injEq, Prod.mk.injEq] at h
    obtain ⟨rfl, rfl⟩ := h
    exact ⟨hsame, hinv, hT⟩

theorem FeatureModel_clone_frame (mem : Memory) (FM : FeatureModel) :
    mem.sameBelow mem.nodes.length mem.constraints.length (FM.clone mem).1 ∧
      (FM.clone mem).1.closedAbove mem.nodes.length mem.constraints.length ∧
      (FM.clone mem).2.livesAbove mem.nodes.length := by
  refine ⟨⟨?_, ?_⟩, ⟨?_, ?_, ?_⟩, ⟨?_, ?_⟩⟩
  · simp [FeatureModel.clone]
  · simp [FeatureModel.clone]
  · simp [FeatureModel.clone]
  · simp [FeatureModel.clone]
  · intro h n hh hn
    simp only [FeatureModel.clone] at hn
    rw [List.getElem?_append_right hh, List.getElem?_map] at hn
    cases hx : mem.nodes[h - mem.nodes.length]? with
    | none => rw [hx] at hn; cases hn
    | some x =>
      rw [hx] at hn
      simp only [Option.map_some', Option.some.injEq] at hn
      subst hn
      constructor
      · intro p hp
        simp only [FeatureTreeNode.relocate, Option.map_eq_some'] at hp
        obtain ⟨a, -, rfl⟩ := hp
        omega
      · intro c hc
        simp only [FeatureTreeNode.relocate, List.mem_map] at hc
        obtain ⟨a, -, rfl⟩ := hc
        omega
  · intro e he
    simp only [FeatureModel.clone, List.mem_map] at he
    obtain ⟨a, -, rfl⟩ := he
    simp
  · intro r hr
    simp only [FeatureModel.clone, Option.map_eq_some'] at hr
    obtain ⟨a, -, rfl⟩ := hr
    omega

theorem CopySession_calls_frame {off coff : Nat} {ord : SortOrder} (cs : List Call) :
    ∀ {S S2 : CopySession}, S.mem.closedAbove off coff →
      (∀ FM, S.T.FM = some FM → FM.livesAbove off) →
      (∀ c ∈ cs, c.newNodesUnlinked) →
      S.calls ord cs = .ok S2 →
      S.mem.sameBelow off coff S2.mem ∧ S2.original = S.original := by
  induction cs with
  | nil =>
    intro S S2 _ _ _ h
    simp only [CopySession.calls, Except.ok.injEq] at h
    subst h
    exact ⟨Memory_sameBelow_refl _ _ _, rfl⟩
  | cons c rest ih =>
    intro S S2 hinv hT hcs h
    simp only [CopySession.calls, CopySession.call, bind_eq_ok, pure_eq_ok, Prod.exists] at h
    obtain ⟨S1, ⟨m, T1, h1, rfl⟩, h2⟩ := h
    obtain ⟨s1, c1, f1⟩ := FeatureModelCopyTransaction_call_frame hinv hT
      (hcs c (by simp)) h1
    obtain ⟨s2, o2⟩ := ih (S := { S with mem := m, T := T1 }) c1 f1
      (fun c hc => hcs c (by simp [hc])) h2
    exact ⟨Memory_sameBelow_trans s1 s2, o2⟩

/-- Claim C4.  Whatever mutation calls a copy-mode transaction runs (the new
features handed over not yet linked to anything), the objects of the arena that
existed when the transaction was opened, and with them every node of the
original model, are what they were, and the original model object is the
same; commit and abort write nothing to the arena.  All writes go to the
clone, whose addresses start where the old arena ended. -/
theorem C4_copy_leaves_original (ord : SortOrder) (mem : Memory) (FM : FeatureModel)
    (cs : List Call) (S : CopySession)
    (hnew : ∀ c ∈ cs, c.newNodesUnlinked)
    (hrun : (CopySession.openTransaction mem FM >>= fun S0 => S0.calls ord cs) = .ok S) :
    (S.mem.nodes.take mem.nodes.length = mem.nodes ∧
      S.mem.constraints.take mem.constraints.length = mem.constraints ∧
      S.original = FM) ∧
    (S.commit.2.mem = S.mem ∧ S.commit.2.original = FM) ∧
    (S.abort.mem = S.mem ∧ S.abort.original = FM) := by
  simp only [bind_eq_ok] at hrun
  obtain ⟨S0, hopen, hcalls⟩ := hrun
  simp only [CopySession.openTransaction, FeatureModelCopyTransaction.openTransaction,
    bind_eq_ok, pure_eq_ok, Prod.exists] at hopen
  obtain ⟨m0, T0, h0, rfl⟩ := hopen
  split at h0
  · simp only [FeatureModelCopyTransactionBase.mk_, Except.ok.injEq, Prod.mk.injEq] at h0
    obtain ⟨rfl, rfl⟩ := h0
    obtain ⟨s0, c0, f0⟩ := FeatureModel_clone_frame mem FM
    obtain ⟨s1, o1⟩ := CopySession_calls_frame cs
      (S := { mem := (FM.clone mem).1, original := FM, T := { FM := some (FM.clone mem).2 } })
      c0 (by intro G hG; cases hG; exact f0) hnew hcalls
    have hs := Memory_sameBelow_trans s0 s1
    have hfin : S.mem.nodes.take mem.nodes.length = mem.nodes ∧
        S.mem.constraints.take mem.constraints.length = mem.constraints ∧
        S.original = FM := by
      refine ⟨?_, ?_, o1⟩
      · rw [hs.1, List.take_length]
      · rw [hs.2, List.take_length]
    exact ⟨hfin, ⟨rfl, hfin.2.2⟩, ⟨rfl, hfin.2.2⟩⟩
  · cases h0

/-- Claim C4 on the model of the tests: the calls of `copyExampleCalls` hand over
handles of the original model, run without a fault, and leave the two objects
of the original as they were. -/
theorem C4_copy_leaves_original_witness :
    (∀ c ∈ copyExampleCalls, c.newNodesUnlinked) ∧
    ∃ S, (CopySession.openTransaction exampleMemory exampleModel >>= fun S0 =>
        S0.calls registryOrder copyExampleCalls) = .ok S ∧
      ((S.mem.nodes.take exampleMemory.nodes.length = exampleMemory.nodes ∧
        S.mem.constraints.take exampleMemory.constraints.length = exampleMemory.constraints ∧
        S.original = exampleModel) ∧
      (S.commit.2.mem = S.mem ∧ S.commit.2.original = exampleModel) ∧
      (S.abort.mem = S.mem ∧ S.abort.original = exampleModel)) :=
  ⟨by simp [copyExampleCalls, Call.newNodesUnlinked, FeatureTreeNode.unlinked,
      BinaryFeature.make, RootFeature.make],
   _, rfl,
   C4_copy_leaves_original registryOrder exampleMemory exampleModel copyExampleCalls _
    (by simp [copyExampleCalls, Call.newNodesUnlinked, FeatureTreeNode.unlinked,
      BinaryFeature.make, RootFeature.make]) rfl⟩

/-! ## Modify mode: recording, commit, abort -/

/-! ## Modify mode -/

theorem FeatureModelModifyTransaction_call_open (T : FeatureModelModifyTransactionBase)
    (c : Call) (hT : T.FM = true) :
    FeatureModelModifyTransaction.call T c = .ok (T.push_back c.toModification) := by
  cases c <;>
    simp [FeatureModelModifyTransaction.call, Call.toModification,
      FeatureModelModifyTransactionBase.addFeatureImpl,
      FeatureModelModifyTransactionBase.addRelationshipImpl,
      FeatureModelModifyTransactionBase.addConstraintImpl,
      FeatureModelModifyTransactionBase.setNameImpl,
      FeatureModelModifyTransactionBase.setCommitImpl,
      FeatureModelModifyTransactionBase.setPathImpl,
      FeatureModelModifyTransactionBase.setRootImpl,
      FeatureModelModifyTransactionBase.addChildImpl, hT]

theorem ModifySession_calls_open (cs : List Call) :
    ∀ S : ModifySession, S.T.FM = true →
      S.calls cs = .ok { S with T := { S.T with
        Modifications := S.T.Modifications ++ cs.map Call.toModification } } := by
  induction cs with
  | nil => intro S _; simp [ModifySession.calls]
  | cons c rest ih =>
    intro S hS
    have h1 : S.call c = .ok { S with T := S.T.push_back c.toModification } := by
      simp [ModifySession.call, FeatureModelModifyTransaction_call_open S.T c hS, bind,
        Except.bind, pure, Except.pure]
    simp only [ModifySession.calls, h1, bind, Except.bind]
    rw [ih _ (by simpa [FeatureModelModifyTransactionBase.push_back] using hS)]
    simp [FeatureModelModifyTransactionBase.push_back]

theorem ModifySession_openTransaction_valid (mem : Memory) (FM : FeatureModel)
    (hvalid : isFeatureModelValid mem FM = true) :
    ModifySession.openTransaction mem FM =
      .ok { mem := mem, live := FM, T := { FM := true, Modifications := [] } } := by
  simp [ModifySession.openTransaction, FeatureModelModifyTransaction.openTransaction, hvalid,
    FeatureModelModifyTransactionBase.mk_, bind, Except.bind, pure, Except.pure]

theorem ModifySession_open_calls (mem : Memory) (FM : FeatureModel) (cs : List Call)
    (hvalid : isFeatureModelValid mem FM = true) :
    (ModifySession.openTransaction mem FM >>= fun S => S.calls cs) =
      .ok { mem := mem, live := FM,
            T := { FM := true, Modifications := cs.map Call.toModification } } := by
  rw [ModifySession_openTransaction_valid mem FM hvalid]
  simp only [bind, Except.bind]
  rw [ModifySession_calls_open cs _ rfl]
  simp

theorem execAll_eq_foldlM (ord : SortOrder) (ms : List Modification) :
    ∀ (mem : Memory) (FM : FeatureModel),
      execAll ord ms mem FM = ms.foldlM (fun s m => m.exec ord s.1 s.2) (mem, FM) := by
  induction ms with
  | nil => intro mem FM; simp [execAll, pure, Except.pure]
  | cons m rest ih =>
    intro mem FM
    simp only [execAll, List.foldlM_cons, bind, Except.bind]
    cases m.exec ord mem FM with
    | error e => rfl
    | ok r => obtain ⟨mem2, FM2⟩ := r; exact ih mem2 FM2

theorem ModifySession_commit_open (ord : SortOrder) (S : ModifySession)
    (hS : S.T.FM = true) :
    S.commit ord =
      (execAll ord S.T.Modifications S.mem S.live).map (fun r =>
        (isFeatureModelValid r.1 r.2,
         { mem := r.1, live := r.2,
           T := { FM := !isFeatureModelValid r.1 r.2,
                  Modifications := S.T.Modifications.map Modification.afterExec } })) := by
  simp only [ModifySession.commit, FeatureModelModifyTransaction.commit,
    FeatureModelModifyTransactionBase.commitImpl, hS, bind, Except.bind, Except.map]
  cases execAll ord S.T.Modifications S.mem S.live with
  | error e => simp
  | ok r =>
    obtain ⟨m, f⟩ := r
    by_cases hv : isFeatureModelValid m f = true
    · simp [hv, pure, Except.pure]
    · simp [hv, pure, Except.pure]


/-- Claim C1.  On a modify-mode transaction opened on a valid model, every
sequence of mutation calls succeeds and leaves the arena and the live model as
they were at open time: the size is the same, a name that was not registered is
still not found, and the pending list is exactly the commands of the calls, in
call order; the transaction is still open. -/
theorem C1_modify_calls_only_append (mem : Memory) (FM : FeatureModel) (cs : List Call)
    (hvalid : isFeatureModelValid mem FM = true) :
    ∃ S, (ModifySession.openTransaction mem FM >>= fun S0 => S0.calls cs) = .ok S ∧
      S.mem = mem ∧ S.live = FM ∧ S.live.size = FM.size ∧
      (∀ Name, FM.getFeature Name = none → S.live.getFeature Name = none) ∧
      S.T.Modifications = cs.map Call.toModification ∧
      S.T.isUncommited = true :=
  ⟨_, ModifySession_open_calls mem FM cs hvalid, rfl, rfl, rfl, fun _ h => h, rfl, rfl⟩

/-- Claim C1 on the model of the tests, with `addFeature("ab", a)` recorded. -/
theorem C1_modify_calls_only_append_witness :
    isFeatureModelValid exampleMemory exampleModel = true ∧
    ∃ S, (ModifySession.openTransaction exampleMemory exampleModel >>= fun S0 =>
        S0.calls [.addFeature (some (BinaryFeature.make "ab")) (some 1)]) = .ok S ∧
      S.mem = exampleMemory ∧ S.live = exampleModel ∧ S.live.size = exampleModel.size ∧
      (∀ Name, exampleModel.getFeature Name = none → S.live.getFeature Name = none) ∧
      S.T.Modifications =
        [Call.addFeature (some (BinaryFeature.make "ab")) (some 1)].map Call.toModification ∧
      S.T.isUncommited = true :=
  ⟨by decide, C1_modify_calls_only_append exampleMemory exampleModel
    [.addFeature (some (BinaryFeature.make "ab")) (some 1)] (by decide)⟩

/-- Claim C2.  Committing a modify-mode transaction opened on a valid model
gives the arena and live model obtained by running the commands of the calls
one after the other, in call order, from the state at open time (and faults
where that run faults).  On the model with "root" and "a", recording
`addFeature("ab", a)` and committing succeeds with size 3, "ab" registered, and
the parent of "ab" equal to "a". -/
theorem C2_modify_commit_applies_in_order (ord : SortOrder) (mem : Memory)
    (FM : FeatureModel) (cs : List Call) (hvalid : isFeatureModelValid mem FM = true) :
    ((ModifySession.openTransaction mem FM >>= fun S => S.calls cs >>= fun S =>
        S.commit ord).map (fun r => (r.2.mem, r.2.live))
      = cs.foldlM (fun s c => c.toModification.exec ord s.1 s.2) (mem, FM)) ∧
    ((ModifySession.openTransaction exampleMemory exampleModel >>= fun S =>
        S.calls [.addFeature (some (BinaryFeature.make "ab")) (exampleModel.getFeature "a")]
          >>= fun S => S.commit ord).map (fun r =>
        (r.1, r.2.live.size, r.2.live.getFeature "ab",
         (r.2.live.getFeature "ab").bind (fun h => r.2.mem.nodes[h]?.bind (·.parent)),
         r.2.live.getFeature "a"))
      = .ok (true, 3, some 2, some 1, some 1)) := by
  constructor
  · have h := ModifySession_open_calls mem FM cs hvalid
    simp only [bind, Except.bind] at h ⊢
    cases ho : ModifySession.openTransaction mem FM with
    | error e => rw [ho] at h; simp at h
    | ok S0 =>
      rw [ho] at h
      simp only [] at h ⊢
      rw [h]
      simp only []
      rw [ModifySession_commit_open ord _ rfl, execAll_eq_foldlM, List.foldlM_map]
      simp only []
      cases List.foldlM (fun s c => (Call.toModification c).exec ord s.1 s.2) (mem, FM) cs with
      | error e => rfl
      | ok r => rfl
  · rfl

/-- Claim C2 on the model of the tests, with a `setName` and an `addFeature`
recorded. -/
theorem C2_modify_commit_applies_in_order_witness :
    isFeatureModelValid exampleMemory exampleModel = true ∧
    ((ModifySession.openTransaction exampleMemory exampleModel >>= fun S =>
        S.calls [.setName "m", .addFeature (some (BinaryFeature.make "ab")) (some 1)]
          >>= fun S => S.commit registryOrder).map (fun r => (r.2.mem, r.2.live))
      = [Call.setName "m", .addFeature (some (BinaryFeature.make "ab")) (some 1)].foldlM
          (fun s c => c.toModification.exec registryOrder s.1 s.2)
          (exampleMemory, exampleModel)) :=
  ⟨by decide, (C2_modify_commit_applies_in_order registryOrder exampleMemory exampleModel
    [.setName "m", .addFeature (some (BinaryFeature.make "ab")) (some 1)] (by decide)).1⟩

/-- Claim C3.  After any number of mutation calls on a modify-mode transaction
opened on a valid model, abort leaves the arena and the live model exactly as
they were when the transaction was opened, and the pending list is empty. -/
theorem C3_modify_abort_restores (mem : Memory) (FM : FeatureModel) (cs : List Call)
    (hvalid : isFeatureModelValid mem FM = true) :
    ∃ S, (ModifySession.openTransaction mem FM >>= fun S0 => S0.calls cs) = .ok S ∧
      S.T.Modifications.length = cs.length ∧
      S.abort.mem = mem ∧ S.abort.live = FM ∧ S.abort.T.Modifications = [] :=
  ⟨_, ModifySession_open_calls mem FM cs hvalid, by simp, rfl, rfl, rfl⟩

/-- Claim C3 on the model of the tests, with a `setRoot` and a `setName`
recorded. -/
theorem C3_modify_abort_restores_witness :
    isFeatureModelValid exampleMemory exampleModel = true ∧
    ∃ S, (ModifySession.openTransaction exampleMemory exampleModel >>= fun S0 =>
        S0.calls [.setRoot (some (RootFeature.make "r")), .setName "m"]) = .ok S ∧
      S.T.Modifications.length = [Call.setRoot (some (RootFeature.make "r")),
        Call.setName "m"].length ∧
      S.abort.mem = exampleMemory ∧ S.abort.live = exampleModel ∧
      S.abort.T.Modifications = [] :=
  ⟨by decide, C3_modify_abort_restores exampleMemory exampleModel
    [.setRoot (some (RootFeature.make "r")), .setName "m"] (by decide)⟩

/-- Claim C5.  For an open copy-mode transaction (one that holds its clone),
commit returns a model exactly when the clone satisfies the consistency
predicate; the model it returns is the clone as the calls left it, and it
satisfies the predicate; when the clone is not valid, commit returns null. -/
theorem C5_copy_commit_iff_valid (S : CopySession) (Clone : FeatureModel)
    (hopen : S.T.FM = some Clone) :
    (S.commit.1.isSome = true ↔ isFeatureModelValid S.mem Clone = true) ∧
    (isFeatureModelValid S.mem Clone = true →
      S.commit.1 = some Clone ∧
      ∀ FM, S.commit.1 = some FM → isFeatureModelValid S.commit.2.mem FM = true) ∧
    (isFeatureModelValid S.mem Clone = false → S.commit.1 = none) := by
  simp only [CopySession.commit, FeatureModelCopyTransaction.commit,
    FeatureModelCopyTransactionBase.commitImpl, hopen]
  by_cases hv : isFeatureModelValid S.mem Clone = true
  · simp [hv]
  · simp [hv]

theorem AddFeatureToModel_call_duplicate (mem : Memory) (FM : FeatureModel)
    (NewFeature : FeatureTreeNode) (Parent : Option Handle) (h : Handle)
    (hdup : FM.getFeature NewFeature.name = some h) :
    AddFeatureToModel.call (some NewFeature) Parent mem FM = .ok (none, mem, FM) := by
  simp [AddFeatureToModel.call, FeatureModelModification.addFeature, FeatureModel.addFeature,
    hdup, bind, Except.bind, pure, Except.pure]

/-- Claim C9.  When the name of the new feature is already registered,
`AddFeatureToModel` returns null, the size of the model is not increased, and
the model and the arena (so every parent pointer and every child set) are what
they were. -/
theorem C9_add_duplicate_feature (mem : Memory) (FM : FeatureModel)
    (NewFeature : FeatureTreeNode) (Parent : Option Handle) (h : Handle)
    (hdup : FM.getFeature NewFeature.name = some h) :
    ∃ mem2 FM2, AddFeatureToModel.call (some NewFeature) Parent mem FM = .ok (none, mem2, FM2) ∧
      FM2.size = FM.size ∧ FM2 = FM ∧ mem2 = mem :=
  ⟨mem, FM, AddFeatureToModel_call_duplicate mem FM NewFeature Parent h hdup, rfl, rfl, rfl⟩

/-- Claim C5 on a copy-mode transaction that holds the clone of the model of the
tests. -/
theorem C5_copy_commit_iff_valid_witness :
    (CopySession.mk (FeatureModel.clone exampleMemory exampleModel).1 exampleModel
      { FM := some (FeatureModel.clone exampleMemory exampleModel).2 }).T.FM
        = some (FeatureModel.clone exampleMemory exampleModel).2 ∧
    isFeatureModelValid (FeatureModel.clone exampleMemory exampleModel).1
      (FeatureModel.clone exampleMemory exampleModel).2 = true ∧
    (CopySession.mk (FeatureModel.clone exampleMemory exampleModel).1 exampleModel
      { FM := some (FeatureModel.clone exampleMemory exampleModel).2 }).commit.1
        = some (FeatureModel.clone exampleMemory exampleModel).2 :=
  ⟨rfl, by decide,
    ((C5_copy_commit_iff_valid
      (CopySession.mk (FeatureModel.clone exampleMemory exampleModel).1 exampleModel
        { FM := some (FeatureModel.clone exampleMemory exampleModel).2 })
      (FeatureModel.clone exampleMemory exampleModel).2 rfl).2.1 (by decide)).1⟩

/-- Claim C9 on the model of the tests, for a second feature named "a". -/
theorem C9_add_duplicate_feature_witness :
    exampleModel.getFeature (BinaryFeature.make "a").name = some 1 ∧
    ∃ mem2 FM2, AddFeatureToModel.call (some (BinaryFeature.make "a")) (some 0)
        exampleMemory exampleModel = .ok (none, mem2, FM2) ∧
      FM2.size = exampleModel.size ∧ FM2 = exampleModel ∧ mem2 = exampleMemory :=
  ⟨by decide, C9_add_duplicate_feature exampleMemory exampleModel (BinaryFeature.make "a")
    (some 0) 1 (by decide)⟩

theorem FeatureModel_getFeature_append_fresh (FM : FeatureModel) (Name : String) (h : Handle)
    (hfresh : FM.getFeature Name = none) :
    ({ FM with features := FM.features ++ [(Name, h)] } : FeatureModel).getFeature Name
      = some h := by
  simp only [FeatureModel.getFeature, Option.map_eq_none', List.find?_eq_none] at hfresh
  simp only [FeatureModel.getFeature, List.find?_append]
  rw [List.find?_eq_none.mpr hfresh]
  simp

/-- The outcome of `AddFeatureToModel` for a fresh name when the new feature is
linked under the node at `q`. -/
theorem AddFeatureToModel_call_fresh_linked (mem : Memory) (FM : FeatureModel)
    (NewFeature : FeatureTreeNode) (Parent : Option Handle) (q : Handle)
    (qn : FeatureTreeNode)
    (hfresh : FM.getFeature NewFeature.name = none)
    (hq : (Parent <|> FM.getRoot) = some q) (hqn : mem.nodes[q]? = some qn) :
    AddFeatureToModel.call (some NewFeature) Parent mem FM =
      .ok (some mem.nodes.length,
        { mem with nodes :=
            ((mem.nodes ++ [NewFeature.setParent (some q)]).set q
              (qn.addEdge mem.nodes.length)) },
        { FM with features := FM.features ++ [(NewFeature.name, mem.nodes.length)] }) := by
  have hlt : q < mem.nodes.length := lt_of_getElem?_eq_some hqn
  have hq2 : (mem.nodes ++ [NewFeature.setParent (some q)])[q]? = some qn := by
    rw [List.getElem?_append_left hlt, hqn]
  cases Parent with
  | some p =>
    have hpq : p = q := by simpa using hq
    subst hpq
    simp [AddFeatureToModel.call, FeatureModelModification.addFeature,
      FeatureModel.addFeature, hfresh, bind, Except.bind, pure, Except.pure,
      FeatureModelModification.setParent, FeatureModelModification.addEdge,
      Memory.modifyNode, hq2]
  | none =>
    have hr : FM.getRoot = some q := by simpa using hq
    have hr2 : ({ FM with features := FM.features ++ [(NewFeature.name, mem.nodes.length)] } :
        FeatureModel).getRoot = some q := hr
    simp [AddFeatureToModel.call, FeatureModelModification.addFeature,
      FeatureModel.addFeature, hfresh, bind, Except.bind, pure, Except.pure,
      FeatureModelModification.setParent, FeatureModelModification.addEdge,
      Memory.modifyNode, hq2, hr2]

/-- The outcome of `AddFeatureToModel` for a fresh name when there is neither a
given parent nor a root. -/
theorem AddFeatureToModel_call_fresh_unlinked (mem : Memory) (FM : FeatureModel)
    (NewFeature : FeatureTreeNode)
    (hfresh : FM.getFeature NewFeature.name = none) (hroot : FM.getRoot = none) :
    AddFeatureToModel.call (some NewFeature) none mem FM =
      .ok (some mem.nodes.length,
        { mem with nodes := mem.nodes ++ [NewFeature] },
        { FM with features := FM.features ++ [(NewFeature.name, mem.nodes.length)] }) := by
  have hr2 : ({ FM with features := FM.features ++ [(NewFeature.name, mem.nodes.length)] } :
      FeatureModel).getRoot = none := hroot
  simp [AddFeatureToModel.call, FeatureModelModification.addFeature,
    FeatureModel.addFeature, hfresh, bind, Except.bind, pure, Except.pure, hr2]

theorem FeatureTreeNode_mem_addEdge (n : FeatureTreeNode) (c : Handle) :
    c ∈ (n.addEdge c).children := by
  unfold FeatureTreeNode.addEdge
  split
  · assumption
  · simp

/-- Claim C10.  For a new feature with a name that is not registered, given
with a parent that points to an object (or without one, the root pointer then
pointing to an object if it is set), `AddFeatureToModel` succeeds: the size
grows by exactly one, the name is found and leads to the inserted feature, which
is what the command returns; its parent is the given parent if there is one,
else the root of the model at that moment if there is one, else it has none;
the chosen parent has the new feature among its children; and every object
that was there before keeps its parent. -/
theorem C10_add_fresh_feature (mem : Memory) (FM : FeatureModel)
    (NewFeature : FeatureTreeNode) (Parent : Option Handle)
    (hfresh : FM.getFeature NewFeature.name = none)
    (hnew : NewFeature.parent = none)
    (hparent : ∀ p, Parent = some p → p < mem.nodes.length)
    (hroot : Parent = none → ∀ r, FM.getRoot = some r → r < mem.nodes.length) :
    ∃ mem2 FM2 Inserted,
      AddFeatureToModel.call (some NewFeature) Parent mem FM = .ok (some Inserted, mem2, FM2) ∧
      FM2.size = FM.size + 1 ∧
      FM2.getFeature NewFeature.name = some Inserted ∧
      (∃ n, mem2.nodes[Inserted]? = some n ∧ n.name = NewFeature.name ∧
        n.kind = NewFeature.kind ∧ n.parent = (Parent <|> FM.getRoot)) ∧
      (∀ q, (Parent <|> FM.getRoot) = some q →
        ∃ qn, mem2.nodes[q]? = some qn ∧ Inserted ∈ qn.children) ∧
      (∀ (h : Handle) (n : FeatureTreeNode), mem.nodes[h]? = some n →
        ∃ n2, mem2.nodes[h]? = some n2 ∧ n2.parent = n.parent) := by
  cases hq : (Parent <|> FM.getRoot) with
  | some q =>
    have hlt : q < mem.nodes.length := by
      cases Parent with
      | some p => exact hparent q (by simpa using hq)
      | none => exact hroot rfl q (by simpa using hq)
    have hqn : mem.nodes[q]? = some mem.nodes[q] := by simp [hlt]
    refine ⟨_, _, _, AddFeatureToModel_call_fresh_linked mem FM NewFeature Parent q _
      hfresh hq hqn, ?_, ?_, ?_, ?_, ?_⟩
    · simp [FeatureModel.size]
    · exact FeatureModel_getFeature_append_fresh FM _ _ hfresh
    · refine ⟨NewFeature.setParent (some q), ?_, rfl, rfl, rfl⟩
      have hne : q ≠ mem.nodes.length := Nat.ne_of_lt hlt
      simp only []
      rw [List.getElem?_set_ne hne]
      simp
    · intro q2 hq2
      cases hq2
      refine ⟨mem.nodes[q].addEdge mem.nodes.length, ?_, FeatureTreeNode_mem_addEdge _ _⟩
      have hlt2 : q < (mem.nodes ++ [NewFeature.setParent (some q)]).length := by
        simp only [List.length_append, List.length_singleton]
        exact Nat.lt_succ_of_lt hlt
      simp only []
      rw [List.getElem?_set_self hlt2]
    · intro h n hn
      have hh : h < mem.nodes.length := lt_of_getElem?_eq_some hn
      by_cases hhq : h = q
      · subst hhq
        refine ⟨mem.nodes[h].addEdge mem.nodes.length, ?_, ?_⟩
        · have hlt2 : h < (mem.nodes ++ [NewFeature.setParent (some h)]).length := by
            simp only [List.length_append, List.length_singleton]
            exact Nat.lt_succ_of_lt hh
          simp only []
          rw [List.getElem?_set_self hlt2]
        · rw [hqn] at hn
          cases hn
          unfold FeatureTreeNode.addEdge
          split <;> rfl
      · refine ⟨n, ?_, rfl⟩
        simp only []
        rw [List.getElem?_set_ne (Ne.symm hhq), List.getElem?_append_left hh, hn]
  | none =>
    have hP : Parent = none := by
      cases Parent with
      | some p => simp at hq
      | none => rfl
    subst hP
    have hr : FM.getRoot = none := by simpa using hq
    refine ⟨_, _, _, AddFeatureToModel_call_fresh_unlinked mem FM NewFeature hfresh hr,
      ?_, ?_, ?_, ?_, ?_⟩
    · simp [FeatureModel.size]
    · exact FeatureModel_getFeature_append_fresh FM _ _ hfresh
    · refine ⟨NewFeature, ?_, rfl, rfl, hnew⟩
      simp
    · intro q2 hq2
      cases hq2
    · intro h n hn
      have hh : h < mem.nodes.length := lt_of_getElem?_eq_some hn
      refine ⟨n, ?_, rfl⟩
      simp only []
      rw [List.getElem?_append_left hh, hn]

/-- Claim C10 on the model of the tests: the test `addFeatureToModel_simpleAdd`. -/
theorem C10_add_fresh_feature_witness :
    exampleModel.getFeature (BinaryFeature.make "new_feature").name = none ∧
    ∃ mem2 FM2 Inserted,
      AddFeatureToModel.call (some (BinaryFeature.make "new_feature"))
        (exampleModel.getFeature "a") exampleMemory exampleModel
          = .ok (some Inserted, mem2, FM2) ∧
      FM2.size = exampleModel.size + 1 ∧
      FM2.getFeature (BinaryFeature.make "new_feature").name = some Inserted ∧
      (∃ n, mem2.nodes[Inserted]? = some n ∧ n.name = (BinaryFeature.make "new_feature").name ∧
        n.kind = (BinaryFeature.make "new_feature").kind ∧
        n.parent = (exampleModel.getFeature "a" <|> exampleModel.getRoot)) ∧
      (∀ q, (exampleModel.getFeature "a" <|> exampleModel.getRoot) = some q →
        ∃ qn, mem2.nodes[q]? = some qn ∧ Inserted ∈ qn.children) ∧
      (∀ (h : Handle) (n : FeatureTreeNode), exampleMemory.nodes[h]? = some n →
        ∃ n2, mem2.nodes[h]? = some n2 ∧ n2.parent = n.parent) :=
  ⟨by decide, C10_add_fresh_feature exampleMemory exampleModel
    (BinaryFeature.make "new_feature") (exampleModel.getFeature "a") (by decide) rfl
    (by decide) (by decide)⟩

/-- Claim C7.  When the pending commands of an open modify-mode transaction run
to the arena `m` and model `f`, commit returns whether `f` satisfies the
consistency predicate, and the live model is `f` in either case: nothing is
restored when the check fails.  The transaction is finalized exactly when the
check succeeds; after a failed commit it still reports itself as
uncommitted. -/
theorem C7_modify_commit_no_rollback (ord : SortOrder) (S : ModifySession)
    (m : Memory) (f : FeatureModel) (hopen : S.T.isUncommited = true)
    (hexec : execAll ord S.T.Modifications S.mem S.live = .ok (m, f)) :
    ∃ S2, S.commit ord = .ok (isFeatureModelValid m f, S2) ∧
      S2.mem = m ∧ S2.live = f ∧
      S2.T.isUncommited = !isFeatureModelValid m f := by
  rw [ModifySession_commit_open ord S hopen, hexec]
  exact ⟨_, rfl, rfl, rfl, rfl⟩

/-- Claim C7 on the model of the tests: adding a second root feature makes the
commit fail, and the live model keeps the three features. -/
theorem C7_modify_commit_no_rollback_witness :
    ∃ m f,
      execAll registryOrder [.AddFeatureToModel (some (RootFeature.make "r2")) none]
        exampleMemory exampleModel = .ok (m, f) ∧
      isFeatureModelValid m f = false ∧ f.size = 3 ∧
      ∃ S2, ModifySession.commit registryOrder
          { mem := exampleMemory, live := exampleModel,
            T := { FM := true,
                   Modifications := [.AddFeatureToModel (some (RootFeature.make "r2")) none] } }
          = .ok (isFeatureModelValid m f, S2) ∧
        S2.mem = m ∧ S2.live = f ∧ S2.T.isUncommited = !isFeatureModelValid m f :=
  ⟨_, _, rfl, by decide, by decide,
    C7_modify_commit_no_rollback registryOrder
      { mem := exampleMemory, live := exampleModel,
        T := { FM := true,
               Modifications := [.AddFeatureToModel (some (RootFeature.make "r2")) none] } }
      _ _ rfl rfl⟩

/-- Claim C8 fails as stated.  On the model of the tests, a copy-mode
transaction that has been committed accepts `addFeature`: the call returns
normally and leaves everything as it is.  A modify-mode transaction that has
been committed accepts `addRelationship`: the call returns normally and records
the command. -/
theorem C8_use_after_close_returns_normally :
    ((CopySession.openTransaction exampleMemory exampleModel).bind (fun S =>
        ((S.commit.2.call registryOrder
          (.addFeature (some (BinaryFeature.make "b")) none)).map (fun S3 =>
            (S.commit.1.isSome, S.commit.2.T.isUncommited, decide (S3 = S.commit.2)))))
      = .ok (true, false, true)) ∧
    ((ModifySession.openTransaction exampleMemory exampleModel).bind (fun S =>
        (S.commit registryOrder).bind (fun r =>
          (r.2.call (.addRelationship .RK_OR (.name "root") (.names ["a"]))).map (fun S3 =>
            (r.1, r.2.T.isUncommited, S3.T.Modifications))))
      = .ok (true, false,
          [.AddRelationshipToModel .RK_OR (.name "root") (.names ["a"])])) := by
  constructor <;> rfl

/-- Claim C8, amended.  On a modify-mode transaction that is finalized,
`addFeature`, `setName`, `setCommit`, `setPath`, `setRoot`, `addChild` and
`commit` hit the assertion.  On a copy-mode transaction that is finalized,
`setName`, `setCommit` and `setPath` hit the assertion, while `addFeature`,
`addRelationship`, `addConstraint`, `setRoot` and `commit` return null and leave
the arena and the transaction as they are. -/
theorem C8_closed_transaction_calls (ord : SortOrder) (mem : Memory) (live : FeatureModel)
    (T : FeatureModelModifyTransactionBase) (C : FeatureModelCopyTransactionBase)
    (hT : T.isUncommited = false) (hC : C.isUncommited = false) :
    ((∀ NewFeature Parent, T.addFeatureImpl NewFeature Parent = .error .assertion) ∧
      (∀ Name, T.setNameImpl Name = .error .assertion) ∧
      (∀ Commit, T.setCommitImpl Commit = .error .assertion) ∧
      (∀ Path, T.setPathImpl Path = .error .assertion) ∧
      (∀ Root, T.setRootImpl Root = .error .assertion) ∧
      (∀ Parent Child, T.addChildImpl Parent Child = .error .assertion) ∧
      T.commitImpl ord mem live = .error .assertion) ∧
    ((∀ Name, C.setNameImpl Name = .error .assertion) ∧
      (∀ Commit, C.setCommitImpl Commit = .error .assertion) ∧
      (∀ Path, C.setPathImpl Path = .error .assertion) ∧
      (∀ NewFeature Parent, C.addFeatureImpl mem NewFeature Parent = .ok (none, mem, C)) ∧
      (∀ Kind Parent Children,
        C.addRelationshipImpl mem Kind Parent Children = .ok (none, mem, C)) ∧
      (∀ NewConstraint, C.addConstraintImpl mem NewConstraint = .ok (none, mem, C)) ∧
      (∀ Root, C.setRootImpl ord mem Root = .ok (none, mem, C)) ∧
      C.commitImpl mem = (none, C)) := by
  have hT2 : T.FM = false := hT
  have hC2 : C.FM = none := by
    cases h : C.FM with
    | none => rfl
    | some x => simp [FeatureModelCopyTransactionBase.isUncommited, h] at hC
  refine ⟨⟨?_, ?_, ?_, ?_, ?_, ?_, ?_⟩, ⟨?_, ?_, ?_, ?_, ?_, ?_, ?_, ?_⟩⟩ <;>
    simp [FeatureModelModifyTransactionBase.addFeatureImpl,
      FeatureModelModifyTransactionBase.setNameImpl,
      FeatureModelModifyTransactionBase.setCommitImpl,
      FeatureModelModifyTransactionBase.setPathImpl,
      FeatureModelModifyTransactionBase.setRootImpl,
      FeatureModelModifyTransactionBase.addChildImpl,
      FeatureModelModifyTransactionBase.commitImpl,
      FeatureModelCopyTransactionBase.setNameImpl,
      FeatureModelCopyTransactionBase.setCommitImpl,
      FeatureModelCopyTransactionBase.setPathImpl,
      FeatureModelCopyTransactionBase.addFeatureImpl,
      FeatureModelCopyTransactionBase.addRelationshipImpl,
      FeatureModelCopyTransactionBase.addConstraintImpl,
      FeatureModelCopyTransactionBase.setRootImpl,
      FeatureModelCopyTransactionBase.commitImpl, hT2, hC2]

/-- Claim C8, amended, on two finalized transactions. -/
theorem C8_closed_transaction_calls_witness :
    closedModifyTransaction.isUncommited = false ∧
    closedCopyTransaction.isUncommited = false ∧
    closedModifyTransaction.commitImpl registryOrder exampleMemory exampleModel
      = .error .assertion ∧
    closedCopyTransaction.commitImpl exampleMemory = (none, closedCopyTransaction) :=
  ⟨rfl, rfl,
    (C8_closed_transaction_calls registryOrder exampleMemory exampleModel
      closedModifyTransaction closedCopyTransaction rfl rfl).1.2.2.2.2.2.2,
    (C8_closed_transaction_calls registryOrder exampleMemory exampleModel
      closedModifyTransaction closedCopyTransaction rfl rfl).2.2.2.2.2.2.2.2⟩

/-! ## Valid mutations keep the model consistent -/

theorem View_ext {v w : View} (h1 : v.len = w.len) (h2 : ∀ x, v.par x = w.par x)
    (h3 : ∀ y x, v.ch y x ↔ w.ch y x) (h4 : ∀ x, v.kind x = w.kind x)
    (h5 : ∀ x, v.name x = w.name x) : v = w := by
  cases v with
  | mk l1 p1 c1 k1 n1 =>
    cases w with
    | mk l2 p2 c2 k2 n2 =>
      simp only [] at h1 h2 h3 h4 h5
      have e2 : p1 = p2 := funext h2
      have e3 : c1 = c2 := funext (fun y => funext (fun x => propext (h3 y x)))
      have e4 : k1 = k2 := funext h4
      have e5 : n1 = n2 := funext h5
      subst h1 e2 e3 e4 e5
      rfl

theorem getElem?_of_lt {α : Type} (l : List α) {i : Nat} (h : i < l.length) :
    ∃ a, l[i]? = some a := ⟨l[i], by simp [h]⟩

theorem Memory_view_bounded (mem : Memory) : mem.view.bounded := by
  intro x hx
  have hnone : mem.nodes[x]? = none := List.getElem?_eq_none hx
  refine ⟨?_, ?_, ?_, ?_⟩
  · simp [Memory.view, hnone]
  · simp [Memory.view, hnone]
  · simp [Memory.view, hnone]
  · intro z hz
    obtain ⟨n, hn, -⟩ := hz
    rw [hnone] at hn
    cases hn

/-- The view after the object at `h` has been replaced. -/
theorem Memory_view_set (mem : Memory) (h : Nat) (n2 : FeatureTreeNode)
    (hh : h < mem.nodes.length) :
    ({ mem with nodes := mem.nodes.set h n2 } : Memory).view =
      { len := mem.view.len
        par := fun x => if x = h then n2.parent else mem.view.par x
        ch := fun y x => if y = h then x ∈ n2.children else mem.view.ch y x
        kind := fun x => if x = h then some n2.kind else mem.view.kind x
        name := fun x => if x = h then some n2.name else mem.view.name x } := by
  apply View_ext
  · simp [Memory.view]
  · intro x
    by_cases hx : x = h
    · subst hx; simp [Memory.view, hh]
    · have hx2 : h ≠ x := fun e => hx e.symm
      simp [Memory.view, hx, List.getElem?_set_ne hx2]
  · intro y x
    by_cases hy : y = h
    · subst hy; simp [Memory.view, hh]
    · have hy2 : h ≠ y := fun e => hy e.symm
      simp [Memory.view, hy, List.getElem?_set_ne hy2]
  · intro x
    by_cases hx : x = h
    · subst hx; simp [Memory.view, hh]
    · have hx2 : h ≠ x := fun e => hx e.symm
      simp [Memory.view, hx, List.getElem?_set_ne hx2]
  · intro x
    by_cases hx : x = h
    · subst hx; simp [Memory.view, hh]
    · have hx2 : h ≠ x := fun e => hx e.symm
      simp [Memory.view, hx, List.getElem?_set_ne hx2]

theorem setParent_view (mem : Memory) (F P : Nat) (hF : F < mem.nodes.length) :
    ∃ mem2, FeatureModelModification.setParent mem F P = .ok mem2 ∧
      mem2.view = mem.view.setParent F P := by
  obtain ⟨n, hn⟩ := getElem?_of_lt mem.nodes hF
  refine ⟨{ mem with nodes := mem.nodes.set F (n.setParent (some P)) },
    by simp [FeatureModelModification.setParent, Memory.modifyNode, hn], ?_⟩
  rw [Memory_view_set mem F _ hF]
  apply View_ext
  · rfl
  · intro x; rfl
  · intro y x
    by_cases hy : y = F
    · subst hy; simp [Memory.view, hn, View.setParent, FeatureTreeNode.setParent]
    · simp [hy, View.setParent]
  · intro x
    by_cases hx : x = F
    · subst hx; simp [Memory.view, hn, View.setParent, FeatureTreeNode.setParent]
    · simp [hx, View.setParent]
  · intro x
    by_cases hx : x = F
    · subst hx; simp [Memory.view, hn, View.setParent, FeatureTreeNode.setParent]
    · simp [hx, View.setParent]

theorem addEdge_view (mem : Memory) (F C : Nat) (hF : F < mem.nodes.length) :
    ∃ mem2, FeatureModelModification.addEdge mem F C = .ok mem2 ∧
      mem2.view = mem.view.addEdge F C := by
  obtain ⟨n, hn⟩ := getElem?_of_lt mem.nodes hF
  refine ⟨{ mem with nodes := mem.nodes.set F (n.addEdge C) },
    by simp [FeatureModelModification.addEdge, Memory.modifyNode, hn], ?_⟩
  rw [Memory_view_set mem F _ hF]
  have hk : (n.addEdge C).kind = n.kind := by unfold FeatureTreeNode.addEdge; split <;> rfl
  have hnm : (n.addEdge C).name = n.name := by unfold FeatureTreeNode.addEdge; split <;> rfl
  have hp : (n.addEdge C).parent = n.parent := by unfold FeatureTreeNode.addEdge; split <;> rfl
  have hc : ∀ x, x ∈ (n.addEdge C).children ↔ x ∈ n.children ∨ x = C := by
    intro x
    unfold FeatureTreeNode.addEdge
    split
    · constructor
      · exact Or.inl
      · rintro (h | h)
        · exact h
        · subst h; assumption
    · simp
  apply View_ext
  · rfl
  · intro x
    by_cases hx : x = F
    · subst hx; simp [Memory.view, hn, View.addEdge, hp]
    · simp [hx, View.addEdge]
  · intro y x
    by_cases hy : y = F
    · subst hy; simp [Memory.view, hn, View.addEdge, hc]
    · simp [hy, View.addEdge]
  · intro x
    by_cases hx : x = F
    · subst hx; simp [Memory.view, hn, View.addEdge, hk]
    · simp [hx, View.addEdge]
  · intro x
    by_cases hx : x = F
    · subst hx; simp [Memory.view, hn, View.addEdge, hnm]
    · simp [hx, View.addEdge]

theorem removeEdge_view (mem : Memory) (F C : Nat) (hF : F < mem.nodes.length) :
    ∃ mem2, FeatureModelModification.removeEdge mem F C = .ok mem2 ∧
      mem2.view = mem.view.removeEdge F C := by
  obtain ⟨n, hn⟩ := getElem?_of_lt mem.nodes hF
  refine ⟨{ mem with nodes := mem.nodes.set F (n.removeEdge C) },
    by simp [FeatureModelModification.removeEdge, Memory.modifyNode, hn], ?_⟩
  rw [Memory_view_set mem F _ hF]
  apply View_ext
  · rfl
  · intro x
    by_cases hx : x = F
    · subst hx; simp [Memory.view, hn, View.removeEdge, FeatureTreeNode.removeEdge]
    · simp [hx, View.removeEdge]
  · intro y x
    by_cases hy : y = F
    · subst hy; simp [Memory.view, hn, View.removeEdge, FeatureTreeNode.removeEdge]
    · simp [hy, View.removeEdge]
  · intro x
    by_cases hx : x = F
    · subst hx; simp [Memory.view, hn, View.removeEdge, FeatureTreeNode.removeEdge]
    · simp [hx, View.removeEdge]
  · intro x
    by_cases hx : x = F
    · subst hx; simp [Memory.view, hn, View.removeEdge, FeatureTreeNode.removeEdge]
    · simp [hx, View.removeEdge]

theorem addConstraintToFeature_view (mem : Memory) (F C : Nat) (hF : F < mem.nodes.length) :
    ∃ mem2, FeatureModelModification.addConstraintToFeature mem F C = .ok mem2 ∧
      mem2.view = mem.view := by
  obtain ⟨n, hn⟩ := getElem?_of_lt mem.nodes hF
  refine ⟨{ mem with nodes := mem.nodes.set F (n.addConstraint C) },
    by simp [FeatureModelModification.addConstraintToFeature, Memory.modifyNode, hn], ?_⟩
  rw [Memory_view_set mem F _ hF]
  have hk : (n.addConstraint C).kind = n.kind := by
    unfold FeatureTreeNode.addConstraint; split <;> rfl
  have hnm : (n.addConstraint C).name = n.name := by
    unfold FeatureTreeNode.addConstraint; split <;> rfl
  have hp : (n.addConstraint C).parent = n.parent := by
    unfold FeatureTreeNode.addConstraint; split <;> rfl
  have hc : (n.addConstraint C).children = n.children := by
    unfold FeatureTreeNode.addConstraint; split <;> rfl
  apply View_ext
  · rfl
  · intro x
    by_cases hx : x = F
    · subst hx; simp [Memory.view, hn, hp]
    · simp [hx]
  · intro y x
    by_cases hy : y = F
    · subst hy; simp [Memory.view, hn, hc]
    · simp [hy]
  · intro x
    by_cases hx : x = F
    · subst hx; simp [Memory.view, hn, hk]
    · simp [hx]
  · intro x
    by_cases hx : x = F
    · subst hx; simp [Memory.view, hn, hnm]
    · simp [hx]

theorem Memory_view_append (mem : Memory) (n : FeatureTreeNode) :
    ({ mem with nodes := mem.nodes ++ [n] } : Memory).view = mem.view.alloc n := by
  have hget : ∀ x, (mem.nodes ++ [n])[x]? =
      if x = mem.nodes.length then some n else mem.nodes[x]? := by
    intro x
    by_cases hx : x = mem.nodes.length
    · subst hx; simp
    · rcases Nat.lt_or_ge x mem.nodes.length with h | h
      · simp [hx, List.getElem?_append_left h]
      · have h2 : mem.nodes.length + 1 ≤ x := by omega
        rw [List.getElem?_eq_none (by simpa using h2), if_neg hx, List.getElem?_eq_none h]
  apply View_ext
  · simp [Memory.view, View.alloc]
  · intro x
    simp only [Memory.view, View.alloc, hget]
    split <;> simp
  · intro y x
    simp only [Memory.view, View.alloc, hget]
    by_cases hy : y = mem.nodes.length
    · subst hy
      have : mem.nodes[mem.nodes.length]? = none := List.getElem?_eq_none (Nat.le_refl _)
      simp [this]
    · simp [hy]
  · intro x
    simp only [Memory.view, View.alloc, hget]
    split <;> simp
  · intro x
    simp only [Memory.view, View.alloc, hget]
    split <;> simp

theorem Memory_view_constraints (mem : Memory) (cs : List Constraint) :
    ({ mem with constraints := cs } : Memory).view = mem.view := rfl

theorem ExactlyOneRootNode_iff (mem : Memory) (FM : FeatureModel) :
    ExactlyOneRootNode mem FM = true ↔
      FM.features.countP (fun e => decide (mem.view.kind e.2 = some NodeKind.NK_ROOT)) = 1 := by
  unfold ExactlyOneRootNode
  rw [List.countP_eq_length_filter]
  have hcongr : ∀ (p q : String × Handle → Bool), (∀ e, p e = q e) →
      (((FM.features.filter p).length == 1) = true ↔ (FM.features.filter q).length = 1) := by
    intro p q hpq
    have hpq2 : p = q := funext hpq
    subst hpq2
    simp
  apply hcongr
  intro e
  cases h : mem.nodes[e.2]? with
  | none => simp [Memory.view, h]
  | some n =>
    simp only [Memory.view, h, Option.map_some', Option.some.injEq]
    cases hk : decide (n.kind = NodeKind.NK_ROOT) <;> simp_all

theorem EveryFeatureRequiresParent_iff (mem : Memory) (FM : FeatureModel) :
    EveryFeatureRequiresParent mem FM = true ↔
      ∀ x ∈ FM.treeNodes, x < mem.view.len ∧
        (mem.view.kind x = some NodeKind.NK_ROOT ∨ (mem.view.par x).isSome = true) := by
  unfold EveryFeatureRequiresParent
  rw [List.all_eq_true]
  constructor
  · intro h x hx
    have hx2 := h x hx
    cases hn : mem.nodes[x]? with
    | none => rw [hn] at hx2; simp at hx2
    | some n =>
      rw [hn] at hx2
      refine ⟨lt_of_getElem?_eq_some hn, ?_⟩
      simpa [Memory.view, hn] using hx2
  · intro h x hx
    obtain ⟨hlt, hk⟩ := h x hx
    obtain ⟨n, hn⟩ := getElem?_of_lt mem.nodes hlt
    rw [hn]
    simpa [Memory.view, hn] using hk

theorem CheckFeatureParentChildRelationShip_iff (mem : Memory) (FM : FeatureModel) :
    CheckFeatureParentChildRelationShip mem FM = true ↔
      ∀ x ∈ FM.treeNodes, x < mem.view.len ∧
        (∀ y, mem.view.par x = some y → mem.view.ch y x) ∧
        (∀ z, mem.view.ch x z → mem.view.par z = some x) := by
  unfold CheckFeatureParentChildRelationShip
  rw [List.all_eq_true]
  constructor
  · intro h x hx
    have hx2 := h x hx
    cases hn : mem.nodes[x]? with
    | none => rw [hn] at hx2; simp at hx2
    | some n =>
      rw [hn] at hx2
      simp only [Bool.and_eq_true, List.all_eq_true] at hx2
      obtain ⟨h1, h2⟩ := hx2
      refine ⟨lt_of_getElem?_eq_some hn, ?_, ?_⟩
      · intro y hy
        have hp : n.parent = some y := by simpa [Memory.view, hn] using hy
        rw [hp] at h1
        simp only [] at h1
        cases hpn : mem.nodes[y]? with
        | none => rw [hpn] at h1; simp at h1
        | some pn =>
          rw [hpn] at h1
          exact ⟨pn, hpn, by simpa using h1⟩
      · intro z hz
        obtain ⟨n2, hn2, hz2⟩ := hz
        rw [hn] at hn2
        cases hn2
        have h3 := h2 z hz2
        cases hzn : mem.nodes[z]? with
        | none => rw [hzn] at h3; simp at h3
        | some zn =>
          rw [hzn] at h3
          simpa [Memory.view, hzn] using h3
  · intro h x hx
    obtain ⟨hlt, h1, h2⟩ := h x hx
    obtain ⟨n, hn⟩ := getElem?_of_lt mem.nodes hlt
    rw [hn]
    simp only [Bool.and_eq_true, List.all_eq_true]
    constructor
    · cases hp : n.parent with
      | none => rfl
      | some y =>
        have hy : mem.view.par x = some y := by simp [Memory.view, hn, hp]
        obtain ⟨pn, hpn, hmem⟩ := h1 y hy
        simp only []
        rw [hpn]
        simpa using hmem
    · intro z hz
      have h3 := h2 z ⟨n, hn, hz⟩
      cases hzn : mem.nodes[z]? with
      | none => simp [Memory.view, hzn] at h3
      | some zn => simpa [Memory.view, hzn] using h3

theorem wellFormed_iff (mem : Memory) (FM : FeatureModel) :
    FM.wellFormed mem = true ↔
      (∀ e ∈ FM.features, mem.view.name e.2 = some e.1) ∧
      (∃ r, FM.root = some r ∧ r ∈ FM.features.map Prod.snd ∧
        mem.view.kind r = some NodeKind.NK_ROOT) := by
  unfold FeatureModel.wellFormed
  rw [Bool.and_eq_true, List.all_eq_true]
  constructor
  · rintro ⟨h1, h2⟩
    constructor
    · intro e he
      have := h1 e he
      cases hn : mem.nodes[e.2]? with
      | none => rw [hn] at this; simp at this
      | some n => rw [hn] at this; simpa [Memory.view, hn] using this
    · cases hr : FM.root with
      | none => rw [hr] at h2; simp at h2
      | some r =>
        rw [hr] at h2
        simp only [Bool.and_eq_true, List.any_eq_true] at h2
        obtain ⟨⟨e, he, her⟩, h3⟩ := h2
        refine ⟨r, rfl, ?_, ?_⟩
        · simp only [List.mem_map]
          exact ⟨e, he, by simpa using her⟩
        · cases hn : mem.nodes[r]? with
          | none => rw [hn] at h3; simp at h3
          | some n => rw [hn] at h3; simpa [Memory.view, hn] using h3
  · rintro ⟨h1, r, hr, hmem, hk⟩
    constructor
    · intro e he
      have := h1 e he
      cases hn : mem.nodes[e.2]? with
      | none => simp [Memory.view, hn] at this
      | some n => simpa [Memory.view, hn] using this
    · rw [hr]
      simp only [Bool.and_eq_true, List.any_eq_true]
      simp only [List.mem_map] at hmem
      obtain ⟨e, he, her⟩ := hmem
      refine ⟨⟨e, he, by simpa using her⟩, ?_⟩
      cases hn : mem.nodes[r]? with
      | none => simp [Memory.view, hn] at hk
      | some n => simpa [Memory.view, hn] using hk

theorem good_of_valid {mem : Memory} {FM : FeatureModel}
    (hv : isFeatureModelValid mem FM = true) (hw : FM.wellFormed mem = true) :
    mem.view.good FM := by
  simp only [isFeatureModelValid, Bool.and_eq_true] at hv
  obtain ⟨⟨h1, h2⟩, h3⟩ := hv
  have h3b := (CheckFeatureParentChildRelationShip_iff mem FM).mp h3
  obtain ⟨hn, hr⟩ := (wellFormed_iff mem FM).mp hw
  exact ⟨⟨Memory_view_bounded mem, (EveryFeatureRequiresParent_iff mem FM).mp h2,
    fun x hx => (h3b x hx).2⟩, (ExactlyOneRootNode_iff mem FM).mp h1, hn, hr⟩

theorem valid_of_good {mem : Memory} {FM : FeatureModel} (hg : mem.view.good FM) :
    isFeatureModelValid mem FM = true ∧ FM.wellFormed mem = true := by
  refine ⟨?_, (wellFormed_iff mem FM).mpr ⟨hg.names, hg.root⟩⟩
  simp only [isFeatureModelValid, Bool.and_eq_true]
  refine ⟨⟨(ExactlyOneRootNode_iff mem FM).mpr hg.oneRoot,
    (EveryFeatureRequiresParent_iff mem FM).mpr hg.tree.parented⟩,
    (CheckFeatureParentChildRelationShip_iff mem FM).mpr ?_⟩
  intro x hx
  exact ⟨(hg.tree.parented x hx).1, hg.tree.linked x hx⟩

/-- The view after a child has been taken from one node and put under
another: `removeEdge(Q, C); addEdge(P, C); setParent(C, P)`. -/
theorem tree_reparent {v : View} {X : List Nat} {C Q P : Nat}
    (ht : v.tree X) (hC : C < v.len) (hP : P < v.len) (hQ : v.par C = some Q) :
    (((v.removeEdge Q C).addEdge P C).setParent C P).tree X := by
  obtain ⟨hb, hpar, hl⟩ := ht
  refine ⟨?_, ?_, ?_⟩
  · intro x hx
    have hx0 : v.len ≤ x := hx
    obtain ⟨h1, h2, h3, h4⟩ := hb x hx0
    have hxC : x ≠ C := by omega
    have hxP : x ≠ P := by omega
    refine ⟨?_, h2, h3, ?_⟩
    · simp [View.setParent, View.addEdge, View.removeEdge, hxC, h1]
    · intro z hz
      simp only [View.setParent, View.addEdge, View.removeEdge] at hz
      rcases hz with hz | hz
      · exact h4 z hz.1
      · exact hxP hz.1
  · intro x hx
    obtain ⟨h1, h2⟩ := hpar x hx
    refine ⟨h1, ?_⟩
    rcases h2 with h2 | h2
    · exact Or.inl h2
    · right
      simp only [View.setParent, View.addEdge, View.removeEdge]
      split
      · rfl
      · exact h2
  · intro x hx
    obtain ⟨h1, h2⟩ := hl x hx
    constructor
    · intro y hy
      simp only [View.setParent, View.addEdge, View.removeEdge] at hy ⊢
      by_cases hxC : x = C
      · subst hxC
        simp only [if_true, Option.some.injEq] at hy
        subst hy
        exact Or.inr ⟨rfl, rfl⟩
      · rw [if_neg hxC] at hy
        exact Or.inl ⟨h1 y hy, fun h => hxC h.2⟩
    · intro z hz
      simp only [View.setParent, View.addEdge, View.removeEdge] at hz ⊢
      rcases hz with ⟨hz1, hz2⟩ | ⟨hz1, hz2⟩
      · have hpz := h2 z hz1
        by_cases hzC : z = C
        · subst hzC
          rw [hQ] at hpz
          simp only [Option.some.injEq] at hpz
          exact absurd ⟨hpz.symm, rfl⟩ hz2
        · rw [if_neg hzC]
          exact hpz
      · subst hz1 hz2
        simp

/-- The same view, with the parent pointer written first (the order of the loop
of `SetRoot`). -/
theorem reparent_order (v : View) (C Q P : Nat) :
    ((v.setParent C P).removeEdge Q C).addEdge P C =
      ((v.removeEdge Q C).addEdge P C).setParent C P := rfl

/-- Moving a child that has been moved already changes nothing. -/
theorem reparent_again {v : View} {C Q P : Nat}
    (hpar : v.par C = some P) (hch : v.ch P C) (hno : ¬ v.ch Q C) :
    ((v.removeEdge Q C).addEdge P C).setParent C P = v := by
  apply View_ext
  · rfl
  · intro x
    simp only [View.setParent, View.addEdge, View.removeEdge]
    split
    · next h => subst h; exact hpar.symm
    · rfl
  · intro y x
    simp only [View.setParent, View.addEdge, View.removeEdge]
    constructor
    · rintro (⟨h1, -⟩ | ⟨h1, h2⟩)
      · exact h1
      · subst h1 h2; exact hch
    · intro h
      left
      refine ⟨h, ?_⟩
      rintro ⟨h1, h2⟩
      subst h1 h2
      exact hno h
  · intro x; rfl
  · intro x; rfl

/-- A new unlinked object put under the node `P`:
`setParent(L, P); addEdge(P, L)` at the next free address `L`. -/
theorem tree_alloc_link {v : View} {X Y : List Nat} {n : FeatureTreeNode} {P : Nat}
    (ht : v.tree X) (hP : P < v.len) (hn : n.parent = none ∧ n.children = [])
    (hY : ∀ x ∈ Y, x ∈ X ∨ x = v.len) :
    (((v.alloc n).setParent v.len P).addEdge P v.len).tree Y := by
  obtain ⟨hb, hpar, hl⟩ := ht
  obtain ⟨hn1, hn2⟩ := hn
  refine ⟨?_, ?_, ?_⟩
  · intro x hx
    have hx0 : v.len + 1 ≤ x := hx
    obtain ⟨h1, h2, h3, h4⟩ := hb x (by omega)
    have hxL : x ≠ v.len := by omega
    have hxP : x ≠ P := by omega
    refine ⟨?_, ?_, ?_, ?_⟩
    · simp [View.setParent, View.addEdge, View.alloc, hxL, h1]
    · simp [View.setParent, View.addEdge, View.alloc, hxL, h2]
    · simp [View.setParent, View.addEdge, View.alloc, hxL, h3]
    · intro z hz
      simp only [View.setParent, View.addEdge, View.alloc] at hz
      rcases hz with (hz | hz) | hz
      · exact h4 z hz
      · exact hxL hz.1
      · exact hxP hz.1
  · intro x hx
    rcases hY x hx with hxX | hxL
    · obtain ⟨h1, h2⟩ := hpar x hxX
      have hne : x ≠ v.len := by omega
      refine ⟨by simp only [View.setParent, View.addEdge, View.alloc]; omega, ?_⟩
      simpa [View.setParent, View.addEdge, View.alloc, hne] using h2
    · subst hxL
      refine ⟨by simp [View.setParent, View.addEdge, View.alloc], Or.inr ?_⟩
      simp [View.setParent, View.addEdge, View.alloc]
  · intro x hx
    rcases hY x hx with hxX | hxL
    · obtain ⟨h1, h2⟩ := hl x hxX
      have hlt := (hpar x hxX).1
      have hne : x ≠ v.len := by omega
      constructor
      · intro y hy
        simp only [View.setParent, View.addEdge, View.alloc, if_neg hne] at hy ⊢
        exact Or.inl (Or.inl (h1 y hy))
      · intro z hz
        simp only [View.setParent, View.addEdge, View.alloc] at hz ⊢
        rcases hz with (hz | hz) | hz
        · have hpz := h2 z hz
          have hzlt : z ≠ v.len := by
            intro hzL
            have := (hb z (by omega)).1
            rw [this] at hpz
            cases hpz
          rw [if_neg hzlt, if_neg hzlt]
          exact hpz
        · exact absurd hz.1 hne
        · obtain ⟨rfl, rfl⟩ := hz
          simp
    · subst hxL
      constructor
      · intro y hy
        simp only [View.setParent, View.addEdge, View.alloc] at hy ⊢
        rw [if_pos trivial] at hy
        cases hy
        exact Or.inr ⟨rfl, trivial⟩
      · intro z hz
        simp only [View.setParent, View.addEdge, View.alloc] at hz
        rcases hz with (hz | hz) | hz
        · exact absurd hz ((hb v.len (Nat.le_refl _)).2.2.2 z)
        · rw [hn2] at hz
          simp at hz
        · omega

/-- A new unlinked root object that is not put under anything. -/
theorem tree_alloc_root {v : View} {X Y : List Nat} {n : FeatureTreeNode}
    (ht : v.tree X) (hk : n.kind = NodeKind.NK_ROOT)
    (hn : n.parent = none ∧ n.children = [])
    (hY : ∀ x ∈ Y, x ∈ X ∨ x = v.len) :
    (v.alloc n).tree Y := by
  obtain ⟨hb, hpar, hl⟩ := ht
  obtain ⟨hn1, hn2⟩ := hn
  refine ⟨?_, ?_, ?_⟩
  · intro x hx
    have hx0 : v.len + 1 ≤ x := hx
    obtain ⟨h1, h2, h3, h4⟩ := hb x (by omega)
    have hxL : x ≠ v.len := by omega
    refine ⟨?_, ?_, ?_, ?_⟩
    · simp [View.alloc, hxL, h1]
    · simp [View.alloc, hxL, h2]
    · simp [View.alloc, hxL, h3]
    · intro z hz
      simp only [View.alloc] at hz
      rcases hz with hz | hz
      · exact h4 z hz
      · exact hxL hz.1
  · intro x hx
    rcases hY x hx with hxX | hxL
    · obtain ⟨h1, h2⟩ := hpar x hxX
      have hne : x ≠ v.len := by omega
      refine ⟨by simp only [View.alloc]; omega, ?_⟩
      simpa [View.alloc, hne] using h2
    · subst hxL
      refine ⟨by simp [View.alloc], Or.inl ?_⟩
      simp [View.alloc, hk]
  · intro x hx
    rcases hY x hx with hxX | hxL
    · obtain ⟨h1, h2⟩ := hl x hxX
      have hlt := (hpar x hxX).1
      have hne : x ≠ v.len := by omega
      constructor
      · intro y hy
        simp only [View.alloc, if_neg hne] at hy ⊢
        exact Or.inl (h1 y hy)
      · intro z hz
        simp only [View.alloc] at hz ⊢
        rcases hz with hz | hz
        · have hpz := h2 z hz
          have hzlt : z ≠ v.len := by
            intro hzL
            have := (hb z (by omega)).1
            rw [this] at hpz
            cases hpz
          rw [if_neg hzlt]
          exact hpz
        · exact absurd hz.1 hne
    · subst hxL
      constructor
      · intro y hy
        simp [View.alloc, hn1] at hy
      · intro z hz
        simp only [View.alloc] at hz
        rcases hz with hz | hz
        · exact absurd hz ((hb v.len (Nat.le_refl _)).2.2.2 z)
        · rw [hn2] at hz
          simp at hz

theorem tree_subset {v : View} {X Y : List Nat} (ht : v.tree X) (hY : ∀ x ∈ Y, x ∈ X) :
    v.tree Y :=
  ⟨ht.bounded, fun x hx => ht.parented x (hY x hx), fun x hx => ht.linked x (hY x hx)⟩

theorem view_len_eq {mem2 : Memory} {w : View} (h : mem2.view = w) :
    mem2.nodes.length = w.len := by
  rw [← h]; rfl

/-- A view that agrees with a good one on kinds and names and satisfies the tree
rules is good for the same model. -/
theorem good_same_kind {v w : View} {FM : FeatureModel} (hg : v.good FM)
    (ht : w.tree FM.treeNodes) (hk : w.kind = v.kind) (hn : w.name = v.name) :
    w.good FM := by
  refine ⟨ht, ?_, ?_, ?_⟩
  · rw [hk]; exact hg.oneRoot
  · rw [hn]; exact hg.names
  · rw [hk]; exact hg.root

theorem isLive_iff {mem : Memory} {P : Option Handle} (h : mem.isLive P = true) :
    ∃ p : Nat, P = some p ∧ p < mem.nodes.length := by
  cases P with
  | none => simp [Memory.isLive] at h
  | some p => exact ⟨p, rfl, by simpa [Memory.isLive] using h⟩

theorem hasLiveParent_iff {mem : Memory} {C : Option Handle}
    (h : mem.hasLiveParent C = true) :
    ∃ c q : Nat, C = some c ∧ c < mem.view.len ∧ mem.view.par c = some q ∧ q < mem.view.len := by
  cases C with
  | none => simp [Memory.hasLiveParent] at h
  | some c =>
    cases hn : mem.nodes[c]? with
    | none => simp [Memory.hasLiveParent, hn] at h
    | some cn =>
      cases hp : cn.parent with
      | none => simp [Memory.hasLiveParent, hn, hp] at h
      | some q =>
        refine ⟨c, q, rfl, lt_of_getElem?_eq_some hn, ?_, ?_⟩
        · simp [Memory.view, hn, hp]
        · simpa [Memory.hasLiveParent, hn, hp] using h

/-- The three writes that move a child, as one step on views. -/
theorem reparent_steps (mem : Memory) (c q p : Nat) (hc : c < mem.view.len)
    (hq : q < mem.view.len) (hp : p < mem.view.len) :
    ∃ m1 m2 m3, FeatureModelModification.removeEdge mem q c = .ok m1 ∧
      FeatureModelModification.addEdge m1 p c = .ok m2 ∧
      FeatureModelModification.setParent m2 c p = .ok m3 ∧
      m3.view = ((mem.view.removeEdge q c).addEdge p c).setParent c p := by
  obtain ⟨m1, h1, v1⟩ := removeEdge_view mem q c hq
  have l1 : m1.nodes.length = mem.nodes.length := view_len_eq v1
  obtain ⟨m2, h2, v2⟩ := addEdge_view m1 p c (by rw [l1]; exact hp)
  have l2 : m2.nodes.length = mem.nodes.length := (view_len_eq v2).trans l1
  obtain ⟨m3, h3, v3⟩ := setParent_view m2 c p (by rw [l2]; exact hc)
  exact ⟨m1, m2, m3, h1, h2, h3, by rw [v3, v2, v1]⟩

theorem view_par_node {mem : Memory} {c q : Nat} (h : mem.view.par c = some q) :
    ∃ cn, mem.nodes[c]? = some cn ∧ cn.parent = some q := by
  simp only [Memory.view] at h
  cases hn : mem.nodes[c]? with
  | none => rw [hn] at h; simp at h
  | some cn => rw [hn] at h; exact ⟨cn, rfl, by simpa using h⟩

theorem AddChild_call_good (ord : SortOrder) (mem : Memory) (FM : FeatureModel)
    (Parent Child : FeatureTreeNodeVariant) (hg : mem.view.good FM)
    (hv : (Modification.AddChild Parent Child).validAt mem FM = true) :
    ∃ mem2 FM2, AddChild.call ord Parent Child mem FM = .ok (mem2, FM2) ∧
      mem2.view.good FM2 := by
  simp only [Modification.validAt, Bool.and_eq_true] at hv
  obtain ⟨hP, hC⟩ := hv
  obtain ⟨p, hp, hplt⟩ := isLive_iff hP
  obtain ⟨c, q, hc, hclt, hcq, hqlt⟩ := hasLiveParent_iff hC
  obtain ⟨cn, hcn, hcp⟩ := view_par_node hcq
  obtain ⟨m1, m2, m3, h1, h2, h3, v3⟩ := reparent_steps mem c q p hclt hqlt hplt
  refine ⟨m3, FM.sort ord m3, ?_, ?_⟩
  · simp [AddChild.call, hp, hc, deref, Memory.node, hcn, hcp, h1, h2, h3, bind, Except.bind,
      pure, Except.pure]
  · have ht : m3.view.tree FM.treeNodes := by
      rw [v3]
      exact tree_reparent hg.tree hclt hplt hcq
    have hgood : m3.view.good FM := good_same_kind hg ht (by rw [v3]; rfl) (by rw [v3]; rfl)
    exact ⟨hgood.tree, hgood.oneRoot, hgood.names, hgood.root⟩

theorem treeNodes_addFeature (FM : FeatureModel) (e : String × Handle) (x : Nat)
    (hx : x ∈ ({ FM with features := FM.features ++ [e] } : FeatureModel).treeNodes) :
    x ∈ FM.treeNodes ∨ x = e.2 := by
  simp only [FeatureModel.treeNodes, List.map_append, List.map_cons, List.map_nil,
    List.mem_append, List.mem_singleton] at hx ⊢
  rcases hx with (h | h) | h
  · exact Or.inl (Or.inl h)
  · exact Or.inr h
  · exact Or.inl (Or.inr h)

theorem treeNodes_addRelationship (FM : FeatureModel) (r : Handle) (x : Nat)
    (hx : x ∈ ({ FM with relationships := FM.relationships ++ [r] } : FeatureModel).treeNodes) :
    x ∈ FM.treeNodes ∨ x = r := by
  simp only [FeatureModel.treeNodes, List.mem_append, List.mem_singleton] at hx ⊢
  rcases hx with h | h | h
  · exact Or.inl (Or.inl h)
  · exact Or.inl (Or.inr h)
  · exact Or.inr h

theorem feature_mem_treeNodes {FM : FeatureModel} {e : String × Handle}
    (he : e ∈ FM.features) : e.2 ∈ FM.treeNodes := by
  simp only [FeatureModel.treeNodes, List.mem_append, List.mem_map]
  exact Or.inl ⟨e, he, rfl⟩

theorem good_feature_lt {v : View} {FM : FeatureModel} (hg : v.good FM)
    {e : String × Handle} (he : e ∈ FM.features) : e.2 < v.len :=
  (hg.tree.parented e.2 (feature_mem_treeNodes he)).1

theorem good_root_lt {v : View} {FM : FeatureModel} (hg : v.good FM) :
    ∃ r : Nat, FM.root = some r ∧ r < v.len ∧ v.kind r = some NodeKind.NK_ROOT := by
  obtain ⟨r, hr, hmem, hk⟩ := hg.root
  simp only [List.mem_map] at hmem
  obtain ⟨e, he, rfl⟩ := hmem
  exact ⟨e.2, hr, good_feature_lt hg he, hk⟩

/-- A view that agrees with a good one on the old objects stays good when a new
feature that is no root is registered under its name, provided the tree rules
hold. -/
theorem good_add_feature {v w : View} {FM : FeatureModel} {nm : String} {k : NodeKind}
    (hg : v.good FM)
    (ht : w.tree ({ FM with features := FM.features ++ [(nm, v.len)] } : FeatureModel).treeNodes)
    (hold : ∀ x, x < v.len → w.kind x = v.kind x ∧ w.name x = v.name x)
    (hk : w.kind v.len = some k) (hk2 : k ≠ NodeKind.NK_ROOT)
    (hn : w.name v.len = some nm) :
    w.good ({ FM with features := FM.features ++ [(nm, v.len)] } : FeatureModel) := by
  refine ⟨ht, ?_, ?_, ?_⟩
  · simp only [List.countP_append, List.countP_cons, List.countP_nil, hk]
    have hc : FM.features.countP (fun e => decide (w.kind e.2 = some NodeKind.NK_ROOT)) =
        FM.features.countP (fun e => decide (v.kind e.2 = some NodeKind.NK_ROOT)) := by
      apply List.countP_congr
      intro e he
      rw [(hold e.2 (good_feature_lt hg he)).1]
    rw [hc, hg.oneRoot]
    simp [hk2]
  · intro e he
    simp only [List.mem_append, List.mem_singleton] at he
    rcases he with he | he
    · rw [(hold e.2 (good_feature_lt hg he)).2]
      exact hg.names e he
    · subst he
      exact hn
  · obtain ⟨r, hr, hmem, hkr⟩ := hg.root
    refine ⟨r, hr, ?_, ?_⟩
    · simp only [List.map_append, List.mem_append]
      exact Or.inl hmem
    · simp only [List.mem_map] at hmem
      obtain ⟨e, he, rfl⟩ := hmem
      rw [(hold e.2 (good_feature_lt hg he)).1]
      exact hkr

/-- Storing a new object and putting it under `P`, as one step on views. -/
theorem link_steps (mem : Memory) (n : FeatureTreeNode) (P : Nat) (hP : P < mem.view.len) :
    ∃ m2 m3,
      FeatureModelModification.setParent { mem with nodes := mem.nodes ++ [n] }
        mem.nodes.length P = .ok m2 ∧
      FeatureModelModification.addEdge m2 P mem.nodes.length = .ok m3 ∧
      m3.view = ((mem.view.alloc n).setParent mem.view.len P).addEdge P mem.view.len := by
  have v1 := Memory_view_append mem n
  obtain ⟨m2, h2, v2⟩ := setParent_view { mem with nodes := mem.nodes ++ [n] }
    mem.nodes.length P (by simp)
  have l2 : m2.nodes.length = mem.nodes.length + 1 := by
    rw [view_len_eq v2, v1]; rfl
  have hP2 : P < mem.nodes.length := hP
  obtain ⟨m3, h3, v3⟩ := addEdge_view m2 P mem.nodes.length (by rw [l2]; omega)
  refine ⟨m2, m3, h2, h3, ?_⟩
  rw [v3, v2, v1]
  rfl

theorem AddFeatureToModel_call_good (mem : Memory) (FM : FeatureModel)
    (NewFeature : Option FeatureTreeNode) (Parent : Option Handle)
    (hg : mem.view.good FM)
    (hv : (Modification.AddFeatureToModel NewFeature Parent).validAt mem FM = true) :
    ∃ r mem2 FM2, AddFeatureToModel.call NewFeature Parent mem FM = .ok (r, mem2, FM2) ∧
      mem2.view.good FM2 := by
  cases NewFeature with
  | none => simp [Modification.validAt] at hv
  | some f =>
    simp only [Modification.validAt, Bool.and_eq_true, beq_iff_eq] at hv
    obtain ⟨⟨⟨hk, hpar⟩, hch⟩, hP⟩ := hv
    cases hgf : FM.getFeature f.name with
    | some x =>
      exact ⟨none, mem, FM, AddFeatureToModel_call_duplicate mem FM f Parent x hgf, hg⟩
    | none =>
      obtain ⟨r, hr, hrlt, -⟩ := good_root_lt hg
      -- the node the new feature goes under
      have hq : ∃ q : Nat, (Parent <|> FM.getRoot) = some q ∧ q < mem.view.len := by
        cases Parent with
        | some p => exact ⟨p, rfl, by simpa using hP⟩
        | none => exact ⟨r, hr, hrlt⟩
      obtain ⟨q, hq, hqlt⟩ := hq
      obtain ⟨m2, m3, h2, h3, v3⟩ := link_steps mem f q hqlt
      refine ⟨some mem.nodes.length, m3,
        { FM with features := FM.features ++ [(f.name, mem.nodes.length)] }, ?_, ?_⟩
      · cases Parent with
        | some p =>
          have hpq : p = q := by simpa using hq
          subst hpq
          simp [AddFeatureToModel.call, FeatureModelModification.addFeature,
            FeatureModel.addFeature, hgf, h2, h3, bind, Except.bind, pure, Except.pure]
        | none =>
          have hrq : FM.root = some q := hq
          simp [AddFeatureToModel.call, FeatureModelModification.addFeature,
            FeatureModel.addFeature, FeatureModel.getRoot, hrq, hgf, h2, h3, bind, Except.bind,
            pure, Except.pure]
      · have hlen : mem.nodes.length = mem.view.len := rfl
        rw [hlen]
        apply good_add_feature hg (k := f.kind)
        · rw [v3]
          exact tree_alloc_link hg.tree hqlt ⟨hpar, hch⟩
            (fun x hx => treeNodes_addFeature FM _ x hx)
        · intro x hx
          have hne : x ≠ mem.view.len := by omega
          rw [v3]
          simp [View.addEdge, View.setParent, View.alloc, hne]
        · rw [v3]; simp [View.addEdge, View.setParent, View.alloc]
        · rw [hk]; decide
        · rw [v3]; simp [View.addEdge, View.setParent, View.alloc]

/-- What a child pointer must be for a turn of the loops that move children:
an object with a parent that is an object. -/
theorem moveChild_good {mem : Memory} {X : List Nat} {Inserted : Nat} {C : Option Handle}
    (ht : mem.view.tree X) (hI : Inserted < mem.view.len)
    (hC : ∃ c q : Nat, C = some c ∧ c < mem.view.len ∧ mem.view.par c = some q ∧
      q < mem.view.len) :
    ∃ mem2, AddRelationshipToModel.moveChild mem Inserted C = .ok mem2 ∧
      mem2.view.tree X ∧ mem2.view.len = mem.view.len ∧ mem2.view.kind = mem.view.kind ∧
      mem2.view.name = mem.view.name ∧
      (∀ x, (mem.view.par x).isSome = true → (mem2.view.par x).isSome = true) ∧
      (∀ x q : Nat, mem2.view.par x = some q → q < mem.view.len ∨ mem.view.par x = some q) := by
  obtain ⟨c, q, hc, hclt, hcq, hqlt⟩ := hC
  obtain ⟨cn, hcn, hcp⟩ := view_par_node hcq
  obtain ⟨m1, m2, m3, h1, h2, h3, v3⟩ := reparent_steps mem c q Inserted hclt hqlt hI
  refine ⟨m3, ?_, ?_, ?_, ?_, ?_, ?_, ?_⟩
  · simp [AddRelationshipToModel.moveChild, hc, deref, Memory.node, hcn, hcp, h1, h2, h3, bind,
      Except.bind]
  · rw [v3]; exact tree_reparent ht hclt hI hcq
  · rw [v3]; rfl
  · rw [v3]; rfl
  · rw [v3]; rfl
  · intro x hx
    rw [v3]
    simp only [View.setParent, View.addEdge, View.removeEdge]
    split
    · rfl
    · exact hx
  · intro x y hy
    rw [v3] at hy
    simp only [View.setParent, View.addEdge, View.removeEdge] at hy
    split at hy
    · cases hy; exact Or.inl hI
    · exact Or.inr hy

theorem loopPtrs_good {X : List Nat} {Inserted : Nat} (s : List (Option Handle)) :
    ∀ {mem : Memory}, mem.view.tree X → Inserted < mem.view.len →
      (∀ C ∈ s, ∃ c q : Nat, C = some c ∧ c < mem.view.len ∧ mem.view.par c = some q ∧
        q < mem.view.len) →
      ∃ mem2, AddRelationshipToModel.loopPtrs Inserted mem s = .ok mem2 ∧
        mem2.view.tree X ∧ mem2.view.len = mem.view.len ∧ mem2.view.kind = mem.view.kind ∧
        mem2.view.name = mem.view.name := by
  induction s with
  | nil =>
    intro mem ht _ _
    exact ⟨mem, rfl, ht, rfl, rfl, rfl⟩
  | cons C rest ih =>
    intro mem ht hI hs
    obtain ⟨m1, h1, t1, l1, k1, n1, p1, p2⟩ := moveChild_good ht hI (hs C (by simp))
    have hrest : ∀ C2 ∈ rest, ∃ c q : Nat, C2 = some c ∧ c < m1.view.len ∧
        m1.view.par c = some q ∧ q < m1.view.len := by
      intro C2 hC2
      obtain ⟨c, q, hc, hclt, hcq, hqlt⟩ := hs C2 (by simp [hC2])
      have hsome := p1 c (by rw [hcq]; rfl)
      cases hq2 : m1.view.par c with
      | none => rw [hq2] at hsome; cases hsome
      | some q2 =>
        refine ⟨c, q2, hc, by rw [l1]; exact hclt, hq2, ?_⟩
        rw [l1]
        rcases p2 c q2 hq2 with h | h
        · exact h
        · rw [hcq] at h
          cases h
          exact hqlt
    obtain ⟨m2, h2, t2, l2, k2, n2⟩ := ih t1 (by rw [l1]; exact hI) hrest
    refine ⟨m2, ?_, t2, l2.trans l1, k2.trans k1, n2.trans n1⟩
    simp [AddRelationshipToModel.loopPtrs, h1, h2, bind, Except.bind]

theorem loopNames_eq_loopPtrs (FM : FeatureModel) (Inserted : Handle) (s : List String) :
    ∀ mem : Memory, AddRelationshipToModel.loopNames FM Inserted mem s =
      AddRelationshipToModel.loopPtrs Inserted mem
        (s.map (fun C => FeatureModelModification.resolveVariant FM (.name C))) := by
  induction s with
  | nil => intro mem; rfl
  | cons C rest ih =>
    intro mem
    simp only [AddRelationshipToModel.loopNames, AddRelationshipToModel.loopPtrs, List.map_cons,
      bind, Except.bind]
    cases AddRelationshipToModel.moveChild mem Inserted
      (FeatureModelModification.resolveVariant FM (.name C)) with
    | error e => rfl
    | ok m => exact ih m

/-- A view that agrees with a good one on the old objects stays good when a new
relationship node is listed, provided the tree rules hold. -/
theorem good_add_relationship {v w : View} {FM : FeatureModel}
    (hg : v.good FM)
    (ht : w.tree ({ FM with relationships := FM.relationships ++ [v.len] } :
      FeatureModel).treeNodes)
    (hold : ∀ x, x < v.len → w.kind x = v.kind x ∧ w.name x = v.name x) :
    w.good ({ FM with relationships := FM.relationships ++ [v.len] } : FeatureModel) := by
  refine ⟨ht, ?_, ?_, ?_⟩
  · have hc : FM.features.countP (fun e => decide (w.kind e.2 = some NodeKind.NK_ROOT)) =
        FM.features.countP (fun e => decide (v.kind e.2 = some NodeKind.NK_ROOT)) := by
      apply List.countP_congr
      intro e he
      rw [(hold e.2 (good_feature_lt hg he)).1]
    exact hc.trans hg.oneRoot
  · intro e he
    rw [(hold e.2 (good_feature_lt hg he)).2]
    exact hg.names e he
  · obtain ⟨r, hr, hmem, hkr⟩ := hg.root
    refine ⟨r, hr, hmem, ?_⟩
    simp only [List.mem_map] at hmem
    obtain ⟨e, he, rfl⟩ := hmem
    rw [(hold e.2 (good_feature_lt hg he)).1]
    exact hkr

/-- The body of `AddRelationshipToModel` after the children have been resolved to
pointers. -/
theorem AddRelationshipToModel_core_good (mem : Memory) (FM : FeatureModel)
    (Kind : RelationshipKind) (p : Nat) (s : List (Option Handle))
    (hg : mem.view.good FM) (hplt : p < mem.view.len)
    (hs : ∀ C ∈ s, mem.hasLiveParent C = true) :
    ∃ m2 m3 m4,
      FeatureModelModification.setParent
        { mem with nodes := mem.nodes ++ [Relationship.make Kind] } mem.nodes.length p
          = .ok m2 ∧
      FeatureModelModification.addEdge m2 p mem.nodes.length = .ok m3 ∧
      AddRelationshipToModel.loopPtrs mem.nodes.length m3 s = .ok m4 ∧
      m4.view.good ({ FM with relationships := FM.relationships ++ [mem.nodes.length] } :
        FeatureModel) := by
  obtain ⟨m2, m3, h2, h3, v3⟩ := link_steps mem (Relationship.make Kind) p hplt
  have t3 : m3.view.tree ({ FM with relationships := FM.relationships ++ [mem.nodes.length] } :
      FeatureModel).treeNodes := by
    rw [v3]
    exact tree_alloc_link hg.tree hplt ⟨rfl, rfl⟩
      (fun x hx => treeNodes_addRelationship FM _ x hx)
  have l3 : m3.view.len = mem.view.len + 1 := by rw [v3]; rfl
  have hI : mem.nodes.length < m3.view.len := by
    rw [l3]; exact Nat.lt_succ_self _
  have hs3 : ∀ C ∈ s, ∃ c q : Nat, C = some c ∧ c < m3.view.len ∧ m3.view.par c = some q ∧
      q < m3.view.len := by
    intro C hC
    obtain ⟨c, q, hc, hclt, hcq, hqlt⟩ := hasLiveParent_iff (hs C hC)
    have hne : c ≠ mem.view.len := by omega
    refine ⟨c, q, hc, by omega, ?_, by omega⟩
    rw [v3]
    simp only [View.addEdge, View.setParent, View.alloc, if_neg hne]
    exact hcq
  obtain ⟨m4, h4, t4, l4, k4, n4⟩ := loopPtrs_good s t3 hI hs3
  refine ⟨m2, m3, m4, h2, h3, h4, ?_⟩
  have hlen : mem.nodes.length = mem.view.len := rfl
  rw [hlen]
  apply good_add_relationship hg
  · rw [← hlen]; exact t4
  · intro x hx
    have hne : x ≠ mem.view.len := by omega
    rw [k4, n4, v3]
    simp [View.addEdge, View.setParent, View.alloc, hne]

theorem AddRelationshipToModel_call_good (mem : Memory) (FM : FeatureModel)
    (Kind : RelationshipKind) (Parent : FeatureVariant) (Children : ChildrenVariant)
    (hg : mem.view.good FM)
    (hv : (Modification.AddRelationshipToModel Kind Parent Children).validAt mem FM = true) :
    ∃ r mem2 FM2,
      AddRelationshipToModel.call Kind Parent Children mem FM = .ok (r, mem2, FM2) ∧
      mem2.view.good FM2 := by
  simp only [Modification.validAt, Bool.and_eq_true] at hv
  obtain ⟨hP, hCs⟩ := hv
  obtain ⟨p, hp, hplt⟩ := isLive_iff hP
  have hp2 : FeatureModelModification.resolveVariant
      ({ FM with relationships := FM.relationships ++ [mem.nodes.length] } : FeatureModel)
      Parent = some p := by
    rw [← hp]
    cases Parent <;> rfl
  cases Children with
  | names s0 =>
    simp only [List.all_eq_true] at hCs
    obtain ⟨m2, m3, m4, h2, h3, h4, g4⟩ := AddRelationshipToModel_core_good mem FM Kind p
      (s0.map (fun C => FeatureModelModification.resolveVariant FM (.name C))) hg hplt
      (by
        intro C hC
        simp only [List.mem_map] at hC
        obtain ⟨C0, hC0, rfl⟩ := hC
        exact hCs C0 hC0)
    refine ⟨some mem.nodes.length, m4, _, ?_, g4⟩
    have h4b : AddRelationshipToModel.loopNames
        ({ FM with relationships := FM.relationships ++ [mem.nodes.length] } : FeatureModel)
        mem.nodes.length m3 s0 = .ok m4 := by
      rw [loopNames_eq_loopPtrs]
      exact h4
    simp [AddRelationshipToModel.call, FeatureModelModification.addRelationship,
      FeatureModel.addRelationship, hp2, deref, h2, h3, h4b, bind, Except.bind, pure,
      Except.pure]
  | ptrs s0 =>
    simp only [List.all_eq_true] at hCs
    obtain ⟨m2, m3, m4, h2, h3, h4, g4⟩ := AddRelationshipToModel_core_good mem FM Kind p
      s0 hg hplt hCs
    refine ⟨some mem.nodes.length, m4, _, ?_, g4⟩
    simp [AddRelationshipToModel.call, FeatureModelModification.addRelationship,
      FeatureModel.addRelationship, hp2, deref, h2, h3, h4, bind, Except.bind, pure,
      Except.pure]

theorem setFeature_view (mem : Memory) (C F : Nat) (hC : C < mem.constraints.length) :
    ∃ m1, FeatureModelModification.setFeature mem C F = .ok m1 ∧ m1.view = mem.view := by
  obtain ⟨k, hk⟩ := getElem?_of_lt mem.constraints hC
  exact ⟨{ mem with constraints := mem.constraints.set C (k.setFeature F) },
    by simp [FeatureModelModification.setFeature, Memory.modifyConstraint, hk], rfl⟩

theorem AddConstraintToModel_call_good (mem : Memory) (FM : FeatureModel)
    (NewConstraint : Option Constraint) (hg : mem.view.good FM)
    (hv : (Modification.AddConstraintToModel NewConstraint).validAt mem FM = true) :
    ∃ r mem2 FM2, AddConstraintToModel.call NewConstraint mem FM = .ok (r, mem2, FM2) ∧
      mem2.view.good FM2 := by
  cases NewConstraint with
  | none => simp [Modification.validAt] at hv
  | some k =>
    have hget : (mem.constraints ++ [k])[mem.constraints.length]? = some k := by simp
    cases k with
    | other t =>
      refine ⟨some mem.constraints.length,
        { mem with constraints := mem.constraints ++ [Constraint.other t] },
        { FM with constraints := FM.constraints ++ [mem.constraints.length] }, ?_, ?_⟩
      · simp [AddConstraintToModel.call, FeatureModelModification.addConstraint,
          FeatureModel.addConstraint, AddConstraintToModel.visit, Memory.constraint, hget, bind,
          Except.bind, pure, Except.pure]
      · exact ⟨hg.tree, hg.oneRoot, hg.names, hg.root⟩
    | primary f =>
      cases f with
      | none => simp [Modification.validAt] at hv
      | some fh =>
        cases hfn : mem.nodes[fh]? with
        | none => simp [Modification.validAt, hfn] at hv
        | some fn =>
          cases hF : FM.getFeature fn.name with
          | none => simp [Modification.validAt, hfn, hF] at hv
          | some F =>
            obtain ⟨e, he, heF⟩ := FeatureModel_getFeature_mem hF
            have hFlt : F < mem.nodes.length := by
              rw [← heF]; exact good_feature_lt hg he
            obtain ⟨m1, h1, v1⟩ := setFeature_view
              { mem with constraints := mem.constraints ++ [Constraint.primary (some fh)] }
              mem.constraints.length F (by simp)
            have l1 : m1.nodes.length = mem.nodes.length := by
              rw [view_len_eq v1]; rfl
            obtain ⟨m2, h2, v2⟩ := addConstraintToFeature_view m1 F mem.constraints.length
              (by rw [l1]; exact hFlt)
            refine ⟨some mem.constraints.length, m2,
              { FM with constraints := FM.constraints ++ [mem.constraints.length] }, ?_, ?_⟩
            · have hF2 : ({ FM with constraints := FM.constraints ++ [mem.constraints.length] } :
                  FeatureModel).getFeature fn.name = some F := hF
              simp [AddConstraintToModel.call, FeatureModelModification.addConstraint,
                FeatureModel.addConstraint, AddConstraintToModel.visit, Memory.constraint, hget,
                deref, Memory.node, hfn, hF2, h1, h2, bind, Except.bind, pure, Except.pure]
            · have hv2 : m2.view = mem.view := by rw [v2, v1]; rfl
              rw [hv2]
              exact ⟨hg.tree, hg.oneRoot, hg.names, hg.root⟩

theorem metadata_good {v : View} {FM FM2 : FeatureModel} (hg : v.good FM)
    (hf : FM2.features = FM.features) (hr : FM2.relationships = FM.relationships)
    (hroot : FM2.root = FM.root) : v.good FM2 := by
  have ht : FM2.treeNodes = FM.treeNodes := by simp [FeatureModel.treeNodes, hf, hr]
  refine ⟨?_, ?_, ?_, ?_⟩
  · rw [ht]; exact hg.tree
  · rw [hf]; exact hg.oneRoot
  · rw [hf]; exact hg.names
  · rw [hf, hroot]; exact hg.root

theorem countP_filter_zero {α : Type} (p q : α → Bool) (l : List α) (a : α)
    (h1 : l.countP p = 1) (ha : a ∈ l) (hpa : p a = true) (hqa : q a = false) :
    (l.filter q).countP p = 0 := by
  have hsplit := List.countP_eq_countP_filter_add l p q
  have hpos : 0 < (l.filter (fun x => !q x)).countP p := by
    rw [List.countP_pos_iff]
    refine ⟨a, ?_, hpa⟩
    rw [List.mem_filter]
    exact ⟨ha, by simp [hqa]⟩
  omega

theorem view_name_node {mem : Memory} {x : Nat} {nm : String}
    (h : mem.view.name x = some nm) : ∃ n, mem.nodes[x]? = some n ∧ n.name = nm := by
  simp only [Memory.view] at h
  cases hn : mem.nodes[x]? with
  | none => rw [hn] at h; simp at h
  | some n => rw [hn] at h; exact ⟨n, rfl, by simpa using h⟩

theorem par_lt_of_bounded {v : View} (hb : v.bounded) {x q : Nat} (h : v.par x = some q) :
    x < v.len := by
  by_contra hge
  have := (hb x (by omega)).1
  rw [this] at h
  cases h

theorem getFeature_none_key {FM : FeatureModel} {nm : String}
    (h : FM.getFeature nm = none) : ∀ e ∈ FM.features, e.1 ≠ nm := by
  intro e he heq
  simp only [FeatureModel.getFeature, Option.map_eq_none', List.find?_eq_none] at h
  have := h e he
  simp [heq] at this

/-- One turn of the loop of `SetRoot`, as one step on views. -/
theorem setRoot_steps (mem : Memory) (C R NR : Nat) (hC : C < mem.view.len)
    (hR : R < mem.view.len) (hN : NR < mem.view.len) :
    ∃ m1 m2 m3, FeatureModelModification.setParent mem C NR = .ok m1 ∧
      FeatureModelModification.removeEdge m1 R C = .ok m2 ∧
      FeatureModelModification.addEdge m2 NR C = .ok m3 ∧
      m3.view = ((mem.view.removeEdge R C).addEdge NR C).setParent C NR := by
  obtain ⟨m1, h1, v1⟩ := setParent_view mem C NR hC
  have l1 : m1.nodes.length = mem.nodes.length := view_len_eq v1
  obtain ⟨m2, h2, v2⟩ := removeEdge_view m1 R C (by rw [l1]; exact hR)
  have l2 : m2.nodes.length = mem.nodes.length := (view_len_eq v2).trans l1
  obtain ⟨m3, h3, v3⟩ := addEdge_view m2 NR C (by rw [l2]; exact hN)
  exact ⟨m1, m2, m3, h1, h2, h3, by rw [v3, v2, v1]; rfl⟩

theorem SetRoot_loop_good {X : List Nat} {R NR : Nat} (hne : R ≠ NR) (cs : List Handle) :
    ∀ {mem : Memory}, mem.view.tree X → R < mem.view.len → NR < mem.view.len →
      (∀ C ∈ cs, C < mem.view.len ∧ (mem.view.par C = some R ∨
        (mem.view.par C = some NR ∧ mem.view.ch NR C ∧ ¬ mem.view.ch R C))) →
      ∃ mem2, SetRoot.loop R NR mem cs = .ok mem2 ∧
        mem2.view.tree X ∧ mem2.view.len = mem.view.len ∧ mem2.view.kind = mem.view.kind ∧
        mem2.view.name = mem.view.name := by
  induction cs with
  | nil =>
    intro mem ht _ _ _
    exact ⟨mem, rfl, ht, rfl, rfl, rfl⟩
  | cons C rest ih =>
    intro mem ht hR hN hcs
    obtain ⟨hClt, hC⟩ := hcs C (by simp)
    obtain ⟨m1, m2, m3, h1, h2, h3, v3⟩ := setRoot_steps mem C R NR hClt hR hN
    have hl3 : m3.view.len = mem.view.len := by rw [v3]; rfl
    have hk3 : m3.view.kind = mem.view.kind := by rw [v3]; rfl
    have hn3 : m3.view.name = mem.view.name := by rw [v3]; rfl
    have ht3 : m3.view.tree X := by
      rcases hC with hA | ⟨hB1, hB2, hB3⟩
      · rw [v3]; exact tree_reparent ht hClt hN hA
      · rw [v3, reparent_again hB1 hB2 hB3]; exact ht
    have hrest : ∀ C2 ∈ rest, C2 < m3.view.len ∧ (m3.view.par C2 = some R ∨
        (m3.view.par C2 = some NR ∧ m3.view.ch NR C2 ∧ ¬ m3.view.ch R C2)) := by
      intro C2 hC2
      obtain ⟨hlt2, hc2⟩ := hcs C2 (by simp [hC2])
      refine ⟨by rw [hl3]; exact hlt2, ?_⟩
      rw [v3]
      by_cases heq : C2 = C
      · subst heq
        right
        have hne2 : ¬ NR = R := fun h => hne h.symm
        simp [View.setParent, View.addEdge, View.removeEdge, hne, hne2]
      · simp only [View.setParent, View.addEdge, View.removeEdge]
        rw [if_neg heq]
        rcases hc2 with hA | ⟨hB1, hB2, hB3⟩
        · exact Or.inl hA
        · right
          refine ⟨hB1, Or.inl ⟨hB2, fun h => heq h.2⟩, ?_⟩
          rintro (⟨h, -⟩ | ⟨h, -⟩)
          · exact hB3 h
          · exact hne h
    obtain ⟨m4, h4, t4, l4, k4, n4⟩ := ih ht3 (by rw [hl3]; exact hR) (by rw [hl3]; exact hN)
      hrest
    refine ⟨m4, ?_, t4, l4.trans hl3, k4.trans hk3, n4.trans hn3⟩
    simp [SetRoot.loop, h1, h2, h3, h4, bind, Except.bind]

theorem SetRoot_call_good (ord : SortOrder) (mem : Memory) (FM : FeatureModel)
    (Root : Option FeatureTreeNode) (hg : mem.view.good FM)
    (hv : (Modification.SetRoot Root).validAt mem FM = true) :
    ∃ r mem2 FM2, SetRoot.call ord Root mem FM = .ok (r, mem2, FM2) ∧
      mem2.view.good FM2 := by
  cases Root with
  | none => simp [Modification.validAt] at hv
  | some f =>
    simp only [Modification.validAt, Bool.and_eq_true, beq_iff_eq] at hv
    obtain ⟨⟨hk, hpar⟩, hch⟩ := hv
    cases hgf : FM.getFeature f.name with
    | some x =>
      refine ⟨FM.root, mem, FM.sort ord mem, ?_, metadata_good hg rfl rfl rfl⟩
      simp [SetRoot.call, FeatureModelModification.addFeature, FeatureModel.addFeature, hgf,
        dyn_cast_or_null_RootFeature, FeatureModel.getRoot, FeatureModel.sort, bind,
        Except.bind, pure, Except.pure]
    | none =>
      obtain ⟨R, hr, hRlt, hRk⟩ := good_root_lt hg
      obtain ⟨rR, hrR, hRmem, -⟩ := hg.root
      have hRR : rR = R := by rw [hr] at hrR; cases hrR; rfl
      subst hRR
      simp only [List.mem_map] at hRmem
      obtain ⟨eR, heR, heR2⟩ := hRmem
      -- the arena and the model after the insertion
      have v1 : ({ mem with nodes := mem.nodes ++ [f] } : Memory).view = mem.view.alloc f :=
        Memory_view_append mem f
      have t1 : ({ mem with nodes := mem.nodes ++ [f] } : Memory).view.tree
          ({ FM with features := FM.features ++ [(f.name, mem.nodes.length)] } :
            FeatureModel).treeNodes := by
        rw [v1]
        exact tree_alloc_root hg.tree hk ⟨hpar, hch⟩
          (fun x hx => treeNodes_addFeature FM _ x hx)
      have hRlt2 : rR < mem.nodes.length := hRlt
      obtain ⟨rn, hrn⟩ := getElem?_of_lt mem.nodes hRlt2
      have hrn1 : (mem.nodes ++ [f])[rR]? = some rn := by
        rw [List.getElem?_append_left hRlt2, hrn]
      have hne : rR ≠ mem.nodes.length := Nat.ne_of_lt hRlt2
      have hRtree : rR ∈ ({ FM with features := FM.features ++ [(f.name, mem.nodes.length)] } :
          FeatureModel).treeNodes := by
        simp only [FeatureModel.treeNodes, List.map_append, List.mem_append, List.mem_map]
        exact Or.inl (Or.inl ⟨eR, heR, heR2⟩)
      -- the loop
      have hcs : ∀ C ∈ rn.children,
          C < ({ mem with nodes := mem.nodes ++ [f] } : Memory).view.len ∧
          (({ mem with nodes := mem.nodes ++ [f] } : Memory).view.par C = some rR ∨
            (({ mem with nodes := mem.nodes ++ [f] } : Memory).view.par C
                = some mem.nodes.length ∧
              ({ mem with nodes := mem.nodes ++ [f] } : Memory).view.ch mem.nodes.length C ∧
              ¬ ({ mem with nodes := mem.nodes ++ [f] } : Memory).view.ch rR C)) := by
        intro C hC
        have hchild : ({ mem with nodes := mem.nodes ++ [f] } : Memory).view.ch rR C :=
          ⟨rn, hrn1, hC⟩
        have hp := (t1.linked rR hRtree).2 C hchild
        exact ⟨par_lt_of_bounded t1.bounded hp, Or.inl hp⟩
      obtain ⟨m2, h2, t2, l2, k2, n2⟩ := SetRoot_loop_good hne rn.children t1
        (by rw [v1]; exact Nat.lt_succ_of_lt hRlt) (by rw [v1]; exact Nat.lt_succ_self _) hcs
      -- the name under which the old root is registered
      have hnameR : mem.view.name rR = some eR.1 := by
        have := hg.names eR heR
        rw [heR2] at this
        exact this
      have hname2 : m2.view.name rR = some eR.1 := by
        have hne3 : rR ≠ mem.view.len := hne
        rw [n2, v1]
        simp only [View.alloc]
        rw [if_neg hne3]
        exact hnameR
      obtain ⟨rn2, hrn2, hrn2name⟩ := view_name_node hname2
      have hfresh : f.name ≠ eR.1 := fun h => getFeature_none_key hgf eR heR h.symm
      refine ⟨some mem.nodes.length, m2,
        FeatureModel.sort ord m2
          { FM with
            features := (FM.features ++ [(f.name, mem.nodes.length)]).filter
              (fun e => !(e.1 == eR.1))
            root := some mem.nodes.length }, ?_, ?_⟩
      · have hroot1 : ({ FM with features := FM.features ++ [(f.name, mem.nodes.length)] } :
            FeatureModel).getRoot = some rR := hr
        simp [SetRoot.call, FeatureModelModification.addFeature, FeatureModel.addFeature, hgf,
          dyn_cast_or_null_RootFeature, Memory.node, hk, hroot1, hr, hrn1, h2,
          FeatureModel.removeFeature, hrn2, hrn2name, FeatureModel.setRoot, FeatureModel.getRoot,
          FeatureModel.sort, bind, Except.bind, pure, Except.pure]
      · suffices hgood : m2.view.good { FM with
            features := (FM.features ++ [(f.name, mem.nodes.length)]).filter
              (fun e => !(e.1 == eR.1))
            root := some mem.nodes.length } from metadata_good hgood rfl rfl rfl
        have hkind : ∀ x, m2.view.kind x =
            if x = mem.nodes.length then some f.kind else mem.view.kind x := by
          intro x; rw [k2, v1]; rfl
        have hnm : ∀ x, m2.view.name x =
            if x = mem.nodes.length then some f.name else mem.view.name x := by
          intro x; rw [n2, v1]; rfl
        refine ⟨?_, ?_, ?_, ?_⟩
        · apply tree_subset t2
          intro x hx
          simp only [FeatureModel.treeNodes, List.map_append, List.mem_append, List.mem_map,
            List.mem_filter] at hx ⊢
          rcases hx with ⟨e, ⟨he, -⟩, rfl⟩ | hx
          · rcases he with he | he
            · exact Or.inl (Or.inl ⟨e, he, rfl⟩)
            · exact Or.inl (Or.inr ⟨e, he, rfl⟩)
          · exact Or.inr hx
        · simp only [List.filter_append, List.countP_append]
          have hold : (FM.features.filter (fun e => !(e.1 == eR.1))).countP
              (fun e => decide (m2.view.kind e.2 = some NodeKind.NK_ROOT)) = 0 := by
            have hc : (FM.features.filter (fun e => !(e.1 == eR.1))).countP
                (fun e => decide (m2.view.kind e.2 = some NodeKind.NK_ROOT)) =
              (FM.features.filter (fun e => !(e.1 == eR.1))).countP
                (fun e => decide (mem.view.kind e.2 = some NodeKind.NK_ROOT)) := by
              apply List.countP_congr
              intro e he
              have he2 : e ∈ FM.features := (List.mem_filter.mp he).1
              have hlt := good_feature_lt hg he2
              have hne2 : e.2 ≠ mem.nodes.length := Nat.ne_of_lt hlt
              rw [hkind, if_neg hne2]
            rw [hc]
            apply countP_filter_zero _ _ _ eR hg.oneRoot heR
            · rw [heR2]; simpa using hRk
            · simp
          rw [hold]
          have hnew : ([(f.name, mem.nodes.length)].filter (fun e => !(e.1 == eR.1))) =
              [(f.name, mem.nodes.length)] := by
            simp [hfresh]
          rw [hnew]
          simp [hkind, hk]
        · intro e he
          have he2 := (List.mem_filter.mp he).1
          simp only [List.mem_append, List.mem_singleton] at he2
          rcases he2 with he2 | he2
          · have hlt := good_feature_lt hg he2
            have hne2 : e.2 ≠ mem.nodes.length := Nat.ne_of_lt hlt
            rw [hnm, if_neg hne2]
            exact hg.names e he2
          · subst he2
            rw [hnm]
            simp
        · refine ⟨mem.nodes.length, rfl, ?_, ?_⟩
          · simp only [List.mem_map, List.mem_filter, List.mem_append, List.mem_singleton]
            exact ⟨(f.name, mem.nodes.length), ⟨Or.inr rfl, by simp [hfresh]⟩, rfl⟩
          · rw [hkind]
            simp [hk]

/-- A valid command runs without a fault and keeps the model consistent. -/
theorem Modification_exec_good (ord : SortOrder) (m : Modification) (mem : Memory)
    (FM : FeatureModel) (hg : mem.view.good FM) (hv : m.validAt mem FM = true) :
    ∃ mem2 FM2, m.exec ord mem FM = .ok (mem2, FM2) ∧ mem2.view.good FM2 := by
  cases m with
  | AddFeatureToModel NewFeature Parent =>
    obtain ⟨r, mem2, FM2, h, g⟩ := AddFeatureToModel_call_good mem FM NewFeature Parent hg hv
    exact ⟨mem2, FM2, by simp [Modification.exec, h, Except.map], g⟩
  | AddRelationshipToModel Kind Parent Children =>
    obtain ⟨r, mem2, FM2, h, g⟩ :=
      AddRelationshipToModel_call_good mem FM Kind Parent Children hg hv
    exact ⟨mem2, FM2, by simp [Modification.exec, h, Except.map], g⟩
  | AddConstraintToModel NewConstraint =>
    obtain ⟨r, mem2, FM2, h, g⟩ := AddConstraintToModel_call_good mem FM NewConstraint hg hv
    exact ⟨mem2, FM2, by simp [Modification.exec, h, Except.map], g⟩
  | SetName Name => exact ⟨mem, _, rfl, metadata_good hg rfl rfl rfl⟩
  | SetCommit Commit => exact ⟨mem, _, rfl, metadata_good hg rfl rfl rfl⟩
  | SetPath Path => exact ⟨mem, _, rfl, metadata_good hg rfl rfl rfl⟩
  | SetRoot Root =>
    obtain ⟨r, mem2, FM2, h, g⟩ := SetRoot_call_good ord mem FM Root hg hv
    exact ⟨mem2, FM2, by simp [Modification.exec, h, Except.map], g⟩
  | AddChild Parent Child =>
    obtain ⟨mem2, FM2, h, g⟩ := AddChild_call_good ord mem FM Parent Child hg hv
    exact ⟨mem2, FM2, by simp [Modification.exec, h], g⟩

/-- A sequence of valid commands runs without a fault and keeps the model
consistent. -/
theorem execAll_good (ord : SortOrder) (ms : List Modification) :
    ∀ (mem : Memory) (FM : FeatureModel), mem.view.good FM →
      validRun ord ms mem FM = true →
      ∃ mem2 FM2, execAll ord ms mem FM = .ok (mem2, FM2) ∧ mem2.view.good FM2 := by
  induction ms with
  | nil => intro mem FM hg _; exact ⟨mem, FM, rfl, hg⟩
  | cons m rest ih =>
    intro mem FM hg hv
    simp only [validRun, Bool.and_eq_true] at hv
    obtain ⟨hv1, hv2⟩ := hv
    obtain ⟨m1, F1, h1, g1⟩ := Modification_exec_good ord m mem FM hg hv1
    rw [h1] at hv2
    obtain ⟨m2, F2, h2, g2⟩ := ih m1 F1 g1 hv2
    exact ⟨m2, F2, by simp [execAll, h1, h2, bind, Except.bind], g2⟩

/-- Claim C6.  On a valid model (with the class invariants of the model: the
registry is keyed by the names of its features and the root pointer leads to a
registered root), a modify-mode transaction on which a sequence of valid
mutations has been recorded commits successfully: every command runs without a
fault, commit returns true and finalizes the transaction, and the live model
satisfies the consistency predicate (exactly one root, every tree node that is
no root has a parent, parent pointers and child sets agree).  A mutation is
valid when it respects the contract of its command on the model it runs on
(`Modification.validAt`). -/
theorem C6_valid_mutations_commit_valid (ord : SortOrder) (mem : Memory)
    (FM : FeatureModel) (cs : List Call)
    (hvalid : isFeatureModelValid mem FM = true) (hwf : FM.wellFormed mem = true)
    (hrun : validRun ord (cs.map Call.toModification) mem FM = true) :
    ∃ S, (ModifySession.openTransaction mem FM >>= fun S0 => S0.calls cs >>= fun S1 =>
        S1.commit ord) = .ok (true, S) ∧
      isFeatureModelValid S.mem S.live = true ∧ S.T.isUncommited = false := by
  obtain ⟨m2, F2, h2, g2⟩ := execAll_good ord _ mem FM (good_of_valid hvalid hwf) hrun
  have hv2 := (valid_of_good g2).1
  have hopen := ModifySession_open_calls mem FM cs hvalid
  simp only [bind, Except.bind] at hopen ⊢
  cases ho : ModifySession.openTransaction mem FM with
  | error e => rw [ho] at hopen; simp at hopen
  | ok S0 =>
    rw [ho] at hopen
    simp only [] at hopen ⊢
    rw [hopen]
    simp only []
    rw [ModifySession_commit_open ord _ rfl]
    simp only []
    rw [h2]
    simp only [Except.map, hv2]
    exact ⟨_, rfl, hv2, by simp [FeatureModelModifyTransactionBase.isUncommited]⟩

/-- Claim C6 on the model of the tests, with the six valid mutations of
`modifyExampleCalls` recorded. -/
theorem C6_valid_mutations_commit_valid_witness :
    isFeatureModelValid exampleMemory exampleModel = true ∧
    exampleModel.wellFormed exampleMemory = true ∧
    validRun registryOrder (modifyExampleCalls.map Call.toModification)
      exampleMemory exampleModel = true ∧
    ∃ S, (ModifySession.openTransaction exampleMemory exampleModel >>= fun S0 =>
        S0.calls modifyExampleCalls >>= fun S1 => S1.commit registryOrder) = .ok (true, S) ∧
      isFeatureModelValid S.mem S.live = true ∧ S.T.isUncommited = false :=
  ⟨by decide, by decide, by decide,
    C6_valid_mutations_commit_valid registryOrder exampleMemory exampleModel
      modifyExampleCalls (by decide) (by decide) (by decide)⟩

/-! ## AddChild -/

/-- Claim C11, amended.  When the parent reference resolves to an object `p`, the
child reference resolves to `c`, and `c` has a parent `q` that is an object,
`AddChild` returns, and afterwards the parent of `c` is `p`, the child set of
`p` contains `c`, and, when the previous parent `q` is not `p` itself, the child
set of `q` no longer contains `c`. -/
theorem C11_addChild_reparents (ord : SortOrder) (mem : Memory) (FM : FeatureModel)
    (Parent Child : FeatureTreeNodeVariant) (p c q : Nat)
    (hP : FeatureModelModification.resolveVariant FM Parent = some p)
    (hp : p < mem.nodes.length)
    (hC : FeatureModelModification.resolveVariant FM Child = some c)
    (hcq : mem.view.par c = some q) (hq : q < mem.nodes.length) :
    ∃ mem2 FM2, AddChild.call ord Parent Child mem FM = .ok (mem2, FM2) ∧
      mem2.view.par c = some p ∧ mem2.view.ch p c ∧ (q ≠ p → ¬ mem2.view.ch q c) := by
  obtain ⟨cn, hcn, hcp⟩ := view_par_node hcq
  have hclt : c < mem.view.len := lt_of_getElem?_eq_some hcn
  obtain ⟨m1, m2, m3, h1, h2, h3, v3⟩ := reparent_steps mem c q p hclt hq hp
  refine ⟨m3, FM.sort ord m3, ?_, ?_, ?_, ?_⟩
  · simp [AddChild.call, hP, hC, deref, Memory.node, hcn, hcp, h1, h2, h3, bind, Except.bind,
      pure, Except.pure]
  · rw [v3]; simp [View.setParent]
  · rw [v3]; simp [View.setParent, View.addEdge]
  · intro hne
    rw [v3]
    simp [View.setParent, View.addEdge, View.removeEdge, hne]

/-- The amended claim C11 at the model with three features under the root: "b"
moves from the root to "a". -/
theorem C11_addChild_reparents_witness :
    ∃ mem2 FM2, AddChild.call registryOrder (.name "a") (.name "b") wideMemory wideModel
        = .ok (mem2, FM2) ∧
      mem2.view.par 2 = some 1 ∧ mem2.view.ch 1 2 ∧ ((0 : Nat) ≠ 1 → ¬ mem2.view.ch 0 2) :=
  C11_addChild_reparents registryOrder wideMemory wideModel (.name "a") (.name "b") 1 2 0
    (by decide) (by decide) (by decide) (by decide) (by decide)

/-- Claim C11 as stated fails when the child is added to the parent it already
has: in the model of the tests, the feature "a" has the root as its parent, and
after `AddChild("root", "a")` the child set of the root, which is the previous
parent of "a", still contains "a". -/
theorem C11_previous_parent_keeps_child :
    FeatureModelModification.resolveVariant exampleModel (.name "root") = some 0 ∧
    FeatureModelModification.resolveVariant exampleModel (.name "a") = some 1 ∧
    (exampleMemory.nodes[1]?).map (fun n => n.parent) = some (some 0) ∧
    ∃ mem2 FM2, AddChild.call registryOrder (.name "root") (.name "a") exampleMemory
        exampleModel = .ok (mem2, FM2) ∧
      (mem2.nodes[0]?).map (fun n => n.children) = some [1] :=
  ⟨by decide, by decide, by decide, exampleMemory, exampleModel, by decide, by decide⟩

/-! ## addChild in copy mode -/

/-- Claim C12, where the code diverges.  In copy mode `addChild` returns with the
transaction, its clone and the arena exactly as they were, whatever the
references are: `addChildImpl` constructs the `AddChild` command and never calls
it.  On the model of the tests: a copy-mode transaction is opened, a feature "b"
is added under the root, and `addChild("a", "b")` is called.  Both references
resolve in the clone ("a" at address 3, "b" at 4; the root of the clone is at
2), yet after the call "b" still has the root as its parent, the child set of
"a" is empty, and the following commit succeeds and returns that very clone. -/
theorem C12_copy_addChild_not_applied :
    (∀ (ord : SortOrder) (S : CopySession) (Parent Child : FeatureTreeNodeVariant),
      S.call ord (.addChild Parent Child) = .ok S) ∧
    (do let S0 ← CopySession.openTransaction exampleMemory exampleModel
        let S1 ← S0.call registryOrder (.addFeature (some (BinaryFeature.make "b")) none)
        let S2 ← S1.call registryOrder (.addChild (.name "a") (.name "b"))
        pure (S2.T.FM.map (fun U => FeatureModelModification.resolveVariant U (.name "a")),
          S2.T.FM.map (fun U => FeatureModelModification.resolveVariant U (.name "b")),
          S2.T.FM.map (fun U => U.root),
          (S2.mem.nodes[4]?).map (fun n => n.parent),
          (S2.mem.nodes[3]?).map (fun n => n.children),
          decide (S2.commit.1 = S2.T.FM ∧ S2.commit.1.isSome = true))
      : Except Fault (Option (Option Handle) × Option (Option Handle) × Option (Option Handle) ×
          Option (Option Handle) × Option (List Handle) × Bool)) =
      .ok (some (some 3), some (some 4), some (some 2), some (some 2), some [], true) :=
  ⟨fun _ _ _ _ => rfl, by rfl⟩

/-! ## SetRoot on a model that has a root -/

/-- What the loop of `SetRoot` leaves: the children it ran over have the new root
as their parent and are children of the new root and no longer of the old one;
nothing else has changed. -/
theorem SetRoot_loop_view {R NR : Nat} (hne : R ≠ NR) (cs : List Handle) :
    ∀ (mem : Memory), R < mem.view.len → NR < mem.view.len →
      (∀ C ∈ cs, C < mem.view.len) →
      ∃ mem2, SetRoot.loop R NR mem cs = .ok mem2 ∧
        mem2.view.len = mem.view.len ∧ mem2.view.kind = mem.view.kind ∧
        mem2.view.name = mem.view.name ∧
        (∀ x, mem2.view.par x = if x ∈ cs then some NR else mem.view.par x) ∧
        (∀ y z, mem2.view.ch y z ↔
          ((y = NR ∧ z ∈ cs) ∨ (mem.view.ch y z ∧ ¬ (y = R ∧ z ∈ cs)))) := by
  induction cs with
  | nil =>
    intro mem _ _ _
    exact ⟨mem, rfl, rfl, rfl, rfl, by simp, by simp⟩
  | cons C rest ih =>
    intro mem hR hN hcs
    have hClt := hcs C (by simp)
    obtain ⟨m1, m2, m3, h1, h2, h3, v3⟩ := setRoot_steps mem C R NR hClt hR hN
    have hl3 : m3.view.len = mem.view.len := by rw [v3]; rfl
    have hk3 : m3.view.kind = mem.view.kind := by rw [v3]; rfl
    have hn3 : m3.view.name = mem.view.name := by rw [v3]; rfl
    obtain ⟨m4, h4, l4, k4, n4, p4, c4⟩ := ih m3 (by rw [hl3]; exact hR)
      (by rw [hl3]; exact hN) (fun C2 hC2 => by rw [hl3]; exact hcs C2 (by simp [hC2]))
    refine ⟨m4, ?_, l4.trans hl3, k4.trans hk3, n4.trans hn3, ?_, ?_⟩
    · simp [SetRoot.loop, h1, h2, h3, h4, bind, Except.bind]
    · intro x
      rw [p4, v3]
      simp only [View.setParent, View.addEdge, View.removeEdge, List.mem_cons]
      by_cases hx : x ∈ rest
      · simp [hx]
      · by_cases hxC : x = C
        · simp [hxC]
        · simp [hx, hxC]
    · intro y z
      rw [c4, v3]
      simp only [View.setParent, View.addEdge, View.removeEdge, List.mem_cons]
      generalize mem.view.ch y z = A
      clear h1 h2 h3 h4 v3 hl3 hk3 hn3 l4 k4 n4 p4 c4 ih hcs hClt hR hN
      by_cases hyN : y = NR
      · have hyR : ¬ y = R := fun h => hne (h.symm.trans hyN)
        simp only [hyN, hyR, true_and, false_and, not_false_eq_true, and_true]
        tauto
      · simp only [hyN, false_and, or_false, false_or]
        tauto

/-- Claim C13.  Let the model have the root `R`, an object whose children are
objects and whose registry entries are under its name, and let the new root
feature have a name the model does not have.  `SetRoot` returns the new root,
which is the root of the model afterwards; every child the old root had has the
new root as its parent, is in the child set of the new root and is no longer in
the child set of the old root; and no entry of the registry leads to the old
root. -/
theorem C13_setRoot_replaces_root (ord : SortOrder) (mem : Memory) (FM : FeatureModel)
    (f rn : FeatureTreeNode) (R : Nat) (hk : f.kind = NodeKind.NK_ROOT)
    (hfresh : FM.getFeature f.name = none) (hr : FM.root = some R)
    (hrn : mem.nodes[R]? = some rn) (hch : ∀ C ∈ rn.children, C < mem.nodes.length)
    (hkey : ∀ e ∈ FM.features, e.2 = R → e.1 = rn.name) :
    ∃ mem2 FM2, SetRoot.call ord (some f) mem FM = .ok (some mem.nodes.length, mem2, FM2) ∧
      FM2.root = some mem.nodes.length ∧
      mem2.view.kind mem.nodes.length = some NodeKind.NK_ROOT ∧
      mem2.view.name mem.nodes.length = some f.name ∧
      (∀ C ∈ rn.children, mem2.view.par C = some mem.nodes.length ∧
        mem2.view.ch mem.nodes.length C ∧ ¬ mem2.view.ch R C) ∧
      (∀ e ∈ FM2.features, e.2 ≠ R) := by
  have hRlt : R < mem.nodes.length := lt_of_getElem?_eq_some hrn
  have hne : R ≠ mem.nodes.length := Nat.ne_of_lt hRlt
  have v1 : ({ mem with nodes := mem.nodes ++ [f] } : Memory).view = mem.view.alloc f :=
    Memory_view_append mem f
  have hrn1 : (mem.nodes ++ [f])[R]? = some rn := by
    rw [List.getElem?_append_left hRlt, hrn]
  obtain ⟨m2, h2, l2, k2, n2, p2, c2⟩ := SetRoot_loop_view hne rn.children
    { mem with nodes := mem.nodes ++ [f] }
    (by rw [v1]; exact Nat.lt_succ_of_lt hRlt) (by rw [v1]; exact Nat.lt_succ_self _)
    (fun C hC => by rw [v1]; exact Nat.lt_succ_of_lt (hch C hC))
  have hname2 : m2.view.name R = some rn.name := by
    have hne3 : R ≠ mem.view.len := hne
    rw [n2, v1]
    simp only [View.alloc]
    rw [if_neg hne3]
    simp [Memory.view, hrn]
  obtain ⟨rn2, hrn2, hrn2name⟩ := view_name_node hname2
  refine ⟨m2,
    FeatureModel.sort ord m2
      { FM with
        features := (FM.features ++ [(f.name, mem.nodes.length)]).filter
          (fun e => !(e.1 == rn.name))
        root := some mem.nodes.length }, ?_, rfl, ?_, ?_, ?_, ?_⟩
  · have hroot1 : ({ FM with features := FM.features ++ [(f.name, mem.nodes.length)] } :
        FeatureModel).getRoot = some R := hr
    simp [SetRoot.call, FeatureModelModification.addFeature, FeatureModel.addFeature, hfresh,
      dyn_cast_or_null_RootFeature, Memory.node, hk, hroot1, hr, hrn1, h2,
      FeatureModel.removeFeature, hrn2, hrn2name, FeatureModel.setRoot, FeatureModel.getRoot,
      FeatureModel.sort, bind, Except.bind, pure, Except.pure]
  · rw [k2, v1]
    simp [View.alloc, hk, Memory.view]
  · rw [n2, v1]
    simp [View.alloc, Memory.view]
  · intro C hC
    refine ⟨?_, ?_, ?_⟩
    · rw [p2, if_pos hC]
    · exact (c2 _ _).mpr (Or.inl ⟨rfl, hC⟩)
    · intro h
      rcases (c2 _ _).mp h with ⟨h1, -⟩ | ⟨-, h3⟩
      · exact hne h1
      · exact h3 ⟨rfl, hC⟩
  · intro e he
    simp only [FeatureModel.sort, List.mem_filter, List.mem_append, List.mem_singleton] at he
    obtain ⟨he1, he2⟩ := he
    rcases he1 with he1 | he1
    · intro heR
      have := hkey e he1 heR
      simp [this] at he2
    · rw [he1]
      exact fun h => hne h.symm

/-- Claim C13 on the model with three features under the root: after `SetRoot`
with a new root "r2", the features "a", "b" and "c" are under the new root. -/
theorem C13_setRoot_replaces_root_witness :
    ∃ mem2 FM2, SetRoot.call registryOrder (some (RootFeature.make "r2")) wideMemory wideModel
        = .ok (some 4, mem2, FM2) ∧
      FM2.root = some 4 ∧
      (∀ C ∈ [1, 2, 3], mem2.view.par C = some 4 ∧ mem2.view.ch 4 C ∧ ¬ mem2.view.ch 0 C) ∧
      (∀ e ∈ FM2.features, e.2 ≠ 0) := by
  obtain ⟨mem2, FM2, h1, h2, _, _, h5, h6⟩ :=
    C13_setRoot_replaces_root registryOrder wideMemory wideModel (RootFeature.make "r2")
      { kind := .NK_ROOT, name := "root", parent := none, children := [1, 2, 3],
        constraints := [] } 0 rfl (by decide) rfl (by decide) (by decide) (by decide)
  exact ⟨mem2, FM2, h1, h2, h5, h6⟩

/-! ## SetRoot with a name that is taken -/

/-- Claim C14.  When the name of the new root feature is the name of a feature
the model already has, `SetRoot` returns the root the model had, the arena (all
objects with their parent pointers and child sets) is the same as before, and
the model differs from the model before in the sort order alone: registry, root,
relationships, constraints and metadata are the same. -/
theorem C14_setRoot_name_taken (ord : SortOrder) (mem : Memory) (FM : FeatureModel)
    (f : FeatureTreeNode) (h : Handle) (hdup : FM.getFeature f.name = some h) :
    SetRoot.call ord (some f) mem FM = .ok (FM.root, mem, FM.sort ord mem) ∧
      (FM.sort ord mem).features = FM.features ∧
      (FM.sort ord mem).root = FM.root ∧
      (FM.sort ord mem).relationships = FM.relationships ∧
      (FM.sort ord mem).constraints = FM.constraints ∧
      (FM.sort ord mem).name = FM.name ∧
      (FM.sort ord mem).commit = FM.commit ∧
      (FM.sort ord mem).path = FM.path := by
  refine ⟨?_, rfl, rfl, rfl, rfl, rfl, rfl, rfl⟩
  simp [SetRoot.call, FeatureModelModification.addFeature, FeatureModel.addFeature, hdup,
    dyn_cast_or_null_RootFeature, FeatureModel.sort, FeatureModel.getRoot, bind, Except.bind,
    pure, Except.pure]

/-- Claim C14 at the model of the tests: a new root feature named "a". -/
theorem C14_setRoot_name_taken_witness :
    SetRoot.call registryOrder (some (RootFeature.make "a")) exampleMemory exampleModel
        = .ok (exampleModel.root, exampleMemory, exampleModel.sort registryOrder exampleMemory) ∧
      (exampleModel.sort registryOrder exampleMemory).features = exampleModel.features ∧
      (exampleModel.sort registryOrder exampleMemory).root = exampleModel.root ∧
      (exampleModel.sort registryOrder exampleMemory).relationships
        = exampleModel.relationships ∧
      (exampleModel.sort registryOrder exampleMemory).constraints = exampleModel.constraints ∧
      (exampleModel.sort registryOrder exampleMemory).name = exampleModel.name ∧
      (exampleModel.sort registryOrder exampleMemory).commit = exampleModel.commit ∧
      (exampleModel.sort registryOrder exampleMemory).path = exampleModel.path :=
  C14_setRoot_name_taken registryOrder exampleMemory exampleModel (RootFeature.make "a") 1
    (by decide)

/-! ## AddRelationshipToModel -/

/-- What the loop of `AddRelationshipToModel` leaves: the children it ran over have
the relationship node as their parent, are children of it and no longer of the
parent they had; nothing else has changed. -/
theorem loopPtrs_view {L : Nat} (s : List (Option Handle)) :
    ∀ (mem : Memory), L < mem.view.len →
      (∀ C ∈ s, ∃ c q : Nat, C = some c ∧ mem.view.par c = some q ∧ q < mem.view.len) →
      ∃ mem2, AddRelationshipToModel.loopPtrs L mem s = .ok mem2 ∧
        mem2.view.len = mem.view.len ∧ mem2.view.kind = mem.view.kind ∧
        mem2.view.name = mem.view.name ∧
        (∀ x : Nat, mem2.view.par x = if some x ∈ s then some L else mem.view.par x) ∧
        (∀ y z : Nat, mem2.view.ch y z ↔
          ((y = L ∧ some z ∈ s) ∨
            (mem.view.ch y z ∧ ¬ (some z ∈ s ∧ mem.view.par z = some y)))) := by
  induction s with
  | nil =>
    intro mem _ _
    exact ⟨mem, rfl, rfl, rfl, rfl, by simp, by simp⟩
  | cons C rest ih =>
    intro mem hL hs
    obtain ⟨c, q, hC, hcq, hqlt⟩ := hs C (by simp)
    subst hC
    have hclt : c < mem.view.len := par_lt_of_bounded (Memory_view_bounded mem) hcq
    obtain ⟨cn, hcn, hcp⟩ := view_par_node hcq
    obtain ⟨m1, m2, m3, h1, h2, h3, v3⟩ := reparent_steps mem c q L hclt hqlt hL
    have hmove : AddRelationshipToModel.moveChild mem L (some c) = .ok m3 := by
      simp [AddRelationshipToModel.moveChild, deref, Memory.node, hcn, hcp, h1, h2, h3, bind,
        Except.bind]
    have hl3 : m3.view.len = mem.view.len := by rw [v3]; rfl
    have hk3 : m3.view.kind = mem.view.kind := by rw [v3]; rfl
    have hn3 : m3.view.name = mem.view.name := by rw [v3]; rfl
    have hp3 : ∀ x : Nat, m3.view.par x = if x = c then some L else mem.view.par x := by
      intro x; rw [v3]; rfl
    have hc3 : ∀ y z : Nat, m3.view.ch y z ↔
        ((mem.view.ch y z ∧ ¬ (y = q ∧ z = c)) ∨ (y = L ∧ z = c)) := by
      intro y z; rw [v3]; rfl
    have hrest : ∀ C2 ∈ rest, ∃ c2 q2 : Nat, C2 = some c2 ∧ m3.view.par c2 = some q2 ∧
        q2 < m3.view.len := by
      intro C2 hC2
      obtain ⟨c2, q2, hc2, hcq2, hq2⟩ := hs C2 (by simp [hC2])
      by_cases heq : c2 = c
      · exact ⟨c2, L, hc2, by rw [hp3, if_pos heq], by rw [hl3]; exact hL⟩
      · exact ⟨c2, q2, hc2, by rw [hp3, if_neg heq]; exact hcq2, by rw [hl3]; exact hq2⟩
    obtain ⟨m4, h4, l4, k4, n4, p4, c4⟩ := ih m3 (by rw [hl3]; exact hL) hrest
    refine ⟨m4, ?_, l4.trans hl3, k4.trans hk3, n4.trans hn3, ?_, ?_⟩
    · simp [AddRelationshipToModel.loopPtrs, hmove, h4, bind, Except.bind]
    · intro x
      rw [p4, hp3]
      simp only [List.mem_cons, Option.some.injEq]
      by_cases hx : some x ∈ rest
      · simp [hx]
      · by_cases hxc : x = c
        · simp [hxc]
        · simp [hx, hxc]
    · intro y z
      rw [c4, hc3, hp3]
      simp only [List.mem_cons, Option.some.injEq]
      by_cases hzc : z = c
      · subst hzc
        have hB : (mem.view.par z = some y) ↔ q = y := by
          rw [hcq]; simp
        simp only [if_true, true_or, true_and, and_true, hB, Option.some.injEq]
        generalize mem.view.ch y z = A
        generalize (some z ∈ rest) = B
        clear h1 h2 h3 h4 v3 hl3 hk3 hn3 l4 k4 n4 p4 c4 ih hs hrest hmove hp3 hc3 hcn hcp hcq
        by_cases hyL : y = L
        · simp only [hyL, true_and, true_or, or_true, iff_true]
          tauto
        · have hyL2 : ¬ L = y := fun h => hyL h.symm
          simp only [hyL, hyL2, false_and, or_false, false_or, and_false, not_false_eq_true,
            and_true]
          constructor
          · rintro ⟨h1, h2⟩; exact ⟨h1, fun h => h2 h.symm⟩
          · rintro ⟨h1, h2⟩; exact ⟨h1, fun h => h2 h.symm⟩
      · simp only [hzc, false_or, and_false, or_false, not_false_eq_true, and_true, if_false]

/-- The run of `AddRelationshipToModel` when the parent resolves to an object and
every child has a parent that is an object: the node is stored and linked under
the parent, and the loop runs over the children. -/
theorem AddRelationshipToModel_call_run (mem : Memory) (FM : FeatureModel)
    (Kind : RelationshipKind) (Parent : FeatureVariant) (Children : ChildrenVariant)
    (p : Nat) (hP : FeatureModelModification.resolveVariant FM Parent = some p)
    (hp : p < mem.nodes.length)
    (hC : ∀ C ∈ Children.pointers FM, mem.hasLiveParent C = true) :
    ∃ m2 m3 m4,
      FeatureModelModification.setParent
        { mem with nodes := mem.nodes ++ [Relationship.make Kind] } mem.nodes.length p
          = .ok m2 ∧
      FeatureModelModification.addEdge m2 p mem.nodes.length = .ok m3 ∧
      m3.view = ((mem.view.alloc (Relationship.make Kind)).setParent mem.view.len p).addEdge p
        mem.view.len ∧
      AddRelationshipToModel.call Kind Parent Children mem FM =
        .ok (some mem.nodes.length, m4,
          { FM with relationships := FM.relationships ++ [mem.nodes.length] }) ∧
      m4.view.len = m3.view.len ∧ m4.view.kind = m3.view.kind ∧
      m4.view.name = m3.view.name ∧
      (∀ x : Nat, m4.view.par x =
        if some x ∈ Children.pointers FM then some mem.nodes.length else m3.view.par x) ∧
      (∀ y z : Nat, m4.view.ch y z ↔
        ((y = mem.nodes.length ∧ some z ∈ Children.pointers FM) ∨
          (m3.view.ch y z ∧ ¬ (some z ∈ Children.pointers FM ∧ m3.view.par z = some y)))) := by
  obtain ⟨m2, m3, h2, h3, v3⟩ := link_steps mem (Relationship.make Kind) p hp
  have l3 : m3.view.len = mem.view.len + 1 := by rw [v3]; rfl
  have hI : mem.nodes.length < m3.view.len := by
    rw [l3]; exact Nat.lt_succ_self _
  have hs3 : ∀ C ∈ Children.pointers FM, ∃ c q : Nat, C = some c ∧ m3.view.par c = some q ∧
      q < m3.view.len := by
    intro C hCm
    obtain ⟨c, q, hc, hclt, hcq, hqlt⟩ := hasLiveParent_iff (hC C hCm)
    have hne : c ≠ mem.view.len := by omega
    refine ⟨c, q, hc, ?_, by omega⟩
    rw [v3]
    simp only [View.addEdge, View.setParent, View.alloc, if_neg hne]
    exact hcq
  obtain ⟨m4, h4, l4, k4, n4, p4, c4⟩ := loopPtrs_view (Children.pointers FM) m3 hI hs3
  refine ⟨m2, m3, m4, h2, h3, v3, ?_, l4, k4, n4, p4, c4⟩
  have hp2 : FeatureModelModification.resolveVariant
      ({ FM with relationships := FM.relationships ++ [mem.nodes.length] } : FeatureModel)
      Parent = some p := by
    rw [← hP]
    cases Parent <;> rfl
  cases Children with
  | names s0 =>
    have h4b : AddRelationshipToModel.loopNames
        ({ FM with relationships := FM.relationships ++ [mem.nodes.length] } : FeatureModel)
        mem.nodes.length m3 s0 = .ok m4 := by
      rw [loopNames_eq_loopPtrs]
      exact h4
    simp [AddRelationshipToModel.call, FeatureModelModification.addRelationship,
      FeatureModel.addRelationship, hp2, deref, h2, h3, h4b, bind, Except.bind, pure,
      Except.pure]
  | ptrs s0 =>
    have h4b : AddRelationshipToModel.loopPtrs mem.nodes.length m3 s0 = .ok m4 := h4
    simp [AddRelationshipToModel.call, FeatureModelModification.addRelationship,
      FeatureModel.addRelationship, hp2, deref, h2, h3, h4b, bind, Except.bind, pure,
      Except.pure]

/-- Claim C15.  Let the parent reference resolve to an object `p` and let every
child, given by name or by pointer, be an object whose parent is an object.
`AddRelationshipToModel` stores one new node, of the relationship kind asked for,
lists it in the model and returns it; its parent is `p` and it is in the child
set of `p`; every child has the new node as its parent, is in the child set of the
new node, and is no longer in the child set of the parent it had.  The result is
the same for any other enumeration of the same children: the same node is
returned, the model is the same, and all objects have the same kind, name,
parent and child set. -/
theorem C15_addRelationship_groups_children (mem : Memory) (FM : FeatureModel)
    (Kind : RelationshipKind) (Parent : FeatureVariant) (Children : ChildrenVariant)
    (p : Nat) (hP : FeatureModelModification.resolveVariant FM Parent = some p)
    (hp : p < mem.nodes.length)
    (hC : ∀ C ∈ Children.pointers FM, mem.hasLiveParent C = true) :
    ∃ mem2, AddRelationshipToModel.call Kind Parent Children mem FM =
        .ok (some mem.nodes.length, mem2,
          { FM with relationships := FM.relationships ++ [mem.nodes.length] }) ∧
      mem2.view.len = mem.nodes.length + 1 ∧
      mem2.view.kind mem.nodes.length = some (NodeKind.NK_RELATIONSHIP Kind) ∧
      mem2.view.par mem.nodes.length = some p ∧
      mem2.view.ch p mem.nodes.length ∧
      (∀ c q : Nat, some c ∈ Children.pointers FM → mem.view.par c = some q →
        mem2.view.par c = some mem.nodes.length ∧ mem2.view.ch mem.nodes.length c ∧
        ¬ mem2.view.ch q c) ∧
      (∀ Children2 : ChildrenVariant,
        (∀ C, C ∈ Children2.pointers FM ↔ C ∈ Children.pointers FM) →
        ∃ mem3, AddRelationshipToModel.call Kind Parent Children2 mem FM =
            .ok (some mem.nodes.length, mem3,
              { FM with relationships := FM.relationships ++ [mem.nodes.length] }) ∧
          mem3.view = mem2.view) := by
  obtain ⟨m2, m3, m4, h2, h3, v3, hcall, l4, k4, n4, p4, c4⟩ :=
    AddRelationshipToModel_call_run mem FM Kind Parent Children p hP hp hC
  have hlive : ∀ c : Nat, some c ∈ Children.pointers FM → c < mem.nodes.length := by
    intro c hc
    obtain ⟨c2, q, hc2, hclt, -, -⟩ := hasLiveParent_iff (hC _ hc)
    cases hc2
    exact hclt
  have hLnot : ¬ some mem.nodes.length ∈ Children.pointers FM :=
    fun h => Nat.lt_irrefl _ (hlive _ h)
  have hpne : p ≠ mem.view.len := Nat.ne_of_lt hp
  have hLL : mem.view.len = mem.nodes.length := rfl
  refine ⟨m4, hcall, ?_, ?_, ?_, ?_, ?_, ?_⟩
  · rw [l4, v3]; rfl
  · rw [k4, v3]
    simp [View.addEdge, View.setParent, View.alloc, Relationship.make, hLL]
  · rw [p4, if_neg hLnot, v3]
    simp [View.addEdge, View.setParent, hLL]
  · refine (c4 _ _).mpr (Or.inr ⟨?_, fun h => hLnot h.1⟩)
    rw [v3]
    exact Or.inr ⟨rfl, rfl⟩
  · intro c q hc hcq
    have hclt := hlive c hc
    have hcne : c ≠ mem.view.len := Nat.ne_of_lt hclt
    have hqlt : q < mem.nodes.length := by
      obtain ⟨c2, q2, hc2, -, hcq2, hq2⟩ := hasLiveParent_iff (hC _ hc)
      cases hc2
      rw [hcq] at hcq2
      cases hcq2
      exact hq2
    have hqne : q ≠ mem.nodes.length := Nat.ne_of_lt hqlt
    have hpar3 : m3.view.par c = some q := by
      rw [v3]
      simp only [View.addEdge, View.setParent, View.alloc, if_neg hcne]
      exact hcq
    refine ⟨by rw [p4, if_pos hc], (c4 _ _).mpr (Or.inl ⟨rfl, hc⟩), ?_⟩
    intro h
    rcases (c4 _ _).mp h with ⟨h1, -⟩ | ⟨-, h3⟩
    · exact hqne h1
    · exact h3 ⟨hc, hpar3⟩
  · intro Children2 hsame
    obtain ⟨m2b, m3b, m4b, h2b, h3b, -, hcallb, l4b, k4b, n4b, p4b, c4b⟩ :=
      AddRelationshipToModel_call_run mem FM Kind Parent Children2 p hP hp
        (fun C hCm => hC C ((hsame C).mp hCm))
    have e2 : m2b = m2 := by
      rw [h2] at h2b
      exact (Except.ok.inj h2b).symm
    subst e2
    have e3 : m3b = m3 := by
      rw [h3] at h3b
      exact (Except.ok.inj h3b).symm
    subst e3
    refine ⟨m4b, hcallb, ?_⟩
    apply View_ext
    · rw [l4b, l4]
    · intro x
      rw [p4b, p4]
      by_cases hx : some x ∈ Children.pointers FM
      · rw [if_pos hx, if_pos ((hsame _).mpr hx)]
      · rw [if_neg hx, if_neg (fun h => hx ((hsame _).mp h))]
    · intro y z
      rw [c4b, c4, hsame]
    · intro x; rw [k4b, k4]
    · intro x; rw [n4b, n4]

/-- Claim C15 on the model with three features under the root: "b" and "c" are
grouped in an or-group under "a"; enumerating them as "c", "b" gives the same
result. -/
theorem C15_addRelationship_groups_children_witness :
    ∃ mem2, AddRelationshipToModel.call .RK_OR (.name "a") (.names ["b", "c"]) wideMemory
          wideModel =
        .ok (some 4, mem2, { wideModel with relationships := [4] }) ∧
      mem2.view.kind 4 = some (NodeKind.NK_RELATIONSHIP .RK_OR) ∧
      mem2.view.par 4 = some 1 ∧ mem2.view.ch 1 4 ∧
      (mem2.view.par 2 = some 4 ∧ mem2.view.ch 4 2 ∧ ¬ mem2.view.ch 0 2) ∧
      (mem2.view.par 3 = some 4 ∧ mem2.view.ch 4 3 ∧ ¬ mem2.view.ch 0 3) ∧
      ∃ mem3, AddRelationshipToModel.call .RK_OR (.name "a") (.names ["c", "b"]) wideMemory
            wideModel =
          .ok (some 4, mem3, { wideModel with relationships := [4] }) ∧
        mem3.view = mem2.view := by
  obtain ⟨mem2, h1, _, h3, h4, h5, h6, h7⟩ :=
    C15_addRelationship_groups_children wideMemory wideModel .RK_OR (.name "a")
      (.names ["b", "c"]) 1 (by decide) (by decide) (by decide)
  exact ⟨mem2, h1, h3, h4, h5, h6 2 0 (by decide) (by decide),
    h6 3 0 (by decide) (by decide), h7 (.names ["c", "b"])
      (fun C => by simp [ChildrenVariant.pointers, or_comm])⟩

/-! ## AddConstraintToModel -/

/-- Claim C16.  Let a primary feature constraint be built with a feature
instance `fh` whose name the model has registered for the feature `F`.
`AddConstraintToModel` returns the new constraint `C`; afterwards `C` is in the
constraint list of the model, the feature handle of `C` is `F`, the constraint
set of `F` contains `C`, and nothing else about any tree node has changed.  For
a constraint of any other kind the command inserts the constraint as it is and
leaves every tree node as it was. -/
theorem C16_addConstraint_binds_feature (mem : Memory) (FM : FeatureModel)
    (fh F : Handle) (fn Fn : FeatureTreeNode)
    (hfh : mem.nodes[fh]? = some fn) (hF : FM.getFeature fn.name = some F)
    (hFn : mem.nodes[F]? = some Fn) :
    (∃ mem2 FM2, AddConstraintToModel.call (some (.primary (some fh))) mem FM
          = .ok (some mem.constraints.length, mem2, FM2) ∧
        FM2 = { FM with constraints := FM.constraints ++ [mem.constraints.length] } ∧
        mem.constraints.length ∈ FM2.constraints ∧
        mem2.constraints = mem.constraints ++ [Constraint.primary (some F)] ∧
        mem2.constraints[mem.constraints.length]? = some (Constraint.primary (some F)) ∧
        mem2.nodes = mem.nodes.set F (Fn.addConstraint mem.constraints.length) ∧
        (∃ n, mem2.nodes[F]? = some n ∧ mem.constraints.length ∈ n.constraints ∧
          n.kind = Fn.kind ∧ n.name = Fn.name ∧ n.parent = Fn.parent ∧
          n.children = Fn.children) ∧
        (∀ x : Nat, x ≠ F → mem2.nodes[x]? = mem.nodes[x]?)) ∧
    (∀ t : Nat, AddConstraintToModel.call (some (.other t)) mem FM
        = .ok (some mem.constraints.length,
            { mem with constraints := mem.constraints ++ [Constraint.other t] },
            { FM with constraints := FM.constraints ++ [mem.constraints.length] })) := by
  have hFlt : F < mem.nodes.length := lt_of_getElem?_eq_some hFn
  constructor
  · refine ⟨{ nodes := mem.nodes.set F (Fn.addConstraint mem.constraints.length),
              constraints := mem.constraints ++ [Constraint.primary (some F)] },
      { FM with constraints := FM.constraints ++ [mem.constraints.length] },
      ?_, rfl, by simp, rfl, by simp, rfl, ?_, ?_⟩
    · have hF2 : ({ FM with constraints := FM.constraints ++ [mem.constraints.length] } :
          FeatureModel).getFeature fn.name = some F := hF
      simp [AddConstraintToModel.call, FeatureModelModification.addConstraint,
        FeatureModel.addConstraint, AddConstraintToModel.visit, Memory.constraint,
        deref, Memory.node, hfh, hF2, FeatureModelModification.setFeature,
        Memory.modifyConstraint, Constraint.setFeature,
        FeatureModelModification.addConstraintToFeature, Memory.modifyNode, hFn, bind,
        Except.bind, pure, Except.pure]
    · refine ⟨Fn.addConstraint mem.constraints.length, by simp [hFlt], ?_⟩
      unfold FeatureTreeNode.addConstraint
      by_cases hin : mem.constraints.length ∈ Fn.constraints
      · simp [hin]
      · simp [hin]
    · intro x hx
      simp only []
      rw [List.getElem?_set_ne (Ne.symm hx)]
  · intro t
    simp [AddConstraintToModel.call, FeatureModelModification.addConstraint,
      FeatureModel.addConstraint, AddConstraintToModel.visit, Memory.constraint, bind,
      Except.bind, pure, Except.pure]

/-- Claim C16 on a clone of the model of the tests: the constraint is built with
the feature "a" of the original model (address 1) and ends up bound to the
feature "a" the clone owns (address 3). -/
theorem C16_addConstraint_binds_feature_witness :
    ∃ mem2 FM2, AddConstraintToModel.call (some (.primary (some 1)))
          (exampleModel.clone exampleMemory).1 (exampleModel.clone exampleMemory).2
          = .ok (some 0, mem2, FM2) ∧
        0 ∈ FM2.constraints ∧
        mem2.constraints[0]? = some (Constraint.primary (some 3)) ∧
        (∃ n, mem2.nodes[3]? = some n ∧ 0 ∈ n.constraints) := by
  obtain ⟨⟨mem2, FM2, h1, _, h3, _, h5, _, ⟨n, h7, h8, _⟩, _⟩, _⟩ :=
    C16_addConstraint_binds_feature (exampleModel.clone exampleMemory).1
      (exampleModel.clone exampleMemory).2 1 3
      { kind := .NK_FEATURE, name := "a", parent := some 0, children := [], constraints := [] }
      { kind := .NK_FEATURE, name := "a", parent := some 2, children := [], constraints := [] }
      (by decide) (by decide) (by decide)
  exact ⟨mem2, FM2, h1, h3, h5, n, h7, h8⟩

/-! ## A transaction without mutations -/

/-- The copy of the object at `x` is at `x + off`. -/
theorem clone_node (mem : Memory) (FM : FeatureModel) (x : Nat) (n : FeatureTreeNode)
    (hn : mem.nodes[x]? = some n) :
    (FM.clone mem).1.nodes[x + mem.nodes.length]? =
      some (n.relocate mem.nodes.length mem.constraints.length) := by
  have hx : x < mem.nodes.length := lt_of_getElem?_eq_some hn
  simp only [FeatureModel.clone]
  rw [List.getElem?_append_right (Nat.le_add_left _ _)]
  simp [hn]

/-- The view of the clone at the copies is the view of the arena before, moved by
the size of the arena. -/
theorem clone_view (mem : Memory) (FM : FeatureModel) (x : Nat)
    (hx : x < mem.nodes.length) :
    (FM.clone mem).1.view.par (x + mem.nodes.length)
        = (mem.view.par x).map (· + mem.nodes.length) ∧
      (FM.clone mem).1.view.kind (x + mem.nodes.length) = mem.view.kind x ∧
      (FM.clone mem).1.view.name (x + mem.nodes.length) = mem.view.name x ∧
      (∀ z2, (FM.clone mem).1.view.ch (x + mem.nodes.length) z2 ↔
        ∃ z, z2 = z + mem.nodes.length ∧ mem.view.ch x z) := by
  obtain ⟨n, hn⟩ := getElem?_of_lt mem.nodes hx
  have hc := clone_node mem FM x n hn
  refine ⟨?_, ?_, ?_, ?_⟩
  · simp [Memory.view, hc, hn, FeatureTreeNode.relocate]
  · simp [Memory.view, hc, hn, FeatureTreeNode.relocate]
  · simp [Memory.view, hc, hn, FeatureTreeNode.relocate]
  · intro z2
    simp only [Memory.view, hc, hn, FeatureTreeNode.relocate, Option.some.injEq]
    constructor
    · rintro ⟨n2, h1, h2⟩
      subst h1
      simp only [List.mem_map] at h2
      obtain ⟨z, hz, rfl⟩ := h2
      exact ⟨z, rfl, n, rfl, hz⟩
    · rintro ⟨z, rfl, n2, h1, h2⟩
      subst h1
      exact ⟨_, rfl, by simp only [List.mem_map]; exact ⟨z, h2, rfl⟩⟩

theorem clone_len (mem : Memory) (FM : FeatureModel) :
    (FM.clone mem).1.view.len = mem.nodes.length + mem.nodes.length := by
  simp [Memory.view, FeatureModel.clone]

theorem clone_treeNodes (mem : Memory) (FM : FeatureModel) :
    (FM.clone mem).2.treeNodes = FM.treeNodes.map (· + mem.nodes.length) := by
  simp [FeatureModel.clone, FeatureModel.treeNodes]

/-- The clone of a model that satisfies the consistency rules satisfies them. -/
theorem clone_valid (mem : Memory) (FM : FeatureModel)
    (hv : isFeatureModelValid mem FM = true) :
    isFeatureModelValid (FM.clone mem).1 (FM.clone mem).2 = true := by
  simp only [isFeatureModelValid, Bool.and_eq_true] at hv ⊢
  obtain ⟨⟨h1, h2⟩, h3⟩ := hv
  have h1b := (ExactlyOneRootNode_iff mem FM).mp h1
  have h2b := (EveryFeatureRequiresParent_iff mem FM).mp h2
  have h3b := (CheckFeatureParentChildRelationShip_iff mem FM).mp h3
  have hb := Memory_view_bounded mem
  refine ⟨⟨?_, ?_⟩, ?_⟩
  · rw [ExactlyOneRootNode_iff]
    have hf : (FM.clone mem).2.features
        = FM.features.map (fun e => (e.1, e.2 + mem.nodes.length)) := rfl
    rw [hf, List.countP_map, ← h1b]
    apply List.countP_congr
    intro e he
    have hlt : e.2 < mem.nodes.length :=
      (h2b e.2 (by simp only [FeatureModel.treeNodes, List.mem_append, List.mem_map]
                   exact Or.inl ⟨e, he, rfl⟩)).1
    simp only [Function.comp]
    rw [(clone_view mem FM e.2 hlt).2.1]
  · rw [EveryFeatureRequiresParent_iff, clone_treeNodes]
    intro x2 hx2
    simp only [List.mem_map] at hx2
    obtain ⟨x, hx, rfl⟩ := hx2
    obtain ⟨hlt, hor⟩ := h2b x hx
    have hlt2 : x < mem.nodes.length := hlt
    obtain ⟨cp, ck, -, -⟩ := clone_view mem FM x hlt2
    refine ⟨by rw [clone_len]; exact Nat.add_lt_add_right hlt2 _, ?_⟩
    rw [cp, ck]
    rcases hor with h | h
    · exact Or.inl h
    · right
      cases hpar : mem.view.par x with
      | none => rw [hpar] at h; cases h
      | some q => rfl
  · rw [CheckFeatureParentChildRelationShip_iff, clone_treeNodes]
    intro x2 hx2
    simp only [List.mem_map] at hx2
    obtain ⟨x, hx, rfl⟩ := hx2
    obtain ⟨hlt, hup, hdown⟩ := h3b x hx
    have hlt2 : x < mem.nodes.length := hlt
    obtain ⟨cp, -, -, cc⟩ := clone_view mem FM x hlt2
    refine ⟨by rw [clone_len]; exact Nat.add_lt_add_right hlt2 _, ?_, ?_⟩
    · intro y2 hy2
      rw [cp] at hy2
      cases hpar : mem.view.par x with
      | none => rw [hpar] at hy2; cases hy2
      | some y =>
        rw [hpar] at hy2
        simp only [Option.map_some', Option.some.injEq] at hy2
        subst hy2
        have hch := hup y hpar
        have hylt : y < mem.nodes.length := by
          obtain ⟨n, hn, -⟩ := hch
          exact lt_of_getElem?_eq_some hn
        exact ((clone_view mem FM y hylt).2.2.2 _).mpr ⟨x, rfl, hch⟩
    · intro z2 hz2
      obtain ⟨z, rfl, hz⟩ := (cc z2).mp hz2
      have hpz := hdown z hz
      have hzlt : z < mem.nodes.length := par_lt_of_bounded hb hpz
      rw [(clone_view mem FM z hzlt).1, hpz]
      rfl

/-- Claim C17.  On a model that satisfies the consistency rules, a transaction
that is opened and committed without a mutation call succeeds.  In copy mode
commit returns a model; no feature object of it is a feature object of the
original; it has the size, the metadata and the feature names of the original;
under every name it has the copy of the feature the original has under that
name; its root is the copy of the root; and the copy of every tree node has the
kind and the name of the node and has the copy of its parent as its parent.  In
modify mode commit returns true, and the arena and the live model are the ones
from before. -/
theorem C17_empty_transaction_preserves_model (ord : SortOrder) (mem : Memory)
    (FM : FeatureModel) (hv : isFeatureModelValid mem FM = true) :
    (∃ S U, CopySession.openTransaction mem FM = .ok S ∧ S.commit.1 = some U ∧
      (∀ e ∈ U.features, ∀ e0 ∈ FM.features, e.2 ≠ e0.2) ∧
      U.size = FM.size ∧
      U.name = FM.name ∧ U.commit = FM.commit ∧ U.path = FM.path ∧
      U.features.map Prod.fst = FM.features.map Prod.fst ∧
      (∀ Name, U.getFeature Name = (FM.getFeature Name).map (· + mem.nodes.length)) ∧
      U.root = FM.root.map (· + mem.nodes.length) ∧
      (∀ x ∈ FM.treeNodes,
        S.commit.2.mem.view.par (x + mem.nodes.length)
          = (mem.view.par x).map (· + mem.nodes.length) ∧
        S.commit.2.mem.view.kind (x + mem.nodes.length) = mem.view.kind x ∧
        S.commit.2.mem.view.name (x + mem.nodes.length) = mem.view.name x)) ∧
    (∃ S S2, ModifySession.openTransaction mem FM = .ok S ∧
      S.commit ord = .ok (true, S2) ∧ S2.mem = mem ∧ S2.live = FM) := by
  have hcv := clone_valid mem FM hv
  have h2b := (EveryFeatureRequiresParent_iff mem FM).mp
    (by simp only [isFeatureModelValid, Bool.and_eq_true] at hv; exact hv.1.2)
  constructor
  · refine ⟨{ mem := (FM.clone mem).1, original := FM, T := { FM := some (FM.clone mem).2 } },
      (FM.clone mem).2, ?_, ?_, ?_, ?_, rfl, rfl, rfl, ?_, ?_, rfl, ?_⟩
    · simp [CopySession.openTransaction, FeatureModelCopyTransaction.openTransaction, hv,
        FeatureModelCopyTransactionBase.mk_, bind, Except.bind, pure, Except.pure]
    · simp [CopySession.commit, FeatureModelCopyTransaction.commit,
        FeatureModelCopyTransactionBase.commitImpl, hcv]
    · intro e he e0 he0
      simp only [FeatureModel.clone, List.mem_map] at he
      obtain ⟨e1, he1, rfl⟩ := he
      have hlt : e0.2 < mem.nodes.length :=
        (h2b e0.2 (by simp only [FeatureModel.treeNodes, List.mem_append, List.mem_map]
                      exact Or.inl ⟨e0, he0, rfl⟩)).1
      intro heq
      simp only [] at heq
      rw [← heq] at hlt
      exact Nat.not_lt.mpr (Nat.le_add_left _ _) hlt
    · simp [FeatureModel.size, FeatureModel.clone]
    · simp [FeatureModel.clone, Function.comp]
    · intro Name
      simp only [FeatureModel.getFeature, FeatureModel.clone, List.find?_map, Option.map_map]
      rfl
    · intro x hx
      have hlt : x < mem.nodes.length := (h2b x hx).1
      obtain ⟨cp, ck, cn, -⟩ := clone_view mem FM x hlt
      exact ⟨cp, ck, cn⟩
  · refine ⟨{ mem := mem, live := FM, T := { FM := true, Modifications := [] } },
      { mem := mem, live := FM, T := { FM := false, Modifications := [] } },
      ModifySession_openTransaction_valid mem FM hv, ?_, rfl, rfl⟩
    rw [ModifySession_commit_open ord _ rfl]
    simp [execAll, Except.map, hv]

/-- Claim C17 on the model of the tests. -/
theorem C17_empty_transaction_preserves_model_witness :
    (∃ S U, CopySession.openTransaction exampleMemory exampleModel = .ok S ∧
      S.commit.1 = some U ∧ U.size = exampleModel.size ∧
      U.getFeature "a" = some 3 ∧ S.commit.2.mem.view.par 3 = some 2 ∧ U.root = some 2) ∧
    (∃ S S2, ModifySession.openTransaction exampleMemory exampleModel = .ok S ∧
      S.commit registryOrder = .ok (true, S2) ∧ S2.mem = exampleMemory ∧
      S2.live = exampleModel) := by
  obtain ⟨⟨S, U, h1, h2, _, h4, _, _, _, _, h9, h10, h11⟩, hm⟩ :=
    C17_empty_transaction_preserves_model registryOrder exampleMemory exampleModel (by decide)
  exact ⟨⟨S, U, h1, h2, h4, by rw [h9]; decide,
    (h11 1 (by decide)).1.trans (by decide), by rw [h10]; decide⟩, hm⟩

/-! ## A failed commit in copy mode -/

/-- Claim C18, amended.  When the clone a copy-mode transaction holds fails the
consistency check, commit returns null and leaves the transaction as it was: it
still holds the clone and still reports itself as uncommitted, so the check the
destructor makes fails at that point.  A call of abort drops the clone, and
after it the destructor's check passes. -/
theorem C18_copy_failed_commit_keeps_clone (S : CopySession) (U : FeatureModel)
    (hU : S.T.FM = some U) (hinv : isFeatureModelValid S.mem U = false) :
    S.commit = (none, S) ∧
    S.commit.2.T.FM = some U ∧
    S.commit.2.T.isUncommited = true ∧
    S.commit.2.destroy = .error .assertion ∧
    S.commit.2.abort.T.FM = none ∧
    S.commit.2.abort.destroy = .ok () := by
  have h : S.commit = (none, S) := by
    simp [CopySession.commit, FeatureModelCopyTransaction.commit,
      FeatureModelCopyTransactionBase.commitImpl, hU, hinv]
  rw [h]
  refine ⟨rfl, hU, ?_, ?_, rfl, rfl⟩
  · simp [FeatureModelCopyTransactionBase.isUncommited, hU]
  · simp [CopySession.destroy, FeatureModelCopyTransaction.destroy,
      FeatureModelCopyTransactionBase.isUncommited, hU]

/-- The amended claim C18 on a transaction whose clone is the model of the tests
with its root pointer cleared and with no feature registered, which the check
rejects. -/
theorem C18_copy_failed_commit_keeps_clone_witness :
    ({ mem := exampleMemory, original := exampleModel,
       T := { FM := some { exampleModel with features := [] } } } : CopySession).commit
      = (none, { mem := exampleMemory, original := exampleModel,
                 T := { FM := some { exampleModel with features := [] } } }) ∧
    ({ mem := exampleMemory, original := exampleModel,
       T := { FM := some { exampleModel with features := [] } } } : CopySession).commit.2.T.FM
      = some { exampleModel with features := [] } ∧
    ({ mem := exampleMemory, original := exampleModel,
       T := { FM := some { exampleModel with features := [] } } }
      : CopySession).commit.2.T.isUncommited = true ∧
    ({ mem := exampleMemory, original := exampleModel,
       T := { FM := some { exampleModel with features := [] } } }
      : CopySession).commit.2.destroy = .error .assertion ∧
    ({ mem := exampleMemory, original := exampleModel,
       T := { FM := some { exampleModel with features := [] } } }
      : CopySession).commit.2.abort.T.FM = none ∧
    ({ mem := exampleMemory, original := exampleModel,
       T := { FM := some { exampleModel with features := [] } } }
      : CopySession).commit.2.abort.destroy = .ok () :=
  C18_copy_failed_commit_keeps_clone
    { mem := exampleMemory, original := exampleModel,
      T := { FM := some { exampleModel with features := [] } } }
    { exampleModel with features := [] } rfl (by decide)

/-- Claim C18 as stated fails.  A copy-mode transaction is opened on the model of
the tests and a second root feature "r2" is added, which leaves the clone with
two roots.  Commit returns null, and after it the transaction still holds its
clone, still reports itself as uncommitted, and the destructor's check fails. -/
theorem C18_failed_commit_leaves_transaction_open :
    (do let S0 ← CopySession.openTransaction exampleMemory exampleModel
        let S1 ← S0.calls registryOrder invalidExampleCalls
        pure (S1.commit.1.isSome, S1.commit.2.T.FM.isSome, S1.commit.2.T.isUncommited,
          S1.commit.2.destroy)
      : Except Fault (Bool × Bool × Bool × Except Fault Unit)) =
      .ok (false, true, true, .error .assertion) := by
  rfl

/-! ## The metadata commands -/

/-- Claim C19.  Executing `SetName`, `SetCommit` or `SetPath`, with any value,
returns; the model afterwards has the value in that metadata field; the two other
metadata fields, the registry, the root, the relationships, the constraints and
the sort order are the same as before; and the arena, which holds every parent
pointer, child set and constraint object, is the same as before. -/
theorem C19_metadata_commands (ord : SortOrder) (mem : Memory) (FM : FeatureModel)
    (Value : String) :
    (Modification.SetName Value).exec ord mem FM = .ok (mem, { FM with name := Value }) ∧
    (Modification.SetCommit Value).exec ord mem FM = .ok (mem, { FM with commit := Value }) ∧
    (Modification.SetPath Value).exec ord mem FM = .ok (mem, { FM with path := Value }) ∧
    SetName.call Value FM = { FM with name := Value } ∧
    SetCommit.call Value FM = { FM with commit := Value } ∧
    SetPath.call Value FM = { FM with path := Value } :=
  ⟨rfl, rfl, rfl, rfl, rfl, rfl⟩

/-! ## The destructor in modify mode -/

/-- Claim C20.  When a modify-mode transaction that is still open is destroyed,
the destructor runs commit: arena, live model and transaction object afterwards
are the ones a call of commit at that point leaves (and the destructor hits a
fault exactly when that commit does), and the arena and live model it leaves are
the recorded commands executed first to last on the state before. -/
theorem C20_modify_destroy_commits (ord : SortOrder) (S : ModifySession)
    (hopen : S.T.isUncommited = true) :
    S.destroy ord = (S.commit ord).map Prod.snd ∧
    (S.destroy ord).map (fun S2 => (S2.mem, S2.live)) =
      S.T.Modifications.foldlM (fun s m => m.exec ord s.1 s.2) (S.mem, S.live) := by
  have hFM : S.T.FM = true := hopen
  have h1 : S.destroy ord = (S.commit ord).map Prod.snd := by
    simp only [ModifySession.destroy, FeatureModelModifyTransaction.destroy, hopen,
      ModifySession.commit, if_true, bind, Except.bind, Except.map, pure, Except.pure]
    cases FeatureModelModifyTransaction.commit ord S.mem S.live S.T with
    | error e => rfl
    | ok r => rfl
  refine ⟨h1, ?_⟩
  rw [h1, ModifySession_commit_open ord S hFM, execAll_eq_foldlM]
  cases List.foldlM (fun s m => m.exec ord s.1 s.2) (S.mem, S.live) S.T.Modifications with
  | error e => rfl
  | ok r => rfl

/-- Claim C20 on the model of the tests: six commands are recorded and the
transaction is destroyed without a commit. -/
theorem C20_modify_destroy_commits_witness :
    ({ mem := exampleMemory, live := exampleModel,
       T := { FM := true, Modifications := modifyExampleCalls.map Call.toModification } }
      : ModifySession).destroy registryOrder =
      (({ mem := exampleMemory, live := exampleModel,
          T := { FM := true, Modifications := modifyExampleCalls.map Call.toModification } }
        : ModifySession).commit registryOrder).map Prod.snd ∧
    (({ mem := exampleMemory, live := exampleModel,
        T := { FM := true, Modifications := modifyExampleCalls.map Call.toModification } }
      : ModifySession).destroy registryOrder).map (fun S2 => (S2.mem, S2.live)) =
      (modifyExampleCalls.map Call.toModification).foldlM
        (fun s m => m.exec registryOrder s.1 s.2) (exampleMemory, exampleModel) :=
  C20_modify_destroy_commits registryOrder
    { mem := exampleMemory, live := exampleModel,
      T := { FM := true, Modifications := modifyExampleCalls.map Call.toModification } } rfl

/-! ## The list of recorded commands after commit -/

/-- Claim C21, where the code diverges.  Commit never empties the list: whenever
commit on an open transaction returns, the list holds every recorded command in
its moved-from state, and the transaction is closed exactly when commit
returned true.  On the model of the tests, `setName`, `addRelationship` with an
empty set of children and `addFeature` of a second root feature are recorded.
Commit returns false, the list still has its three commands, and the
transaction is still open.  The destructor therefore commits again and runs the
list from its start: it faults on the `AddFeatureToModel` whose owning pointer
was moved from, after the two commands before it have run a second time, which
leaves two relationship nodes (addresses 2 and 4) where one was asked for. -/
theorem C21_failed_commit_runs_commands_again :
    (∀ (ord : SortOrder) (mem : Memory) (live : FeatureModel) (ms : List Modification),
      match ModifySession.commit ord
          { mem := mem, live := live, T := { FM := true, Modifications := ms } } with
      | .ok (b, S2) =>
        S2.T.Modifications = ms.map Modification.afterExec ∧ S2.T.FM = !b
      | .error _ => True) ∧
    (do let S ← ModifySession.openTransaction exampleMemory exampleModel
        let S ← S.calls failingExampleCalls
        let (b, S1) ← S.commit registryOrder
        pure (b, S1.T.Modifications.length, S1.T.isUncommited, S1.live.relationships,
          S1.destroy registryOrder, S1.commit registryOrder,
          (execAll registryOrder (S1.T.Modifications.take 2) S1.mem S1.live).map
            (fun (r : Memory × FeatureModel) => r.2.relationships))
      : Except Fault (Bool × Nat × Bool × List Handle × Except Fault ModifySession ×
          Except Fault (Bool × ModifySession) × Except Fault (List Handle))) =
      .ok (false, 3, true, [2], .error .badDeref, .error .badDeref, .ok [2, 4]) := by
  constructor
  · intro ord mem live ms
    rw [ModifySession_commit_open ord _ rfl]
    simp only []
    cases execAll ord ms mem live with
    | error e => simp [Except.map]
    | ok r => simp [Except.map]
  · rfl

/-! ## The commands in closed form -/

/-- The run of `AddFeatureToModel` for a fresh name when the new feature goes
under the object `q`. -/
theorem AddFeatureToModel_call_run_linked (mem : Memory) (FM : FeatureModel)
    (f : FeatureTreeNode) (Parent : Option Handle) (q : Nat)
    (hfresh : FM.getFeature f.name = none)
    (hq : (Parent <|> FM.getRoot) = some q) (hqlt : q < mem.nodes.length) :
    ∃ mem2, AddFeatureToModel.call (some f) Parent mem FM =
        .ok (some mem.nodes.length, mem2,
          { FM with features := FM.features ++ [(f.name, mem.nodes.length)] }) ∧
      mem2.view = ((mem.view.alloc f).setParent mem.view.len q).addEdge q mem.view.len := by
  obtain ⟨m2, m3, h2, h3, v3⟩ := link_steps mem f q hqlt
  refine ⟨m3, ?_, v3⟩
  cases Parent with
  | some p =>
    have hpq : p = q := by simpa using hq
    subst hpq
    simp [AddFeatureToModel.call, FeatureModelModification.addFeature,
      FeatureModel.addFeature, hfresh, h2, h3, bind, Except.bind, pure, Except.pure]
  | none =>
    have hrq : FM.root = some q := hq
    simp [AddFeatureToModel.call, FeatureModelModification.addFeature,
      FeatureModel.addFeature, FeatureModel.getRoot, hrq, hfresh, h2, h3, bind, Except.bind,
      pure, Except.pure]

/-- The run of `SetRoot` when the name of the new root is taken. -/
theorem SetRoot_call_run_taken (ord : SortOrder) (mem : Memory) (FM : FeatureModel)
    (f : FeatureTreeNode) (h : Handle) (hdup : FM.getFeature f.name = some h) :
    SetRoot.call ord (some f) mem FM = .ok (FM.root, mem, FM.sort ord mem) := by
  simp [SetRoot.call, FeatureModelModification.addFeature, FeatureModel.addFeature, hdup,
    dyn_cast_or_null_RootFeature, FeatureModel.sort, FeatureModel.getRoot, bind, Except.bind,
    pure, Except.pure]

/-- The run of `SetRoot` when the new object has a fresh name and is no root
feature: it is stored and registered, and nothing else happens. -/
theorem SetRoot_call_run_cast_fails (ord : SortOrder) (mem : Memory) (FM : FeatureModel)
    (f : FeatureTreeNode) (hfresh : FM.getFeature f.name = none)
    (hk : f.kind ≠ NodeKind.NK_ROOT) :
    SetRoot.call ord (some f) mem FM =
      .ok (FM.root, { mem with nodes := mem.nodes ++ [f] },
        FeatureModel.sort ord { mem with nodes := mem.nodes ++ [f] }
          { FM with features := FM.features ++ [(f.name, mem.nodes.length)] }) := by
  simp [SetRoot.call, FeatureModelModification.addFeature, FeatureModel.addFeature, hfresh,
    dyn_cast_or_null_RootFeature, Memory.node, hk, FeatureModel.sort, FeatureModel.getRoot,
    bind, Except.bind, pure, Except.pure]

/-- The run of `SetRoot` with a fresh root feature on a model without a root. -/
theorem SetRoot_call_run_first (ord : SortOrder) (mem : Memory) (FM : FeatureModel)
    (f : FeatureTreeNode) (hfresh : FM.getFeature f.name = none)
    (hk : f.kind = NodeKind.NK_ROOT) (hr : FM.root = none) :
    SetRoot.call ord (some f) mem FM =
      .ok (some mem.nodes.length, { mem with nodes := mem.nodes ++ [f] },
        FeatureModel.sort ord { mem with nodes := mem.nodes ++ [f] }
          { FM with features := FM.features ++ [(f.name, mem.nodes.length)]
                    root := some mem.nodes.length }) := by
  have hroot1 : ({ FM with features := FM.features ++ [(f.name, mem.nodes.length)] } :
      FeatureModel).getRoot = none := hr
  simp [SetRoot.call, FeatureModelModification.addFeature, FeatureModel.addFeature, hfresh,
    dyn_cast_or_null_RootFeature, Memory.node, hk, hroot1, hr, FeatureModel.setRoot,
    FeatureModel.sort, FeatureModel.getRoot, bind, Except.bind, pure, Except.pure]

/-- The run of `SetRoot` with a fresh root feature on a model with a root `R`
whose children are objects. -/
theorem SetRoot_call_run_replace (ord : SortOrder) (mem : Memory) (FM : FeatureModel)
    (f rn : FeatureTreeNode) (R : Nat) (hk : f.kind = NodeKind.NK_ROOT)
    (hfresh : FM.getFeature f.name = none) (hr : FM.root = some R)
    (hrn : mem.nodes[R]? = some rn) (hch : ∀ C ∈ rn.children, C < mem.nodes.length) :
    ∃ mem2, SetRoot.call ord (some f) mem FM =
        .ok (some mem.nodes.length, mem2,
          FeatureModel.sort ord mem2
            { FM with
              features := (FM.features ++ [(f.name, mem.nodes.length)]).filter
                (fun e => !(e.1 == rn.name))
              root := some mem.nodes.length }) ∧
      mem2.view.len = mem.view.len + 1 ∧
      mem2.view.kind = (mem.view.alloc f).kind ∧
      mem2.view.name = (mem.view.alloc f).name ∧
      (∀ x, mem2.view.par x =
        if x ∈ rn.children then some mem.nodes.length else (mem.view.alloc f).par x) ∧
      (∀ y z, mem2.view.ch y z ↔
        ((y = mem.nodes.length ∧ z ∈ rn.children) ∨
          ((mem.view.alloc f).ch y z ∧ ¬ (y = R ∧ z ∈ rn.children)))) := by
  have hRlt : R < mem.nodes.length := lt_of_getElem?_eq_some hrn
  have hne : R ≠ mem.nodes.length := Nat.ne_of_lt hRlt
  have v1 : ({ mem with nodes := mem.nodes ++ [f] } : Memory).view = mem.view.alloc f :=
    Memory_view_append mem f
  have hrn1 : (mem.nodes ++ [f])[R]? = some rn := by
    rw [List.getElem?_append_left hRlt, hrn]
  obtain ⟨m2, h2, l2, k2, n2, p2, c2⟩ := SetRoot_loop_view hne rn.children
    { mem with nodes := mem.nodes ++ [f] }
    (by rw [v1]; exact Nat.lt_succ_of_lt hRlt) (by rw [v1]; exact Nat.lt_succ_self _)
    (fun C hC => by rw [v1]; exact Nat.lt_succ_of_lt (hch C hC))
  have hname2 : m2.view.name R = some rn.name := by
    have hne3 : R ≠ mem.view.len := hne
    rw [n2, v1]
    simp only [View.alloc]
    rw [if_neg hne3]
    simp [Memory.view, hrn]
  obtain ⟨rn2, hrn2, hrn2name⟩ := view_name_node hname2
  rw [v1] at l2 k2 n2 p2 c2
  refine ⟨m2, ?_, l2, k2, n2, p2, c2⟩
  have hroot1 : ({ FM with features := FM.features ++ [(f.name, mem.nodes.length)] } :
      FeatureModel).getRoot = some R := hr
  simp [SetRoot.call, FeatureModelModification.addFeature, FeatureModel.addFeature, hfresh,
    dyn_cast_or_null_RootFeature, Memory.node, hk, hroot1, hr, hrn1, h2,
    FeatureModel.removeFeature, hrn2, hrn2name, FeatureModel.setRoot, FeatureModel.getRoot,
    FeatureModel.sort, bind, Except.bind, pure, Except.pure]

/-- The run of `AddConstraintToModel` on a primary feature constraint whose
feature is an object with a name registered for an object: parents, children,
kinds and names stay as they are. -/
theorem AddConstraintToModel_call_run (mem : Memory) (FM : FeatureModel)
    (fh F : Handle) (fn : FeatureTreeNode)
    (hfh : mem.nodes[fh]? = some fn) (hF : FM.getFeature fn.name = some F)
    (hFlt : F < mem.nodes.length) :
    ∃ mem2, AddConstraintToModel.call (some (.primary (some fh))) mem FM
          = .ok (some mem.constraints.length, mem2,
              { FM with constraints := FM.constraints ++ [mem.constraints.length] }) ∧
        mem2.view = mem.view := by
  obtain ⟨m1, h1, v1⟩ := setFeature_view
    { mem with constraints := mem.constraints ++ [Constraint.primary (some fh)] }
    mem.constraints.length F (by simp)
  have l1 : m1.nodes.length = mem.nodes.length := by
    rw [view_len_eq v1]; rfl
  obtain ⟨m2, h2, v2⟩ := addConstraintToFeature_view m1 F mem.constraints.length
    (by rw [l1]; exact hFlt)
  have hget : (mem.constraints ++ [Constraint.primary (some fh)])[mem.constraints.length]?
      = some (Constraint.primary (some fh)) := by simp
  refine ⟨m2, ?_, by rw [v2, v1]; rfl⟩
  have hF2 : ({ FM with constraints := FM.constraints ++ [mem.constraints.length] } :
      FeatureModel).getFeature fn.name = some F := hF
  simp [AddConstraintToModel.call, FeatureModelModification.addConstraint,
    FeatureModel.addConstraint, AddConstraintToModel.visit, Memory.constraint, hget,
    deref, Memory.node, hfh, hF2, h1, h2, bind, Except.bind, pure, Except.pure]

/-- The run of `AddConstraintToModel` on a constraint of another kind. -/
theorem AddConstraintToModel_call_run_other (mem : Memory) (FM : FeatureModel) (t : Nat) :
    AddConstraintToModel.call (some (.other t)) mem FM
      = .ok (some mem.constraints.length,
          { mem with constraints := mem.constraints ++ [Constraint.other t] },
          { FM with constraints := FM.constraints ++ [mem.constraints.length] }) := by
  simp [AddConstraintToModel.call, FeatureModelModification.addConstraint,
    FeatureModel.addConstraint, AddConstraintToModel.visit, Memory.constraint, bind,
    Except.bind, pure, Except.pure]

/-! ## Parent pointers and child sets stay mutual -/

theorem mutual_alloc {v : View} (hm : v.mutual) (hb : v.bounded) (f : FeatureTreeNode)
    (hp : f.parent = none) (hc : f.children = []) : (v.alloc f).mutual := by
  intro x y
  simp only [View.alloc, hp, hc, List.not_mem_nil, and_false, or_false]
  by_cases hx : x = v.len
  · subst hx
    rw [if_pos rfl, hm, (hb v.len (Nat.le_refl _)).1]
  · rw [if_neg hx]
    exact hm x y

theorem mutual_alloc_link {v : View} (hm : v.mutual) (hb : v.bounded) (f : FeatureTreeNode)
    (hp : f.parent = none) (hc : f.children = []) (q : Nat) :
    (((v.alloc f).setParent v.len q).addEdge q v.len).mutual := by
  intro x y
  have h0 := mutual_alloc hm hb f hp hc x y
  simp only [View.addEdge, View.setParent] at h0 ⊢
  by_cases hx : x = v.len
  · subst hx
    rw [if_pos rfl, h0]
    have hpar : (v.alloc f).par v.len = none := by simp [View.alloc, hp]
    rw [hpar]
    simp only [and_true, Option.some.injEq]
    constructor
    · rintro (h | h)
      · cases h
      · exact h.symm
    · intro h; exact Or.inr h.symm
  · rw [if_neg hx, h0]
    simp [hx]

theorem mutual_reparent {v : View} (hm : v.mutual) {c q : Nat} (p : Nat)
    (hcq : v.par c = some q) : (((v.removeEdge q c).addEdge p c).setParent c p).mutual := by
  intro x y
  simp only [View.setParent, View.addEdge, View.removeEdge]
  by_cases hx : x = c
  · subst hx
    rw [if_pos rfl, hm, hcq]
    simp only [Option.some.injEq, and_true]
    constructor
    · rintro (⟨h1, h2⟩ | h)
      · exact absurd h1.symm h2
      · exact h.symm
    · intro h; exact Or.inr h.symm
  · rw [if_neg hx, hm]
    simp [hx]

theorem exec_of_AddFeatureToModel {ord : SortOrder} {mem mem2 : Memory}
    {FM FM2 : FeatureModel} {NewFeature : Option FeatureTreeNode} {Parent r : Option Handle}
    (h : AddFeatureToModel.call NewFeature Parent mem FM = .ok (r, mem2, FM2)) :
    (Modification.AddFeatureToModel NewFeature Parent).exec ord mem FM = .ok (mem2, FM2) := by
  simp [Modification.exec, h, Except.map]

theorem exec_of_AddRelationshipToModel {ord : SortOrder} {mem mem2 : Memory}
    {FM FM2 : FeatureModel} {Kind : RelationshipKind} {Parent : FeatureVariant}
    {Children : ChildrenVariant} {r : Option Handle}
    (h : AddRelationshipToModel.call Kind Parent Children mem FM = .ok (r, mem2, FM2)) :
    (Modification.AddRelationshipToModel Kind Parent Children).exec ord mem FM
      = .ok (mem2, FM2) := by
  simp [Modification.exec, h, Except.map]

theorem exec_of_AddConstraintToModel {ord : SortOrder} {mem mem2 : Memory}
    {FM FM2 : FeatureModel} {NewConstraint : Option Constraint} {r : Option CHandle}
    (h : AddConstraintToModel.call NewConstraint mem FM = .ok (r, mem2, FM2)) :
    (Modification.AddConstraintToModel NewConstraint).exec ord mem FM = .ok (mem2, FM2) := by
  simp [Modification.exec, h, Except.map]

theorem exec_of_SetRoot {ord : SortOrder} {mem mem2 : Memory}
    {FM FM2 : FeatureModel} {Root : Option FeatureTreeNode} {r : Option Handle}
    (h : SetRoot.call ord Root mem FM = .ok (r, mem2, FM2)) :
    (Modification.SetRoot Root).exec ord mem FM = .ok (mem2, FM2) := by
  simp [Modification.exec, h, Except.map]

/-- Claim C23.  Let parent pointers and child sets be mutual over the whole arena,
and let the operands of a command resolve on the model: owning pointers are set
and lead to objects that are not linked yet, parent references resolve to
objects, children to be moved have a parent.  The command returns, and
afterwards parent pointers and child sets are mutual again.  This holds for
`AddFeatureToModel`, `AddRelationshipToModel`, `AddChild` and `SetRoot`, and for
the four other commands as well. -/
theorem C23_commands_keep_links_mutual (ord : SortOrder) (mem : Memory) (FM : FeatureModel)
    (m : Modification) (hinv : mem.view.mutual) (hres : m.resolvesAt mem FM = true) :
    ∃ mem2 FM2, m.exec ord mem FM = .ok (mem2, FM2) ∧ mem2.view.mutual := by
  have hb := Memory_view_bounded mem
  cases m with
  | SetName Name => exact ⟨mem, _, rfl, hinv⟩
  | SetCommit Commit => exact ⟨mem, _, rfl, hinv⟩
  | SetPath Path => exact ⟨mem, _, rfl, hinv⟩
  | AddChild Parent Child =>
    simp only [Modification.resolvesAt, Bool.and_eq_true] at hres
    obtain ⟨hP, hC⟩ := hres
    obtain ⟨p, hp, hplt⟩ := isLive_iff hP
    obtain ⟨c, q, hc, hclt, hcq, hqlt⟩ := hasLiveParent_iff hC
    obtain ⟨cn, hcn, hcp⟩ := view_par_node hcq
    obtain ⟨m1, m2, m3, h1, h2, h3, v3⟩ := reparent_steps mem c q p hclt hqlt hplt
    refine ⟨m3, FM.sort ord m3, ?_, ?_⟩
    · simp [Modification.exec, AddChild.call, hp, hc, deref, Memory.node, hcn, hcp, h1, h2, h3,
        bind, Except.bind, pure, Except.pure]
    · rw [v3]; exact mutual_reparent hinv p hcq
  | AddFeatureToModel NewFeature Parent =>
    cases NewFeature with
    | none => simp [Modification.resolvesAt] at hres
    | some f =>
      simp only [Modification.resolvesAt, Bool.and_eq_true, beq_iff_eq] at hres
      obtain ⟨⟨hpar, hch⟩, hP⟩ := hres
      cases hgf : FM.getFeature f.name with
      | some x =>
        exact ⟨mem, FM,
          exec_of_AddFeatureToModel (AddFeatureToModel_call_duplicate mem FM f Parent x hgf),
          hinv⟩
      | none =>
        cases htarget : (Parent <|> FM.getRoot) with
        | some q =>
          have hqlt : q < mem.nodes.length := by
            cases Parent with
            | some p =>
              have hpq : p = q := by simpa using htarget
              subst hpq
              simpa using hP
            | none =>
              have hrq : FM.root = some q := htarget
              simpa [hrq] using hP
          obtain ⟨mem2, hcall, v2⟩ :=
            AddFeatureToModel_call_run_linked mem FM f Parent q hgf htarget hqlt
          refine ⟨mem2, _, exec_of_AddFeatureToModel hcall, ?_⟩
          rw [v2]
          exact mutual_alloc_link hinv hb f hpar hch q
        | none =>
          have hPn : Parent = none := by
            cases Parent with
            | some p => simp at htarget
            | none => rfl
          subst hPn
          have hroot : FM.getRoot = none := htarget
          refine ⟨{ mem with nodes := mem.nodes ++ [f] }, _,
            exec_of_AddFeatureToModel
              (AddFeatureToModel_call_fresh_unlinked mem FM f hgf hroot), ?_⟩
          rw [Memory_view_append]
          exact mutual_alloc hinv hb f hpar hch
  | AddConstraintToModel NewConstraint =>
    cases NewConstraint with
    | none => simp [Modification.resolvesAt] at hres
    | some k =>
      cases k with
      | other t =>
        exact ⟨_, _, exec_of_AddConstraintToModel (AddConstraintToModel_call_run_other mem FM t),
          hinv⟩
      | primary fo =>
        cases fo with
        | none => simp [Modification.resolvesAt] at hres
        | some fh =>
          cases hfn : mem.nodes[fh]? with
          | none => simp [Modification.resolvesAt, hfn] at hres
          | some fn =>
            simp only [Modification.resolvesAt, hfn] at hres
            obtain ⟨F, hF, hFlt⟩ := isLive_iff hres
            obtain ⟨mem2, hcall, v2⟩ := AddConstraintToModel_call_run mem FM fh F fn hfn hF hFlt
            refine ⟨mem2, _, exec_of_AddConstraintToModel hcall, ?_⟩
            rw [v2]; exact hinv
  | AddRelationshipToModel Kind Parent Children =>
    simp only [Modification.resolvesAt, Bool.and_eq_true, List.all_eq_true] at hres
    obtain ⟨hP, hC⟩ := hres
    obtain ⟨p, hp, hplt⟩ := isLive_iff hP
    obtain ⟨m2, m3, m4, h2, h3, v3, hcall, l4, k4, n4, p4, c4⟩ :=
      AddRelationshipToModel_call_run mem FM Kind Parent Children p hp hplt hC
    refine ⟨m4, _, exec_of_AddRelationshipToModel hcall, ?_⟩
    have hm3 : m3.view.mutual := by
      rw [v3]
      exact mutual_alloc_link hinv hb (Relationship.make Kind) rfl rfl p
    intro x y
    rw [c4, p4]
    by_cases hx : some x ∈ Children.pointers FM
    · rw [if_pos hx]
      simp only [hx, true_and, and_true, Option.some.injEq]
      constructor
      · rintro (h | ⟨h1, h2⟩)
        · exact h.symm
        · exact absurd ((hm3 x y).mp h1) h2
      · intro h; exact Or.inl h.symm
    · rw [if_neg hx]
      simp only [hx, false_and, and_false, false_or, not_false_eq_true, and_true]
      exact hm3 x y
  | SetRoot Root =>
    cases Root with
    | none => simp [Modification.resolvesAt] at hres
    | some f =>
      simp only [Modification.resolvesAt, Bool.and_eq_true, beq_iff_eq] at hres
      obtain ⟨⟨hpar, hch⟩, hR⟩ := hres
      cases hgf : FM.getFeature f.name with
      | some x =>
        exact ⟨mem, _, exec_of_SetRoot (SetRoot_call_run_taken ord mem FM f x hgf), hinv⟩
      | none =>
        by_cases hk : f.kind = NodeKind.NK_ROOT
        · cases hr : FM.root with
          | none =>
            refine ⟨{ mem with nodes := mem.nodes ++ [f] }, _,
              exec_of_SetRoot (SetRoot_call_run_first ord mem FM f hgf hk hr), ?_⟩
            rw [Memory_view_append]
            exact mutual_alloc hinv hb f hpar hch
          | some R =>
            rw [hr] at hR
            cases hrn : mem.nodes[R]? with
            | none => simp [hrn] at hR
            | some rn =>
              simp only [hrn, List.all_eq_true, decide_eq_true_eq] at hR
              obtain ⟨mem2, hcall, l2, k2, n2, p2, c2⟩ :=
                SetRoot_call_run_replace ord mem FM f rn R hk hgf hr hrn hR
              refine ⟨mem2, _, exec_of_SetRoot hcall, ?_⟩
              have hw := mutual_alloc hinv hb f hpar hch
              have hRlt : R < mem.nodes.length := lt_of_getElem?_eq_some hrn
              have hRne : R ≠ mem.view.len := Nat.ne_of_lt hRlt
              have hchR : ∀ z, (mem.view.alloc f).ch R z ↔ z ∈ rn.children := by
                intro z
                simp only [View.alloc, hRne, false_and, or_false]
                simp [Memory.view, hrn]
              intro x y
              rw [c2, p2]
              by_cases hx : x ∈ rn.children
              · rw [if_pos hx]
                have hparx : (mem.view.alloc f).par x = some R := (hw x R).mp ((hchR x).mpr hx)
                simp only [hx, and_true, Option.some.injEq]
                constructor
                · rintro (h | ⟨h1, h2⟩)
                  · exact h.symm
                  · have := (hw x y).mp h1
                    rw [hparx] at this
                    exact absurd (Option.some.inj this).symm h2
                · intro h; exact Or.inl h.symm
              · rw [if_neg hx]
                simp only [hx, and_false, false_or, not_false_eq_true, and_true]
                exact hw x y
        · refine ⟨{ mem with nodes := mem.nodes ++ [f] }, _,
            exec_of_SetRoot (SetRoot_call_run_cast_fails ord mem FM f hgf hk), ?_⟩
          rw [Memory_view_append]
          exact mutual_alloc hinv hb f hpar hch

/-- Claim C23 on the model with three features under the root, for the command
that groups "b" and "c" in an or-group under "a". -/
theorem C23_commands_keep_links_mutual_witness :
    ∃ mem2 FM2,
      (Modification.AddRelationshipToModel .RK_OR (.name "a") (.names ["b", "c"])).exec
        registryOrder wideMemory wideModel = .ok (mem2, FM2) ∧ mem2.view.mutual :=
  C23_commands_keep_links_mutual registryOrder wideMemory wideModel
    (.AddRelationshipToModel .RK_OR (.name "a") (.names ["b", "c"]))
    (by
      intro x y
      rcases x with _ | _ | _ | _ | x <;> rcases y with _ | _ | _ | _ | y <;>
        simp [Memory.view, wideMemory])
    (by decide)

/-! ## When AddChild and AddRelationshipToModel are defined -/

/-- The loops of `AddRelationshipToModel` fault when one of the children is an
object without a parent. -/
theorem loopPtrs_parentless {L c : Nat} (s : List (Option Handle)) :
    ∀ (mem : Memory), L < mem.view.len → c < mem.view.len → mem.view.par c = none →
      some c ∈ s → AddRelationshipToModel.loopPtrs L mem s = .error .badDeref := by
  induction s with
  | nil => intro mem _ _ _ h; simp at h
  | cons C rest ih =>
    intro mem hL hc hpar hmem
    cases C with
    | none =>
      simp [AddRelationshipToModel.loopPtrs, AddRelationshipToModel.moveChild, deref, bind,
        Except.bind]
    | some c2 =>
      cases hn : mem.nodes[c2]? with
      | none =>
        simp [AddRelationshipToModel.loopPtrs, AddRelationshipToModel.moveChild, deref,
          Memory.node, hn, bind, Except.bind]
      | some cn =>
        cases hp : cn.parent with
        | none =>
          simp [AddRelationshipToModel.loopPtrs, AddRelationshipToModel.moveChild, deref,
            Memory.node, hn, hp, bind, Except.bind]
        | some q =>
          cases hq : mem.nodes[q]? with
          | none =>
            simp [AddRelationshipToModel.loopPtrs, AddRelationshipToModel.moveChild, deref,
              Memory.node, hn, hp, FeatureModelModification.removeEdge, Memory.modifyNode, hq,
              bind, Except.bind]
          | some qn =>
            have hc2lt : c2 < mem.view.len := lt_of_getElem?_eq_some hn
            have hqlt : q < mem.view.len := lt_of_getElem?_eq_some hq
            obtain ⟨m1, m2, m3, h1, h2, h3, v3⟩ := reparent_steps mem c2 q L hc2lt hqlt hL
            have hpar2 : mem.view.par c2 = some q := by simp [Memory.view, hn, hp]
            have hne : c ≠ c2 := by
              intro e
              rw [e, hpar2] at hpar
              cases hpar
            have hmem2 : some c ∈ rest := by
              simp only [List.mem_cons, Option.some.injEq] at hmem
              rcases hmem with h | h
              · exact absurd h hne
              · exact h
            have hl3 : m3.view.len = mem.view.len := by rw [v3]; rfl
            have hpar3 : m3.view.par c = none := by
              rw [v3]
              simp only [View.setParent, View.addEdge, View.removeEdge, if_neg hne]
              exact hpar
            have hrest := ih m3 (by rw [hl3]; exact hL) (by rw [hl3]; exact hc) hpar3 hmem2
            simp [AddRelationshipToModel.loopPtrs, AddRelationshipToModel.moveChild, deref,
              Memory.node, hn, hp, h1, h2, h3, hrest, bind, Except.bind]

/-- `AddRelationshipToModel` faults when one of its children is an object
without a parent, whatever its other operands are. -/
theorem AddRelationshipToModel_call_parentless (mem : Memory) (FM : FeatureModel)
    (Kind : RelationshipKind) (Parent : FeatureVariant) (Children : ChildrenVariant)
    (c : Nat) (cn : FeatureTreeNode) (hmem : some c ∈ Children.pointers FM)
    (hcn : mem.nodes[c]? = some cn) (hnone : cn.parent = none) :
    AddRelationshipToModel.call Kind Parent Children mem FM = .error .badDeref := by
  have hclt : c < mem.nodes.length := lt_of_getElem?_eq_some hcn
  have hpar : mem.view.par c = none := by simp [Memory.view, hcn, hnone]
  cases hP : FeatureModelModification.resolveVariant FM Parent with
  | none =>
    have hP2 : FeatureModelModification.resolveVariant
        ({ FM with relationships := FM.relationships ++ [mem.nodes.length] } : FeatureModel)
        Parent = none := by
      rw [← hP]; cases Parent <;> rfl
    simp [AddRelationshipToModel.call, FeatureModelModification.addRelationship,
      FeatureModel.addRelationship, hP2, deref, bind, Except.bind]
  | some p =>
    have hP2 : FeatureModelModification.resolveVariant
        ({ FM with relationships := FM.relationships ++ [mem.nodes.length] } : FeatureModel)
        Parent = some p := by
      rw [← hP]; cases Parent <;> rfl
    have v1 := Memory_view_append mem (Relationship.make Kind)
    obtain ⟨m2, h2, v2⟩ := setParent_view
      { mem with nodes := mem.nodes ++ [Relationship.make Kind] } mem.nodes.length p (by simp)
    have l2 : m2.nodes.length = mem.nodes.length + 1 := by
      rw [view_len_eq v2, v1]; rfl
    cases hpn : m2.nodes[p]? with
    | none =>
      simp [AddRelationshipToModel.call, FeatureModelModification.addRelationship,
        FeatureModel.addRelationship, hP2, deref, h2, FeatureModelModification.addEdge,
        Memory.modifyNode, hpn, bind, Except.bind]
    | some pn =>
      have hplt : p < m2.nodes.length := lt_of_getElem?_eq_some hpn
      obtain ⟨m3, h3, v3⟩ := addEdge_view m2 p mem.nodes.length hplt
      have l3 : m3.view.len = mem.nodes.length + 1 := by
        rw [v3]
        show m2.view.len = _
        exact l2
      have hcne : c ≠ mem.view.len := Nat.ne_of_lt hclt
      have hpar3 : m3.view.par c = none := by
        rw [v3, v2, v1]
        have hcne2 : c ≠ mem.nodes.length := hcne
        simp only [View.addEdge, View.setParent, View.alloc, if_neg hcne, if_neg hcne2]
        exact hpar
      have hloop := loopPtrs_parentless (L := mem.nodes.length) (c := c)
        (Children.pointers FM) m3 (by rw [l3]; exact Nat.lt_succ_self _)
        (by rw [l3]; exact Nat.lt_succ_of_lt hclt) hpar3 hmem
      cases Children with
      | names s0 =>
        have h4b : AddRelationshipToModel.loopNames
            ({ FM with relationships := FM.relationships ++ [mem.nodes.length] } : FeatureModel)
            mem.nodes.length m3 s0 = .error .badDeref := by
          rw [loopNames_eq_loopPtrs]
          exact hloop
        simp [AddRelationshipToModel.call, FeatureModelModification.addRelationship,
          FeatureModel.addRelationship, hP2, deref, h2, h3, h4b, bind, Except.bind]
      | ptrs s0 =>
        have h4b : AddRelationshipToModel.loopPtrs mem.nodes.length m3 s0
            = .error .badDeref := hloop
        simp [AddRelationshipToModel.call, FeatureModelModification.addRelationship,
          FeatureModel.addRelationship, hP2, deref, h2, h3, h4b, bind, Except.bind]

/-- Claim C24, amended.  `AddChild` returns when its parent reference resolves to
an object and its child reference resolves to an object whose parent is an
object; `AddRelationshipToModel` returns when its parent reference resolves to
an object and every child is an object whose parent is an object.  When a child
is an object without a parent, each of the two commands takes its error branch
with a null dereference, whatever its other operands are: `*C->getParent()`
dereferences null. -/
theorem C24_defined_when_children_have_parents (ord : SortOrder) (mem : Memory)
    (FM : FeatureModel) :
    (∀ (Parent Child : FeatureTreeNodeVariant),
      mem.isLive (FeatureModelModification.resolveVariant FM Parent) = true →
      mem.hasLiveParent (FeatureModelModification.resolveVariant FM Child) = true →
      ∃ r, AddChild.call ord Parent Child mem FM = .ok r) ∧
    (∀ (Kind : RelationshipKind) (Parent : FeatureVariant) (Children : ChildrenVariant),
      mem.isLive (FeatureModelModification.resolveVariant FM Parent) = true →
      (∀ C ∈ Children.pointers FM, mem.hasLiveParent C = true) →
      ∃ r, AddRelationshipToModel.call Kind Parent Children mem FM = .ok r) ∧
    (∀ (Parent Child : FeatureTreeNodeVariant) (c : Handle) (cn : FeatureTreeNode),
      FeatureModelModification.resolveVariant FM Child = some c →
      mem.nodes[c]? = some cn → cn.parent = none →
      AddChild.call ord Parent Child mem FM = .error .badDeref) ∧
    (∀ (Kind : RelationshipKind) (Parent : FeatureVariant) (Children : ChildrenVariant)
      (c : Handle) (cn : FeatureTreeNode),
      some c ∈ Children.pointers FM →
      mem.nodes[c]? = some cn → cn.parent = none →
      AddRelationshipToModel.call Kind Parent Children mem FM = .error .badDeref) := by
  refine ⟨?_, ?_, ?_, ?_⟩
  · intro Parent Child hP hC
    obtain ⟨p, hp, hplt⟩ := isLive_iff hP
    obtain ⟨c, q, hc, hclt, hcq, hqlt⟩ := hasLiveParent_iff hC
    obtain ⟨cn, hcn, hcp⟩ := view_par_node hcq
    obtain ⟨m1, m2, m3, h1, h2, h3, -⟩ := reparent_steps mem c q p hclt hqlt hplt
    refine ⟨(m3, FM.sort ord m3), ?_⟩
    simp [AddChild.call, hp, hc, deref, Memory.node, hcn, hcp, h1, h2, h3, bind, Except.bind,
      pure, Except.pure]
  · intro Kind Parent Children hP hC
    obtain ⟨p, hp, hplt⟩ := isLive_iff hP
    obtain ⟨_, _, m4, -, -, -, hcall, -⟩ :=
      AddRelationshipToModel_call_run mem FM Kind Parent Children p hp hplt hC
    exact ⟨_, hcall⟩
  · intro Parent Child c cn hr hn hnone
    simp [AddChild.call, hr, deref, Memory.node, hn, hnone, bind, Except.bind]
  · intro Kind Parent Children c cn hmem hn hnone
    exact AddRelationshipToModel_call_parentless mem FM Kind Parent Children c cn hmem hn hnone

/-- The amended claim C24 on the model with three features under the root: "b"
is moved under "a", "b" and "c" are grouped under "a", and with the root as a
child both commands take the error branch. -/
theorem C24_defined_when_children_have_parents_witness :
    (∃ r, AddChild.call registryOrder (.name "a") (.name "b") wideMemory wideModel = .ok r) ∧
    (∃ r, AddRelationshipToModel.call .RK_ALTERNATIVE (.name "a") (.ptrs [some 2, some 3])
      wideMemory wideModel = .ok r) ∧
    AddChild.call registryOrder (.name "a") (.name "root") wideMemory wideModel
      = .error .badDeref ∧
    AddRelationshipToModel.call .RK_ALTERNATIVE (.name "a") (.names ["b", "root"])
      wideMemory wideModel = .error .badDeref := by
  obtain ⟨h1, h2, h3, h4⟩ :=
    C24_defined_when_children_have_parents registryOrder wideMemory wideModel
  exact ⟨h1 (.name "a") (.name "b") (by decide) (by decide),
    h2 .RK_ALTERNATIVE (.name "a") (.ptrs [some 2, some 3]) (by decide) (by decide),
    h3 (.name "a") (.name "root") 0
      { kind := .NK_ROOT, name := "root", parent := none, children := [1, 2, 3],
        constraints := [] } (by decide) (by decide) rfl,
    h4 .RK_ALTERNATIVE (.name "a") (.names ["b", "root"]) 0
      { kind := .NK_ROOT, name := "root", parent := none, children := [1, 2, 3],
        constraints := [] } (by decide) (by decide) rfl⟩

/-- Claim C24 as stated fails.  In the model of the tests every reference below
resolves to a node of the model (the root is at address 0, "a" at 1), and the
child is the root, which has no parent: `AddChild("a", "root")`,
`AddRelationshipToModel` with the child given by the name "root", and the same
with the child given by its handle all take the error branch. -/
theorem C24_parentless_child_faults :
    FeatureModelModification.resolveVariant exampleModel (.name "a") = some 1 ∧
    FeatureModelModification.resolveVariant exampleModel (.name "root") = some 0 ∧
    (exampleMemory.nodes[0]?).map (fun n => n.parent) = some none ∧
    AddChild.call registryOrder (.name "a") (.name "root") exampleMemory exampleModel
      = .error .badDeref ∧
    AddRelationshipToModel.call .RK_OR (.name "a") (.names ["root"]) exampleMemory
      exampleModel = .error .badDeref ∧
    AddRelationshipToModel.call .RK_OR (.name "a") (.ptrs [some 0]) exampleMemory
      exampleModel = .error .badDeref :=
  ⟨by decide, by decide, by decide, by decide, by decide, by decide⟩

/-! ## The copy strategy runs the modify strategy, moved up -/

theorem shifted_setParent {off : Nat} {v w : View} (h : View.shifted off v w) (x p : Nat) :
    View.shifted off (v.setParent x p) (w.setParent (x + off) (p + off)) := by
  refine ⟨h.base, h.len, ?_, h.kind, h.name, h.ch, h.orig⟩
  intro y
  simp only [View.setParent]
  by_cases hy : y = x
  · subst hy
    simp
  · have hy2 : ¬ y + off = x + off := fun e => hy (Nat.add_right_cancel e)
    rw [if_neg hy, if_neg hy2]
    exact h.par y

theorem shifted_addEdge {off : Nat} {v w : View} (h : View.shifted off v w) (y0 z0 : Nat) :
    View.shifted off (v.addEdge y0 z0) (w.addEdge (y0 + off) (z0 + off)) := by
  refine ⟨h.base, h.len, h.par, h.kind, h.name, ?_, h.orig⟩
  intro x z2
  simp only [View.addEdge]
  rw [h.ch]
  constructor
  · rintro (⟨z, hz, hc⟩ | ⟨h1, h2⟩)
    · exact ⟨z, hz, Or.inl hc⟩
    · exact ⟨z0, h2, Or.inr ⟨Nat.add_right_cancel h1, rfl⟩⟩
  · rintro ⟨z, hz, hc | ⟨h1, h2⟩⟩
    · exact Or.inl ⟨z, hz, hc⟩
    · subst h1 h2
      exact Or.inr ⟨rfl, hz⟩

theorem shifted_removeEdge {off : Nat} {v w : View} (h : View.shifted off v w) (y0 z0 : Nat) :
    View.shifted off (v.removeEdge y0 z0) (w.removeEdge (y0 + off) (z0 + off)) := by
  refine ⟨h.base, h.len, h.par, h.kind, h.name, ?_, h.orig⟩
  intro x z2
  simp only [View.removeEdge]
  rw [h.ch]
  constructor
  · rintro ⟨⟨z, hz, hc⟩, hn⟩
    refine ⟨z, hz, hc, ?_⟩
    rintro ⟨h1, h2⟩
    subst h1 h2
    exact hn ⟨rfl, hz⟩
  · rintro ⟨z, hz, hc, hn⟩
    refine ⟨⟨z, hz, hc⟩, ?_⟩
    rintro ⟨h1, h2⟩
    have hx : x = y0 := Nat.add_right_cancel h1
    have hz2 : z = z0 := by
      rw [hz] at h2
      exact Nat.add_right_cancel h2
    exact hn ⟨hx, hz2⟩

theorem shifted_alloc {off : Nat} {v w : View} (h : View.shifted off v w)
    (f : FeatureTreeNode) (hp : f.parent = none) (hc : f.children = []) :
    View.shifted off (v.alloc f) (w.alloc f) := by
  have hlen := h.len
  refine ⟨Nat.le_succ_of_le h.base, ?_, ?_, ?_, ?_, ?_, ?_⟩
  · simp only [View.alloc]; omega
  · intro x
    simp only [View.alloc, hp]
    by_cases hx : x = v.len
    · subst hx
      rw [if_pos rfl, if_pos hlen.symm]
      rfl
    · have hx2 : ¬ x + off = w.len := by omega
      rw [if_neg hx, if_neg hx2]
      exact h.par x
  · intro x
    simp only [View.alloc]
    by_cases hx : x = v.len
    · subst hx
      rw [if_pos rfl, if_pos hlen.symm]
    · have hx2 : ¬ x + off = w.len := by omega
      rw [if_neg hx, if_neg hx2]
      exact h.kind x
  · intro x
    simp only [View.alloc]
    by_cases hx : x = v.len
    · subst hx
      rw [if_pos rfl, if_pos hlen.symm]
    · have hx2 : ¬ x + off = w.len := by omega
      rw [if_neg hx, if_neg hx2]
      exact h.name x
  · intro x z2
    simp only [View.alloc, hc, List.not_mem_nil, and_false, or_false]
    exact h.ch x z2
  · intro x hx
    have hb := h.base
    simp only [View.alloc]
    have h1 : ¬ x = w.len := by omega
    have h2 : ¬ x = v.len := by omega
    rw [if_neg h1, if_neg h2]
    exact h.orig x hx

/-- An object of the lower view is an object of the upper view, `off` up. -/
theorem shifted_lt {off : Nat} {v w : View} (h : View.shifted off v w) {x : Nat} :
    x + off < w.len ↔ x < v.len := by
  rw [h.len]; omega

/-- The views the loop of `AddRelationshipToModel` leaves on the two sides are
moved against each other when the views before it are and the children of the
upper side are the children of the lower side moved up. -/
theorem shifted_moveAll {off : Nat} {v3 w3 v4 w4 : View} (h : View.shifted off v3 w3)
    (L : Nat) (Sm Sc : List (Option Handle))
    (hS : ∀ x2 : Nat, some x2 ∈ Sc ↔ ∃ x : Nat, x2 = x + off ∧ some x ∈ Sm)
    (lv : v4.len = v3.len) (kv : v4.kind = v3.kind) (nv : v4.name = v3.name)
    (pv : ∀ x : Nat, v4.par x = if some x ∈ Sm then some L else v3.par x)
    (cv : ∀ y z : Nat, v4.ch y z ↔
      ((y = L ∧ some z ∈ Sm) ∨ (v3.ch y z ∧ ¬ (some z ∈ Sm ∧ v3.par z = some y))))
    (lw : w4.len = w3.len) (kw : w4.kind = w3.kind) (nw : w4.name = w3.name)
    (pw : ∀ x : Nat, w4.par x = if some x ∈ Sc then some (L + off) else w3.par x)
    (cw : ∀ y z : Nat, w4.ch y z ↔
      ((y = L + off ∧ some z ∈ Sc) ∨ (w3.ch y z ∧ ¬ (some z ∈ Sc ∧ w3.par z = some y)))) :
    View.shifted off v4 w4 := by
  have hSx : ∀ x : Nat, some (x + off) ∈ Sc ↔ some x ∈ Sm := by
    intro x
    rw [hS]
    constructor
    · rintro ⟨x1, h1, h2⟩
      have : x = x1 := Nat.add_right_cancel h1
      subst this
      exact h2
    · intro h2; exact ⟨x, rfl, h2⟩
  have hparz : ∀ x z : Nat, w3.par (z + off) = some (x + off) ↔ v3.par z = some x := by
    intro x z
    rw [h.par]
    cases v3.par z with
    | none => simp
    | some q => simp
  refine ⟨by rw [lv]; exact h.base, by rw [lw, lv]; exact h.len, ?_, ?_, ?_, ?_, ?_⟩
  · intro x
    rw [pw, pv]
    by_cases hx : some x ∈ Sm
    · rw [if_pos hx, if_pos ((hSx x).mpr hx)]
      rfl
    · rw [if_neg hx, if_neg (fun e => hx ((hSx x).mp e))]
      exact h.par x
  · intro x; rw [kw, kv]; exact h.kind x
  · intro x; rw [nw, nv]; exact h.name x
  · intro x z2
    rw [cw]
    constructor
    · rintro (⟨h1, h2⟩ | ⟨h1, h2⟩)
      · obtain ⟨z, hz, hz2⟩ := (hS z2).mp h2
        exact ⟨z, hz, (cv x z).mpr (Or.inl ⟨Nat.add_right_cancel h1, hz2⟩)⟩
      · obtain ⟨z, hz, hc⟩ := (h.ch x z2).mp h1
        subst hz
        refine ⟨z, rfl, (cv x z).mpr (Or.inr ⟨hc, ?_⟩)⟩
        rintro ⟨h3, h4⟩
        exact h2 ⟨(hSx z).mpr h3, (hparz x z).mpr h4⟩
    · rintro ⟨z, hz, hc⟩
      subst hz
      rcases (cv x z).mp hc with ⟨h1, h2⟩ | ⟨h1, h2⟩
      · exact Or.inl ⟨by rw [h1], (hSx z).mpr h2⟩
      · refine Or.inr ⟨(h.ch x _).mpr ⟨z, rfl, h1⟩, ?_⟩
        rintro ⟨h3, h4⟩
        exact h2 ⟨(hSx z).mp h3, (hparz x z).mp h4⟩
  · intro x hx
    rw [nw, nv]
    exact h.orig x hx

/-- The views the loop of `SetRoot` leaves on the two sides are moved against
each other when the views before it are and the children of the old root on the
upper side are the children of the old root on the lower side moved up. -/
theorem shifted_rootAll {off : Nat} {v1 w1 v2 w2 : View} (h : View.shifted off v1 w1)
    (L R : Nat) (cm cc : List Handle)
    (hS : ∀ x2 : Nat, x2 ∈ cc ↔ ∃ x : Nat, x2 = x + off ∧ x ∈ cm)
    (lv : v2.len = v1.len) (kv : v2.kind = v1.kind) (nv : v2.name = v1.name)
    (pv : ∀ x : Nat, v2.par x = if x ∈ cm then some L else v1.par x)
    (cv : ∀ y z : Nat, v2.ch y z ↔ ((y = L ∧ z ∈ cm) ∨ (v1.ch y z ∧ ¬ (y = R ∧ z ∈ cm))))
    (lw : w2.len = w1.len) (kw : w2.kind = w1.kind) (nw : w2.name = w1.name)
    (pw : ∀ x : Nat, w2.par x = if x ∈ cc then some (L + off) else w1.par x)
    (cw : ∀ y z : Nat, w2.ch y z ↔
      ((y = L + off ∧ z ∈ cc) ∨ (w1.ch y z ∧ ¬ (y = R + off ∧ z ∈ cc)))) :
    View.shifted off v2 w2 := by
  have hSx : ∀ x : Nat, x + off ∈ cc ↔ x ∈ cm := by
    intro x
    rw [hS]
    constructor
    · rintro ⟨x1, h1, h2⟩
      have : x = x1 := Nat.add_right_cancel h1
      subst this
      exact h2
    · intro h2; exact ⟨x, rfl, h2⟩
  refine ⟨by rw [lv]; exact h.base, by rw [lw, lv]; exact h.len, ?_, ?_, ?_, ?_, ?_⟩
  · intro x
    rw [pw, pv]
    by_cases hx : x ∈ cm
    · rw [if_pos hx, if_pos ((hSx x).mpr hx)]
      rfl
    · rw [if_neg hx, if_neg (fun e => hx ((hSx x).mp e))]
      exact h.par x
  · intro x; rw [kw, kv]; exact h.kind x
  · intro x; rw [nw, nv]; exact h.name x
  · intro x z2
    rw [cw]
    constructor
    · rintro (⟨h1, h2⟩ | ⟨h1, h2⟩)
      · obtain ⟨z, hz, hz2⟩ := (hS z2).mp h2
        exact ⟨z, hz, (cv x z).mpr (Or.inl ⟨Nat.add_right_cancel h1, hz2⟩)⟩
      · obtain ⟨z, hz, hc⟩ := (h.ch x z2).mp h1
        subst hz
        refine ⟨z, rfl, (cv x z).mpr (Or.inr ⟨hc, ?_⟩)⟩
        rintro ⟨h3, h4⟩
        exact h2 ⟨by rw [h3], (hSx z).mpr h4⟩
    · rintro ⟨z, hz, hc⟩
      subst hz
      rcases (cv x z).mp hc with ⟨h1, h2⟩ | ⟨h1, h2⟩
      · exact Or.inl ⟨by rw [h1], (hSx z).mpr h2⟩
      · refine Or.inr ⟨(h.ch x _).mpr ⟨z, rfl, h1⟩, ?_⟩
        rintro ⟨h3, h4⟩
        exact h2 ⟨Nat.add_right_cancel h3, (hSx z).mp h4⟩
  · intro x hx
    rw [nw, nv]
    exact h.orig x hx

theorem mem_stdSetInsert_iff (x y : Option Handle) (s : List (Option Handle)) :
    y ∈ stdSetInsert x s ↔ (y = x ∨ y ∈ s) := by
  refine ⟨mem_stdSetInsert, ?_⟩
  induction s with
  | nil => intro h; simpa [stdSetInsert] using h
  | cons z zs ih =>
    intro h
    unfold stdSetInsert
    split
    · simp only [List.mem_cons] at h ⊢
      exact h
    · split
      · rename_i hxz
        rcases h with h | h
        · rw [h, hxz]; simp
        · exact h
      · simp only [List.mem_cons] at h ⊢
        rcases h with h | h | h
        · exact Or.inr (ih (Or.inl h))
        · exact Or.inl h
        · exact Or.inr (ih (Or.inr h))

/-- The loops that fill `TranslatedChildren` return the set of the translations
when every translation returns. -/
theorem translateChildren_ok (mem : Memory) (T : FeatureModelCopyTransactionBase)
    (τ : Option Handle → Option Handle) (l : List (Option Handle)) :
    ∀ acc : List (Option Handle), (∀ C ∈ l, T.TranslateFeature mem C = .ok (τ C)) →
      ∃ res, T.translateChildren mem acc l = .ok res ∧
        ∀ y, y ∈ res ↔ (y ∈ acc ∨ ∃ C ∈ l, y = τ C) := by
  induction l with
  | nil =>
    intro acc _
    exact ⟨acc, rfl, by simp⟩
  | cons C rest ih =>
    intro acc h
    obtain ⟨res, hres, hmem⟩ := ih (stdSetInsert (τ C) acc)
      (fun C2 hC2 => h C2 (by simp [hC2]))
    refine ⟨res, ?_, ?_⟩
    · simp [FeatureModelCopyTransactionBase.translateChildren, h C (by simp), hres, bind,
        Except.bind]
    · intro y
      rw [hmem, mem_stdSetInsert_iff]
      simp only [List.mem_cons, exists_eq_or_imp]
      tauto

theorem Agree_getFeature {off : Nat} {mm mc : Memory} {M U : FeatureModel}
    (h : Agree off mm M mc U) (Name : String) :
    U.getFeature Name = (M.getFeature Name).map (· + off) := by
  simp only [FeatureModel.getFeature, h.features, List.find?_map, Option.map_map]
  rfl

theorem view_kind_node {mem : Memory} {x : Nat} {k : NodeKind}
    (h : mem.view.kind x = some k) : ∃ n, mem.nodes[x]? = some n ∧ n.kind = k := by
  simp only [Memory.view] at h
  cases hn : mem.nodes[x]? with
  | none => rw [hn] at h; simp at h
  | some n => rw [hn] at h; exact ⟨n, rfl, by simpa using h⟩

/-- The object `off` above an object: same name and kind, children moved up. -/
theorem shifted_node {off : Nat} {mm mc : Memory} (h : View.shifted off mm.view mc.view)
    {x : Nat} {n : FeatureTreeNode} (hn : mm.nodes[x]? = some n) :
    ∃ n2, mc.nodes[x + off]? = some n2 ∧ n2.name = n.name ∧ n2.kind = n.kind ∧
      n2.parent = n.parent.map (· + off) ∧
      (∀ z2, z2 ∈ n2.children ↔ ∃ z, z2 = z + off ∧ z ∈ n.children) := by
  have hk : mc.view.kind (x + off) = some n.kind := by
    rw [h.kind]; simp [Memory.view, hn]
  obtain ⟨n2, hn2, hk2⟩ := view_kind_node hk
  have hnm := h.name x
  have hp := h.par x
  simp only [Memory.view, hn2, hn, Option.map_some', Option.some.injEq, Option.bind_some]
    at hnm hp
  refine ⟨n2, hn2, hnm, hk2, hp, ?_⟩
  intro z2
  have hc := h.ch x z2
  simp only [Memory.view, hn2, hn, Option.some.injEq, exists_eq_left'] at hc
  exact hc

/-- An object the transaction borrowed is where it was, under its name. -/
theorem shifted_orig_node {off : Nat} {mm mc : Memory}
    (h : View.shifted off mm.view mc.view)
    {x : Nat} (hx : x < off) {n : FeatureTreeNode} (hn : mm.nodes[x]? = some n) :
    ∃ n2, mc.nodes[x]? = some n2 ∧ n2.name = n.name := by
  have hnm : mc.view.name x = some n.name := by
    rw [h.orig x hx]; simp [Memory.view, hn]
  exact view_name_node hnm

theorem registered_iff {mem : Memory} {FM : FeatureModel} {P : Option Handle}
    (h : mem.registered FM P = true) :
    ∃ (g : Nat) (n : FeatureTreeNode), P = some g ∧ mem.nodes[g]? = some n ∧
      FM.getFeature n.name = some g := by
  cases P with
  | none => simp [Memory.registered] at h
  | some g =>
    cases hn : mem.nodes[g]? with
    | none => simp [Memory.registered, hn] at h
    | some n =>
      simp only [Memory.registered, hn, beq_iff_eq] at h
      exact ⟨g, n, rfl, hn, h⟩

/-- A pointer into the clone, to the copy of a registered feature, translates
to itself. -/
theorem TranslateFeature_clone {off : Nat} {mm mc : Memory} {M U : FeatureModel}
    (h : Agree off mm M mc U) {g : Nat} (hr : mm.registered M (some g) = true) :
    FeatureModelCopyTransactionBase.TranslateFeature mc { FM := some U } (some (g + off))
      = .ok (some (g + off)) := by
  obtain ⟨g2, n, hg, hn, hget⟩ := registered_iff hr
  cases hg
  obtain ⟨n2, hn2, hname, -⟩ := shifted_node h.view hn
  simp [FeatureModelCopyTransactionBase.TranslateFeature, deref, Memory.node, hn2, hname,
    Agree_getFeature h, hget, bind, Except.bind, pure, Except.pure]

/-- A handle into the original model, to a registered feature, translates to the
copy of the feature. -/
theorem TranslateFeature_borrowed {off : Nat} {mm mc : Memory} {M U : FeatureModel}
    (h : Agree off mm M mc U) {g : Nat} (hlt : g < off)
    (hr : mm.registered M (some g) = true) :
    FeatureModelCopyTransactionBase.TranslateFeature mc { FM := some U } (some g)
      = .ok (some (g + off)) := by
  obtain ⟨g2, n, hg, hn, hget⟩ := registered_iff hr
  cases hg
  obtain ⟨n2, hn2, hname⟩ := shifted_orig_node h.view hlt hn
  simp [FeatureModelCopyTransactionBase.TranslateFeature, deref, Memory.node, hn2, hname,
    Agree_getFeature h, hget, bind, Except.bind, pure, Except.pure]

theorem hasLiveParent_of_view {mem : Memory} {c q : Nat} (hcq : mem.view.par c = some q)
    (hq : q < mem.nodes.length) : mem.hasLiveParent (some c) = true := by
  obtain ⟨cn, hcn, hcp⟩ := view_par_node hcq
  simp [Memory.hasLiveParent, hcn, hcp, hq]

theorem shifted_hasLiveParent {off : Nat} {mm mc : Memory}
    (h : View.shifted off mm.view mc.view) {C : Option Handle}
    (hC : mm.hasLiveParent C = true) :
    ∃ c : Nat, C = some c ∧ mc.hasLiveParent (some (c + off)) = true := by
  obtain ⟨c, q, hc, -, hcq, hqlt⟩ := hasLiveParent_iff hC
  refine ⟨c, hc, hasLiveParent_of_view (q := q + off) ?_ ?_⟩
  · rw [h.par, hcq]; rfl
  · exact (shifted_lt h).mpr hqlt

theorem Agree_len {off : Nat} {mm mc : Memory} {M U : FeatureModel}
    (h : Agree off mm M mc U) : mc.nodes.length = mm.nodes.length + off := h.view.len

/-- The step of the two strategies for `addFeature`. -/
theorem agree_addFeature {off : Nat} (ord : SortOrder) {mm mc : Memory} {M U : FeatureModel}
    (NewFeature : Option FeatureTreeNode) (Parent : Option Handle)
    (hA : Agree off mm M mc U)
    (hres : (Modification.AddFeatureToModel NewFeature Parent).resolvesAt mm M = true)
    (hport : (Modification.AddFeatureToModel NewFeature Parent).portableAt off mm M = true) :
    ∃ mm2 M2 mc2 U2,
      (Modification.AddFeatureToModel NewFeature Parent).exec ord mm M = .ok (mm2, M2) ∧
      FeatureModelCopyTransaction.call ord mc { FM := some U } (.addFeature NewFeature Parent)
        = .ok (mc2, { FM := some U2 }) ∧
      Agree off mm2 M2 mc2 U2 := by
  have hlen := Agree_len hA
  cases NewFeature with
  | none => simp [Modification.resolvesAt] at hres
  | some f =>
    simp only [Modification.resolvesAt, Bool.and_eq_true, beq_iff_eq] at hres
    obtain ⟨⟨hpar, hch⟩, hP⟩ := hres
    -- the parent the copy strategy hands to the command
    have htr : ∃ P2 : Option Handle, P2 = Parent.map (· + off) ∧
        FeatureModelCopyTransaction.call ord mc { FM := some U } (.addFeature (some f) Parent)
          = (AddFeatureToModel.call (some f) P2 mc U).bind
              (fun r => .ok (r.2.1, { FM := some r.2.2 })) := by
      cases Parent with
      | none =>
        refine ⟨none, rfl, ?_⟩
        simp only [FeatureModelCopyTransaction.call,
          FeatureModelCopyTransactionBase.addFeatureImpl, bind, Except.bind, Except.map, pure,
          Except.pure]
        cases AddFeatureToModel.call (some f) none mc U with
        | error e => rfl
        | ok r => rfl
      | some p =>
        simp only [Modification.portableAt, Bool.and_eq_true, borrowedFrom,
          decide_eq_true_eq] at hport
        refine ⟨some (p + off), rfl, ?_⟩
        simp only [FeatureModelCopyTransaction.call,
          FeatureModelCopyTransactionBase.addFeatureImpl,
          TranslateFeature_borrowed hA hport.1 hport.2, bind, Except.bind, Except.map, pure,
          Except.pure]
        cases AddFeatureToModel.call (some f) (some (p + off)) mc U with
        | error e => rfl
        | ok r => rfl
    obtain ⟨P2, hP2, hcopy⟩ := htr
    rw [hcopy]
    cases hgf : M.getFeature f.name with
    | some x =>
      have hgf2 : U.getFeature f.name = some (x + off) := by
        rw [Agree_getFeature hA, hgf]; rfl
      refine ⟨mm, M, mc, U,
        exec_of_AddFeatureToModel (AddFeatureToModel_call_duplicate mm M f Parent x hgf), ?_, hA⟩
      rw [AddFeatureToModel_call_duplicate mc U f P2 (x + off) hgf2]
      rfl
    | none =>
      have hgf2 : U.getFeature f.name = none := by
        rw [Agree_getFeature hA, hgf]; rfl
      have hfeat : U.features ++ [(f.name, mc.nodes.length)] =
          (M.features ++ [(f.name, mm.nodes.length)]).map (fun e => (e.1, e.2 + off)) := by
        rw [List.map_append, hA.features, hlen]
        rfl
      cases htarget : (Parent <|> M.getRoot) with
      | some q =>
        have hqlt : q < mm.nodes.length := by
          cases Parent with
          | some p =>
            have hpq : p = q := by simpa using htarget
            subst hpq
            simpa using hP
          | none =>
            have hrq : M.root = some q := htarget
            simpa [hrq] using hP
        have htarget2 : (P2 <|> U.getRoot) = some (q + off) := by
          subst hP2
          cases Parent with
          | some p =>
            have hpq : p = q := by simpa using htarget
            subst hpq
            rfl
          | none =>
            have hrq : M.root = some q := htarget
            show (none <|> U.root) = some (q + off)
            rw [hA.root, hrq]
            rfl
        obtain ⟨mm2, hcall, v2⟩ :=
          AddFeatureToModel_call_run_linked mm M f Parent q hgf htarget hqlt
        obtain ⟨mc2, hcall2, w2⟩ :=
          AddFeatureToModel_call_run_linked mc U f P2 (q + off) hgf2 htarget2
            (by rw [hlen]; exact Nat.add_lt_add_right hqlt _)
        refine ⟨mm2, _, mc2, _, exec_of_AddFeatureToModel hcall, by rw [hcall2]; rfl, ?_⟩
        refine ⟨?_, hfeat, hA.root, hA.relationships, hA.metaName, hA.metaCommit,
          hA.metaPath⟩
        rw [v2, w2]
        have hwl : mc.view.len = mm.view.len + off := hA.view.len
        rw [hwl]
        exact shifted_addEdge (shifted_setParent (shifted_alloc hA.view f hpar hch) _ _) _ _
      | none =>
        have hPn : Parent = none := by
          cases Parent with
          | some p => simp at htarget
          | none => rfl
        subst hPn
        subst hP2
        have hroot : M.getRoot = none := htarget
        have hroot2 : U.getRoot = none := by
          show U.root = none
          rw [hA.root]
          have : M.root = none := hroot
          rw [this]; rfl
        refine ⟨_, _, _, _,
          exec_of_AddFeatureToModel (AddFeatureToModel_call_fresh_unlinked mm M f hgf hroot),
          by rw [Option.map_none', AddFeatureToModel_call_fresh_unlinked mc U f hgf2 hroot2]; rfl,
          ?_⟩
        refine ⟨?_, hfeat, hA.root, hA.relationships, hA.metaName, hA.metaCommit,
          hA.metaPath⟩
        rw [Memory_view_append, Memory_view_append]
        exact shifted_alloc hA.view f hpar hch

/-- Structural equality does not look at the sort order, the constraints or the
constraint objects. -/
theorem Agree_congr {off : Nat} {mm mc mm2 mc2 : Memory} {M U M2 U2 : FeatureModel}
    (h : Agree off mm M mc U) (hv : mm2.view = mm.view) (hw : mc2.view = mc.view)
    (hf : M2.features = M.features) (hf2 : U2.features = U.features)
    (hr : M2.root = M.root) (hr2 : U2.root = U.root)
    (hl : M2.relationships = M.relationships) (hl2 : U2.relationships = U.relationships)
    (hn : M2.name = M.name) (hn2 : U2.name = U.name)
    (hc : M2.commit = M.commit) (hc2 : U2.commit = U.commit)
    (hp : M2.path = M.path) (hp2 : U2.path = U.path) :
    Agree off mm2 M2 mc2 U2 := by
  refine ⟨?_, ?_, ?_, ?_, ?_, ?_, ?_⟩
  · rw [hv, hw]; exact h.view
  · rw [hf, hf2]; exact h.features
  · rw [hr, hr2]; exact h.root
  · rw [hl, hl2]; exact h.relationships
  · rw [hn, hn2]; exact h.metaName
  · rw [hc, hc2]; exact h.metaCommit
  · rw [hp, hp2]; exact h.metaPath

/-- The step of the two strategies for `addConstraint`. -/
theorem agree_addConstraint {off : Nat} (ord : SortOrder) {mm mc : Memory}
    {M U : FeatureModel} (NewConstraint : Option Constraint)
    (hA : Agree off mm M mc U)
    (hres : (Modification.AddConstraintToModel NewConstraint).resolvesAt mm M = true)
    (hport : (Modification.AddConstraintToModel NewConstraint).portableAt off mm M = true) :
    ∃ mm2 M2 mc2 U2,
      (Modification.AddConstraintToModel NewConstraint).exec ord mm M = .ok (mm2, M2) ∧
      FeatureModelCopyTransaction.call ord mc { FM := some U } (.addConstraint NewConstraint)
        = .ok (mc2, { FM := some U2 }) ∧
      Agree off mm2 M2 mc2 U2 := by
  have hlen := Agree_len hA
  have hcopy : ∀ (r : Option CHandle) (mc2 : Memory) (U2 : FeatureModel),
      AddConstraintToModel.call NewConstraint mc U = .ok (r, mc2, U2) →
      FeatureModelCopyTransaction.call ord mc { FM := some U } (.addConstraint NewConstraint)
        = .ok (mc2, { FM := some U2 }) := by
    intro r mc2 U2 h
    simp [FeatureModelCopyTransaction.call, FeatureModelCopyTransactionBase.addConstraintImpl,
      h, bind, Except.bind, Except.map, pure, Except.pure]
  cases NewConstraint with
  | none => simp [Modification.resolvesAt] at hres
  | some k =>
    cases k with
    | other t =>
      exact ⟨_, _, _, _,
        exec_of_AddConstraintToModel (AddConstraintToModel_call_run_other mm M t),
        hcopy _ _ _ (AddConstraintToModel_call_run_other mc U t),
        Agree_congr hA rfl rfl rfl rfl rfl rfl rfl rfl rfl rfl rfl rfl rfl rfl⟩
    | primary fo =>
      cases fo with
      | none => simp [Modification.resolvesAt] at hres
      | some fh =>
        cases hfn : mm.nodes[fh]? with
        | none => simp [Modification.resolvesAt, hfn] at hres
        | some fn =>
          simp only [Modification.resolvesAt, hfn] at hres
          simp only [Modification.portableAt, borrowedFrom, decide_eq_true_eq] at hport
          obtain ⟨F, hF, hFlt⟩ := isLive_iff hres
          obtain ⟨fn2, hfn2, hname⟩ := shifted_orig_node hA.view hport hfn
          have hF2 : U.getFeature fn2.name = some (F + off) := by
            rw [hname, Agree_getFeature hA, hF]; rfl
          obtain ⟨mm2, hcall, v2⟩ := AddConstraintToModel_call_run mm M fh F fn hfn hF hFlt
          obtain ⟨mc2, hcall2, w2⟩ := AddConstraintToModel_call_run mc U fh (F + off) fn2 hfn2
            hF2 (by rw [hlen]; exact Nat.add_lt_add_right hFlt _)
          exact ⟨mm2, _, mc2, _, exec_of_AddConstraintToModel hcall, hcopy _ _ _ hcall2,
            Agree_congr hA v2 w2 rfl rfl rfl rfl rfl rfl rfl rfl rfl rfl rfl rfl⟩

/-- The step of the two strategies for `setName`, `setCommit` and `setPath`. -/
theorem agree_metadata {off : Nat} (ord : SortOrder) {mm mc : Memory} {M U : FeatureModel}
    (Value : String) (hA : Agree off mm M mc U) :
    (∃ mm2 M2 mc2 U2,
      (Modification.SetName Value).exec ord mm M = .ok (mm2, M2) ∧
      FeatureModelCopyTransaction.call ord mc { FM := some U } (.setName Value)
        = .ok (mc2, { FM := some U2 }) ∧
      Agree off mm2 M2 mc2 U2) ∧
    (∃ mm2 M2 mc2 U2,
      (Modification.SetCommit Value).exec ord mm M = .ok (mm2, M2) ∧
      FeatureModelCopyTransaction.call ord mc { FM := some U } (.setCommit Value)
        = .ok (mc2, { FM := some U2 }) ∧
      Agree off mm2 M2 mc2 U2) ∧
    (∃ mm2 M2 mc2 U2,
      (Modification.SetPath Value).exec ord mm M = .ok (mm2, M2) ∧
      FeatureModelCopyTransaction.call ord mc { FM := some U } (.setPath Value)
        = .ok (mc2, { FM := some U2 }) ∧
      Agree off mm2 M2 mc2 U2) := by
  refine ⟨⟨mm, SetName.call Value M, mc, SetName.call Value U, rfl, rfl, ?_⟩,
    ⟨mm, SetCommit.call Value M, mc, SetCommit.call Value U, rfl, rfl, ?_⟩,
    ⟨mm, SetPath.call Value M, mc, SetPath.call Value U, rfl, rfl, ?_⟩⟩
  · exact ⟨hA.view, hA.features, hA.root, hA.relationships, rfl, hA.metaCommit, hA.metaPath⟩
  · exact ⟨hA.view, hA.features, hA.root, hA.relationships, hA.metaName, rfl, hA.metaPath⟩
  · exact ⟨hA.view, hA.features, hA.root, hA.relationships, hA.metaName, hA.metaCommit, rfl⟩

/-- The step of the two strategies for `setRoot`. -/
theorem agree_setRoot {off : Nat} (ord : SortOrder) {mm mc : Memory} {M U : FeatureModel}
    (Root : Option FeatureTreeNode) (hA : Agree off mm M mc U)
    (hres : (Modification.SetRoot Root).resolvesAt mm M = true) :
    ∃ mm2 M2 mc2 U2,
      (Modification.SetRoot Root).exec ord mm M = .ok (mm2, M2) ∧
      FeatureModelCopyTransaction.call ord mc { FM := some U } (.setRoot Root)
        = .ok (mc2, { FM := some U2 }) ∧
      Agree off mm2 M2 mc2 U2 := by
  have hlen := Agree_len hA
  have hcopy : ∀ (r : Option Handle) (mc2 : Memory) (U2 : FeatureModel),
      SetRoot.call ord Root mc U = .ok (r, mc2, U2) →
      FeatureModelCopyTransaction.call ord mc { FM := some U } (.setRoot Root)
        = .ok (mc2, { FM := some U2 }) := by
    intro r mc2 U2 h
    simp [FeatureModelCopyTransaction.call, FeatureModelCopyTransactionBase.setRootImpl,
      h, bind, Except.bind, Except.map, pure, Except.pure]
  cases Root with
  | none => simp [Modification.resolvesAt] at hres
  | some f =>
    simp only [Modification.resolvesAt, Bool.and_eq_true, beq_iff_eq] at hres
    obtain ⟨⟨hpar, hch⟩, hR⟩ := hres
    cases hgf : M.getFeature f.name with
    | some x =>
      have hgf2 : U.getFeature f.name = some (x + off) := by
        rw [Agree_getFeature hA, hgf]; rfl
      exact ⟨mm, _, mc, _, exec_of_SetRoot (SetRoot_call_run_taken ord mm M f x hgf),
        hcopy _ _ _ (SetRoot_call_run_taken ord mc U f (x + off) hgf2),
        Agree_congr hA rfl rfl rfl rfl rfl rfl rfl rfl rfl rfl rfl rfl rfl rfl⟩
    | none =>
      have hgf2 : U.getFeature f.name = none := by
        rw [Agree_getFeature hA, hgf]; rfl
      have hfeat : U.features ++ [(f.name, mc.nodes.length)] =
          (M.features ++ [(f.name, mm.nodes.length)]).map (fun e => (e.1, e.2 + off)) := by
        rw [List.map_append, hA.features, hlen]
        rfl
      have hview1 : View.shifted off
          ({ mm with nodes := mm.nodes ++ [f] } : Memory).view
          ({ mc with nodes := mc.nodes ++ [f] } : Memory).view := by
        rw [Memory_view_append, Memory_view_append]
        exact shifted_alloc hA.view f hpar hch
      by_cases hk : f.kind = NodeKind.NK_ROOT
      · cases hr : M.root with
        | none =>
          have hr2 : U.root = none := by rw [hA.root, hr]; rfl
          refine ⟨_, _, _, _, exec_of_SetRoot (SetRoot_call_run_first ord mm M f hgf hk hr),
            hcopy _ _ _ (SetRoot_call_run_first ord mc U f hgf2 hk hr2), ?_⟩
          refine ⟨hview1, hfeat, ?_, hA.relationships, hA.metaName, hA.metaCommit,
            hA.metaPath⟩
          show some mc.nodes.length = Option.map (· + off) (some mm.nodes.length)
          rw [hlen]; rfl
        | some R =>
          rw [hr] at hR
          cases hrn : mm.nodes[R]? with
          | none => simp [hrn] at hR
          | some rn =>
            simp only [hrn, List.all_eq_true, decide_eq_true_eq] at hR
            have hr2 : U.root = some (R + off) := by rw [hA.root, hr]; rfl
            obtain ⟨rn2, hrn2, hname, -, -, hchildren⟩ := shifted_node hA.view hrn
            have hR2 : ∀ C ∈ rn2.children, C < mc.nodes.length := by
              intro C hC
              obtain ⟨z, hz, hzm⟩ := (hchildren C).mp hC
              rw [hz, hlen]
              exact Nat.add_lt_add_right (hR z hzm) _
            obtain ⟨mm2, hcall, l2, k2, n2, p2, c2⟩ :=
              SetRoot_call_run_replace ord mm M f rn R hk hgf hr hrn hR
            obtain ⟨mc2, hcall2, lw, kw, nw, pw, cw⟩ :=
              SetRoot_call_run_replace ord mc U f rn2 (R + off) hk hgf2 hr2 hrn2 hR2
            refine ⟨mm2, _, mc2, _, exec_of_SetRoot hcall, hcopy _ _ _ hcall2, ?_⟩
            refine ⟨?_, ?_, ?_, hA.relationships, hA.metaName, hA.metaCommit, hA.metaPath⟩
            · rw [hlen] at pw cw
              exact shifted_rootAll (shifted_alloc hA.view f hpar hch) mm.nodes.length R
                rn.children rn2.children hchildren l2 k2 n2 p2 c2 lw kw nw pw cw
            · show List.filter (fun e => !(e.1 == rn2.name))
                  (U.features ++ [(f.name, mc.nodes.length)]) =
                List.map (fun e => (e.1, e.2 + off))
                  (List.filter (fun e => !(e.1 == rn.name))
                    (M.features ++ [(f.name, mm.nodes.length)]))
              rw [hfeat, hname, List.filter_map]
              rfl
            · show some mc.nodes.length = Option.map (· + off) (some mm.nodes.length)
              rw [hlen]; rfl
      · exact ⟨_, _, _, _, exec_of_SetRoot (SetRoot_call_run_cast_fails ord mm M f hgf hk),
          hcopy _ _ _ (SetRoot_call_run_cast_fails ord mc U f hgf2 hk),
          ⟨hview1, hfeat, hA.root, hA.relationships, hA.metaName, hA.metaCommit,
            hA.metaPath⟩⟩

/-- The step of the two strategies for `addRelationship`. -/
theorem agree_addRelationship {off : Nat} (ord : SortOrder) {mm mc : Memory}
    {M U : FeatureModel} (Kind : RelationshipKind) (Parent : FeatureVariant)
    (Children : ChildrenVariant) (hA : Agree off mm M mc U)
    (hres : (Modification.AddRelationshipToModel Kind Parent Children).resolvesAt mm M = true)
    (hport : (Modification.AddRelationshipToModel Kind Parent Children).portableAt off mm M
      = true) :
    ∃ mm2 M2 mc2 U2,
      (Modification.AddRelationshipToModel Kind Parent Children).exec ord mm M
        = .ok (mm2, M2) ∧
      FeatureModelCopyTransaction.call ord mc { FM := some U }
        (.addRelationship Kind Parent Children) = .ok (mc2, { FM := some U2 }) ∧
      Agree off mm2 M2 mc2 U2 := by
  have hlen := Agree_len hA
  simp only [Modification.resolvesAt, Bool.and_eq_true, List.all_eq_true] at hres
  obtain ⟨hP, hC⟩ := hres
  simp only [Modification.portableAt, Bool.and_eq_true, List.all_eq_true] at hport
  obtain ⟨⟨⟨hPreg, hPb⟩, hCreg⟩, hCb⟩ := hport
  obtain ⟨p, hp, hplt⟩ := isLive_iff hP
  -- the parent, translated
  have hPt : FeatureModelCopyTransactionBase.TranslateFeature mc { FM := some U }
      (FeatureModelModification.resolveVariant U Parent) = .ok (some (p + off)) := by
    cases Parent with
    | name s =>
      have hp1 : M.getFeature s = some p := hp
      have hru : FeatureModelModification.resolveVariant U (.name s) = some (p + off) := by
        show U.getFeature s = some (p + off)
        rw [Agree_getFeature hA, hp1]; rfl
      rw [hru]
      rw [hp] at hPreg
      exact TranslateFeature_clone hA hPreg
    | ptr P =>
      have hp1 : P = some p := hp
      subst hp1
      rw [hp] at hPreg
      simp only [borrowedFrom, decide_eq_true_eq] at hPb
      exact TranslateFeature_borrowed hA hPb hPreg
  -- the children, translated
  have hCt : ∃ Sc, (match Children with
        | .names s => FeatureModelCopyTransactionBase.translateChildren mc { FM := some U } []
            (s.map (fun C => FeatureModelModification.resolveVariant U (.name C)))
        | .ptrs s => FeatureModelCopyTransactionBase.translateChildren mc { FM := some U } []
            (s.map (fun C => FeatureModelModification.resolveVariant U (.ptr C))))
        = .ok Sc ∧
      ∀ y, y ∈ Sc ↔ ∃ C ∈ Children.pointers M, y = C.map (· + off) := by
    cases Children with
    | names s =>
      obtain ⟨Sc, hSc, hmem⟩ := translateChildren_ok mc { FM := some U } (fun y => y)
        (s.map (fun C => FeatureModelModification.resolveVariant U (.name C))) []
        (by
          intro C hCm
          simp only [List.mem_map] at hCm
          obtain ⟨nm, hnm, rfl⟩ := hCm
          have hreg := hCreg (FeatureModelModification.resolveVariant M (.name nm))
            (by simp only [ChildrenVariant.pointers, List.mem_map]; exact ⟨nm, hnm, rfl⟩)
          obtain ⟨g, n, hg, -, -⟩ := registered_iff hreg
          have hg1 : M.getFeature nm = some g := hg
          have hru : FeatureModelModification.resolveVariant U (.name nm) = some (g + off) := by
            show U.getFeature nm = some (g + off)
            rw [Agree_getFeature hA, hg1]; rfl
          rw [hru]
          rw [hg] at hreg
          exact TranslateFeature_clone hA hreg)
      refine ⟨Sc, hSc, ?_⟩
      intro y
      rw [hmem]
      simp only [List.not_mem_nil, false_or, List.mem_map, ChildrenVariant.pointers,
        exists_exists_and_eq_and]
      constructor
      · rintro ⟨nm, hnm, rfl⟩
        refine ⟨nm, hnm, ?_⟩
        show U.getFeature nm = (M.getFeature nm).map (· + off)
        exact Agree_getFeature hA nm
      · rintro ⟨nm, hnm, rfl⟩
        refine ⟨nm, hnm, ?_⟩
        show (M.getFeature nm).map (· + off) = U.getFeature nm
        exact (Agree_getFeature hA nm).symm
    | ptrs s =>
      obtain ⟨Sc, hSc, hmem⟩ := translateChildren_ok mc { FM := some U }
        (fun y => y.map (· + off))
        (s.map (fun C => FeatureModelModification.resolveVariant U (.ptr C))) []
        (by
          intro C hCm
          simp only [List.mem_map] at hCm
          obtain ⟨C0, hC0, rfl⟩ := hCm
          show FeatureModelCopyTransactionBase.TranslateFeature mc { FM := some U } C0 = _
          have hreg := hCreg C0 hC0
          have hCb2 : ∀ C ∈ s, borrowedFrom off C = true := by
            simpa [List.all_eq_true] using hCb
          have hbor := hCb2 C0 hC0
          obtain ⟨g, n, hg, -, -⟩ := registered_iff hreg
          subst hg
          simp only [borrowedFrom, decide_eq_true_eq] at hbor
          exact TranslateFeature_borrowed hA hbor hreg)
      refine ⟨Sc, hSc, ?_⟩
      intro y
      rw [hmem]
      simp only [List.not_mem_nil, false_or, List.mem_map, ChildrenVariant.pointers,
        exists_exists_and_eq_and]
      constructor
      · rintro ⟨C0, hC0, rfl⟩; exact ⟨C0, hC0, rfl⟩
      · rintro ⟨C0, hC0, rfl⟩; exact ⟨C0, hC0, rfl⟩
  obtain ⟨Sc, hSc, hScmem⟩ := hCt
  -- every child of the lower side is an object with a parent
  have hsome : ∀ C ∈ Children.pointers M, ∃ c : Nat, C = some c := by
    intro C hCm
    obtain ⟨c, q, hc, -⟩ := hasLiveParent_iff (hC C hCm)
    exact ⟨c, hc⟩
  have hS : ∀ x2 : Nat, some x2 ∈ Sc ↔ ∃ x : Nat, x2 = x + off ∧ some x ∈ Children.pointers M := by
    intro x2
    rw [hScmem]
    constructor
    · rintro ⟨C, hCm, hx⟩
      obtain ⟨c, hc⟩ := hsome C hCm
      subst hc
      simp only [Option.map_some', Option.some.injEq] at hx
      exact ⟨c, hx, hCm⟩
    · rintro ⟨x, hx, hxm⟩
      exact ⟨some x, hxm, by rw [hx]; rfl⟩
  have hClive : ∀ C ∈ (ChildrenVariant.ptrs Sc).pointers U, mc.hasLiveParent C = true := by
    intro C hCm
    have hCm2 : C ∈ Sc := hCm
    obtain ⟨C0, hC0, hy⟩ := (hScmem C).mp hCm2
    obtain ⟨c, hc, hl⟩ := shifted_hasLiveParent hA.view (hC C0 hC0)
    subst hc
    rw [hy]
    exact hl
  obtain ⟨m2, m3, m4, -, -, v3, hcall, l4, k4, n4, p4, c4⟩ :=
    AddRelationshipToModel_call_run mm M Kind Parent Children p hp hplt hC
  obtain ⟨w2, w3, w4, -, -, vw3, hcall2, lw4, kw4, nw4, pw4, cw4⟩ :=
    AddRelationshipToModel_call_run mc U Kind (.ptr (some (p + off))) (.ptrs Sc) (p + off) rfl
      (by rw [hlen]; exact Nat.add_lt_add_right hplt _) hClive
  refine ⟨m4, _, w4, { U with relationships := U.relationships ++ [mc.nodes.length] },
    exec_of_AddRelationshipToModel hcall, ?_, ?_⟩
  · cases Children with
    | names s =>
      simp only [] at hSc
      simp only [FeatureModelCopyTransaction.call,
        FeatureModelCopyTransactionBase.addRelationshipImpl, hSc, hPt, hcall2, bind,
        Except.bind, Except.map, pure, Except.pure]
    | ptrs s =>
      simp only [] at hSc
      simp only [FeatureModelCopyTransaction.call,
        FeatureModelCopyTransactionBase.addRelationshipImpl, hSc, hPt, hcall2, bind,
        Except.bind, Except.map, pure, Except.pure]
  · refine ⟨?_, hA.features, hA.root, ?_, hA.metaName, hA.metaCommit, hA.metaPath⟩
    · have hv3 : View.shifted off m3.view w3.view := by
        rw [v3, vw3]
        have hwl : mc.view.len = mm.view.len + off := hA.view.len
        rw [hwl]
        exact shifted_addEdge
          (shifted_setParent (shifted_alloc hA.view (Relationship.make Kind) rfl rfl) _ _) _ _
      rw [hlen] at pw4 cw4
      exact shifted_moveAll hv3 mm.nodes.length (Children.pointers M) Sc hS l4 k4 n4 p4 c4
        lw4 kw4 nw4 pw4 cw4
    · show U.relationships ++ [mc.nodes.length] =
        List.map (· + off) (M.relationships ++ [mm.nodes.length])
      rw [List.map_append, hA.relationships, hlen]
      rfl

/-- One call in the two strategies: the command on the live model and the call
on the clone both return, and the clone stays structurally equal to the live
model. -/
theorem agree_step {off : Nat} (ord : SortOrder) {mm mc : Memory} {M U : FeatureModel}
    (c : Call) (hA : Agree off mm M mc U)
    (hres : c.toModification.resolvesAt mm M = true)
    (hport : c.toModification.portableAt off mm M = true) :
    ∃ mm2 M2 mc2 U2,
      c.toModification.exec ord mm M = .ok (mm2, M2) ∧
      FeatureModelCopyTransaction.call ord mc { FM := some U } c
        = .ok (mc2, { FM := some U2 }) ∧
      Agree off mm2 M2 mc2 U2 := by
  cases c with
  | addFeature NewFeature Parent => exact agree_addFeature ord NewFeature Parent hA hres hport
  | addRelationship Kind Parent Children =>
    exact agree_addRelationship ord Kind Parent Children hA hres hport
  | addConstraint k => exact agree_addConstraint ord k hA hres hport
  | setName Name => exact (agree_metadata ord Name hA).1
  | setCommit Commit => exact (agree_metadata ord Commit hA).2.1
  | setPath Path => exact (agree_metadata ord Path hA).2.2
  | setRoot Root => exact agree_setRoot ord Root hA hres
  | addChild Parent Child => simp [Call.toModification, Modification.portableAt] at hport

/-- A call sequence in the two strategies. -/
theorem agree_calls {off : Nat} (ord : SortOrder) (O : FeatureModel) (cs : List Call) :
    ∀ {mm mc : Memory} {M U : FeatureModel}, Agree off mm M mc U →
      agreeRun off ord (cs.map Call.toModification) mm M = true →
      ∃ mm2 M2 mc2 U2,
        execAll ord (cs.map Call.toModification) mm M = .ok (mm2, M2) ∧
        CopySession.calls ord { mem := mc, original := O, T := { FM := some U } } cs
          = .ok { mem := mc2, original := O, T := { FM := some U2 } } ∧
        Agree off mm2 M2 mc2 U2 := by
  induction cs with
  | nil =>
    intro mm mc M U hA _
    exact ⟨mm, M, mc, U, rfl, rfl, hA⟩
  | cons c rest ih =>
    intro mm mc M U hA hrun
    simp only [List.map_cons, agreeRun, Bool.and_eq_true] at hrun
    obtain ⟨⟨hres, hport⟩, hrest⟩ := hrun
    obtain ⟨mm1, M1, mc1, U1, hexec, hcall, hA1⟩ := agree_step ord c hA hres hport
    rw [hexec] at hrest
    simp only [] at hrest
    obtain ⟨mm2, M2, mc2, U2, hex2, hcalls2, hA2⟩ := ih hA1 hrest
    refine ⟨mm2, M2, mc2, U2, ?_, ?_, hA2⟩
    · simp only [List.map_cons, execAll, hexec, bind, Except.bind]
      exact hex2
    · simp only [CopySession.calls, CopySession.call, hcall, bind, Except.bind, pure,
        Except.pure]
      exact hcalls2

theorem Agree_treeNodes {off : Nat} {mm mc : Memory} {M U : FeatureModel}
    (h : Agree off mm M mc U) : U.treeNodes = M.treeNodes.map (· + off) := by
  simp [FeatureModel.treeNodes, h.features, h.relationships]

/-- Structurally equal models satisfy the consistency rules together. -/
theorem Agree_valid {off : Nat} {mm mc : Memory} {M U : FeatureModel}
    (h : Agree off mm M mc U) : isFeatureModelValid mc U = isFeatureModelValid mm M := by
  have hv := h.view
  have hparz : ∀ x z : Nat, mc.view.par (z + off) = some (x + off) ↔ mm.view.par z = some x := by
    intro x z
    rw [hv.par]
    cases mm.view.par z with
    | none => simp
    | some q => simp
  have hchz : ∀ y x : Nat, mc.view.ch (y + off) (x + off) ↔ mm.view.ch y x := by
    intro y x
    rw [hv.ch]
    constructor
    · rintro ⟨z, hz, hc⟩
      have : x = z := Nat.add_right_cancel hz
      subst this
      exact hc
    · intro hc; exact ⟨x, rfl, hc⟩
  have h1 : ExactlyOneRootNode mc U = ExactlyOneRootNode mm M := by
    rw [Bool.eq_iff_iff, ExactlyOneRootNode_iff, ExactlyOneRootNode_iff, h.features,
      List.countP_map]
    have hc : List.countP
        ((fun e : String × Handle => decide (mc.view.kind e.2 = some NodeKind.NK_ROOT)) ∘
          fun e => (e.1, e.2 + off)) M.features =
        List.countP (fun e => decide (mm.view.kind e.2 = some NodeKind.NK_ROOT)) M.features := by
      apply List.countP_congr
      intro e _
      simp only [Function.comp]
      rw [hv.kind]
    rw [hc]
  have h2 : EveryFeatureRequiresParent mc U = EveryFeatureRequiresParent mm M := by
    rw [Bool.eq_iff_iff, EveryFeatureRequiresParent_iff, EveryFeatureRequiresParent_iff,
      Agree_treeNodes h]
    have hsome : ∀ x, (mc.view.par (x + off)).isSome = (mm.view.par x).isSome := by
      intro x
      rw [hv.par]
      cases mm.view.par x <;> rfl
    constructor
    · intro hh x hx
      have := hh (x + off) (by simp only [List.mem_map]; exact ⟨x, hx, rfl⟩)
      rw [hv.kind, hsome, shifted_lt hv] at this
      exact this
    · intro hh x2 hx2
      simp only [List.mem_map] at hx2
      obtain ⟨x, hx, rfl⟩ := hx2
      rw [hv.kind, hsome, shifted_lt hv]
      exact hh x hx
  have h3 : CheckFeatureParentChildRelationShip mc U
      = CheckFeatureParentChildRelationShip mm M := by
    rw [Bool.eq_iff_iff, CheckFeatureParentChildRelationShip_iff,
      CheckFeatureParentChildRelationShip_iff, Agree_treeNodes h]
    constructor
    · intro hh x hx
      obtain ⟨hlt, hup, hdown⟩ := hh (x + off) (by simp only [List.mem_map]; exact ⟨x, hx, rfl⟩)
      refine ⟨(shifted_lt hv).mp hlt, ?_, ?_⟩
      · intro y hy
        exact (hchz y x).mp (hup (y + off) ((hparz y x).mpr hy))
      · intro z hz
        exact (hparz x z).mp (hdown (z + off) ((hchz x z).mpr hz))
    · intro hh x2 hx2
      simp only [List.mem_map] at hx2
      obtain ⟨x, hx, rfl⟩ := hx2
      obtain ⟨hlt, hup, hdown⟩ := hh x hx
      refine ⟨(shifted_lt hv).mpr hlt, ?_, ?_⟩
      · intro y2 hy2
        rw [hv.par] at hy2
        cases hpx : mm.view.par x with
        | none => rw [hpx] at hy2; cases hy2
        | some y =>
          rw [hpx] at hy2
          simp only [Option.map_some', Option.some.injEq] at hy2
          subst hy2
          exact (hchz y x).mpr (hup y hpx)
      · intro z2 hz2
        obtain ⟨z, hz, hc⟩ := (hv.ch x z2).mp hz2
        subst hz
        exact (hparz x z).mpr (hdown z hc)
  simp only [isFeatureModelValid, h1, h2, h3]

/-- The clone is structurally equal to the model it was made from. -/
theorem Agree_clone (mem : Memory) (M : FeatureModel) :
    Agree mem.nodes.length mem M (M.clone mem).1 (M.clone mem).2 := by
  have hb := Memory_view_bounded mem
  have hbc := Memory_view_bounded (M.clone mem).1
  have hcl := clone_len mem M
  refine ⟨⟨Nat.le_refl _, hcl, ?_, ?_, ?_, ?_, ?_⟩, rfl, rfl, rfl, rfl, rfl, rfl⟩
  · intro x
    by_cases hx : x < mem.nodes.length
    · exact (clone_view mem M x hx).1
    · have h1 := (hb x (Nat.le_of_not_lt hx)).1
      have h2 := (hbc (x + mem.nodes.length) (by rw [hcl]; omega)).1
      rw [h1, h2]; rfl
  · intro x
    by_cases hx : x < mem.nodes.length
    · exact (clone_view mem M x hx).2.1
    · have h1 := (hb x (Nat.le_of_not_lt hx)).2.1
      have h2 := (hbc (x + mem.nodes.length) (by rw [hcl]; omega)).2.1
      rw [h1, h2]
  · intro x
    by_cases hx : x < mem.nodes.length
    · exact (clone_view mem M x hx).2.2.1
    · have h1 := (hb x (Nat.le_of_not_lt hx)).2.2.1
      have h2 := (hbc (x + mem.nodes.length) (by rw [hcl]; omega)).2.2.1
      rw [h1, h2]
  · intro x z2
    by_cases hx : x < mem.nodes.length
    · exact (clone_view mem M x hx).2.2.2 z2
    · have h1 := (hb x (Nat.le_of_not_lt hx)).2.2.2
      have h2 := (hbc (x + mem.nodes.length) (by rw [hcl]; omega)).2.2.2
      constructor
      · intro hc; exact absurd hc (h2 z2)
      · rintro ⟨z, -, hc⟩; exact absurd hc (h1 z)
  · intro x hx
    simp only [Memory.view, FeatureModel.clone]
    rw [List.getElem?_append_left hx]

/-- Claim C22.  Let the model be valid, and let a sequence of `addFeature`,
`addRelationship`, `addConstraint`, `setName`, `setCommit`, `setPath` and
`setRoot` calls be such that, on the model each command runs on, its operands
resolve: references lead to features registered under their name, handles are
handles into the original model, children to be moved have a parent, and new
objects are not linked yet.  Then the modify-mode transaction (open, calls,
commit) and the copy-mode transaction (open, calls) both return; the clone the
copy-mode transaction holds is structurally equal to the live model after the
modify-mode commit (same names, same root, same relationship nodes, same
metadata, and for every node the same kind, name, parent and child set); and
the copy-mode commit returns that clone exactly when the modify-mode commit
returns true, and null otherwise. -/
theorem C22_strategies_agree (ord : SortOrder) (mem : Memory) (M : FeatureModel)
    (cs : List Call) (hvalid : isFeatureModelValid mem M = true)
    (hrun : agreeRun mem.nodes.length ord (cs.map Call.toModification) mem M = true) :
    ∃ (b : Bool) (Sm : ModifySession) (Sc : CopySession) (U : FeatureModel),
      (ModifySession.openTransaction mem M >>= fun S => S.calls cs >>= fun S =>
        S.commit ord) = .ok (b, Sm) ∧
      (CopySession.openTransaction mem M >>= fun S => S.calls ord cs) = .ok Sc ∧
      Sc.T.FM = some U ∧
      Sc.commit.1 = (if b then some U else none) ∧
      Agree mem.nodes.length Sm.mem Sm.live Sc.mem U := by
  obtain ⟨mm2, M2, mc2, U2, hexec, hcalls, hA⟩ :=
    agree_calls ord M cs (Agree_clone mem M) hrun
  have hval := Agree_valid hA
  refine ⟨isFeatureModelValid mm2 M2,
    { mem := mm2, live := M2,
      T := { FM := !isFeatureModelValid mm2 M2,
             Modifications := (cs.map Call.toModification).map Modification.afterExec } },
    { mem := mc2, original := M, T := { FM := some U2 } }, U2, ?_, ?_, rfl, ?_, hA⟩
  · have h := ModifySession_open_calls mem M cs hvalid
    simp only [bind, Except.bind] at h ⊢
    cases ho : ModifySession.openTransaction mem M with
    | error e => rw [ho] at h; simp at h
    | ok S0 =>
      rw [ho] at h
      simp only [] at h ⊢
      rw [h]
      simp only []
      rw [ModifySession_commit_open ord _ rfl]
      simp only [hexec, Except.map]
  · simp only [CopySession.openTransaction, FeatureModelCopyTransaction.openTransaction,
      hvalid, FeatureModelCopyTransactionBase.mk_, bind, Except.bind, pure, Except.pure,
      if_true]
    exact hcalls
  · simp only [CopySession.commit, FeatureModelCopyTransaction.commit,
      FeatureModelCopyTransactionBase.commitImpl, hval]
    cases isFeatureModelValid mm2 M2 <;> rfl

/-- Claim C22 on the model of the tests, for a call sequence after which both
commits succeed and for one after which both fail (the model has two roots). -/
theorem C22_strategies_agree_witness :
    (∃ (Sm : ModifySession) (Sc : CopySession) (U : FeatureModel),
      (ModifySession.openTransaction exampleMemory exampleModel >>= fun S =>
        S.calls agreeExampleCalls >>= fun S => S.commit registryOrder) = .ok (true, Sm) ∧
      (CopySession.openTransaction exampleMemory exampleModel >>= fun S =>
        S.calls registryOrder agreeExampleCalls) = .ok Sc ∧
      Sc.commit.1 = some U ∧
      Agree 2 Sm.mem Sm.live Sc.mem U) ∧
    (∃ (Sm : ModifySession) (Sc : CopySession) (U : FeatureModel),
      (ModifySession.openTransaction exampleMemory exampleModel >>= fun S =>
        S.calls agreeFailingCalls >>= fun S => S.commit registryOrder) = .ok (false, Sm) ∧
      (CopySession.openTransaction exampleMemory exampleModel >>= fun S =>
        S.calls registryOrder agreeFailingCalls) = .ok Sc ∧
      Sc.commit.1 = none ∧ Sc.T.FM = some U ∧
      Agree 2 Sm.mem Sm.live Sc.mem U) := by
  constructor
  · obtain ⟨b, Sm, Sc, U, h1, h2, h3, h4, hA⟩ :=
      C22_strategies_agree registryOrder exampleMemory exampleModel agreeExampleCalls
        (by decide) (by decide)
    have hb : b = true := by
      have h5 : (ModifySession.openTransaction exampleMemory exampleModel >>= fun S =>
          S.calls agreeExampleCalls >>= fun S => S.commit registryOrder).map Prod.fst
            = .ok true := by rfl
      rw [h1] at h5
      exact Except.ok.inj h5
    subst hb
    exact ⟨Sm, Sc, U, h1, h2, h4, hA⟩
  · obtain ⟨b, Sm, Sc, U, h1, h2, h3, h4, hA⟩ :=
      C22_strategies_agree registryOrder exampleMemory exampleModel agreeFailingCalls
        (by decide) (by decide)
    have hb : b = false := by
      have h5 : (ModifySession.openTransaction exampleMemory exampleModel >>= fun S =>
          S.calls agreeFailingCalls >>= fun S => S.commit registryOrder).map Prod.fst
            = .ok false := by rfl
      rw [h1] at h5
      exact Except.ok.inj h5
    subst hb
    exact ⟨Sm, Sc, U, h1, h2, h4, h3, hA⟩

end vara.feature
